import Mathlib

/-!
Verification development for the rapidfuzz string-similarity core
(`src/fuzz.rs`, `src/common.rs`, `src/distance/levenshtein.rs`,
`src/distance/jaro_winkler.rs`, `src/details/distance.rs`).

The Rust sources are embedded shallowly: pure functions become Lean
functions on `List α` (sequences), `usize` becomes `Nat` (with explicit
`% 2 ^ 64` wherever the Rust code relies on wrapping 64-bit arithmetic),
`f64` scores become `ℚ` (every score produced by the core is a ratio of
integers), and code that can panic returns `Option`.
-/

set_option maxHeartbeats 2000000

namespace RapidFuzz

variable {α : Type} [DecidableEq α]

/-- Reference definition: uniform Levenshtein distance between two lists,
by the textbook head recursion.  Used as the mathematical yardstick the
embedded engines are compared against. -/
def lev : List α → List α → Nat
  | [], ys => ys.length
  | _ :: xs, [] => xs.length + 1
  | x :: xs, y :: ys =>
      min (lev xs (y :: ys) + 1)
        (min (lev (x :: xs) ys + 1) (lev xs ys + (if x = y then 0 else 1)))
termination_by xs ys => xs.length + ys.length
decreasing_by
  all_goals simp [List.length_cons]
  all_goals omega

theorem lev_nil_left (ys : List α) : lev ([] : List α) ys = ys.length := by
  simp [lev]

theorem lev_nil_right (xs : List α) : lev xs ([] : List α) = xs.length := by
  cases xs <;> simp [lev]

theorem lev_cons_cons (x y : α) (xs ys : List α) :
    lev (x :: xs) (y :: ys) =
      min (lev xs (y :: ys) + 1)
        (min (lev (x :: xs) ys + 1) (lev xs ys + (if x = y then 0 else 1))) := by
  rw [lev]

/-- Prepending to the first list raises the distance by at most one. -/
theorem lev_cons_left_le (x : α) (xs ys : List α) :
    lev (x :: xs) ys ≤ lev xs ys + 1 := by
  cases ys with
  | nil => simp [lev_nil_right]
  | cons y ys => rw [lev_cons_cons]; omega

/-- Prepending to the second list raises the distance by at most one. -/
theorem lev_cons_right_le (y : α) (xs ys : List α) :
    lev xs (y :: ys) ≤ lev xs ys + 1 := by
  cases xs with
  | nil => simp [lev_nil_left]
  | cons x xs => rw [lev_cons_cons]; omega

/-- Prepending to the second list lowers the distance by at most one. -/
theorem lev_le_cons_right (y : α) (xs ys : List α) :
    lev xs ys ≤ lev xs (y :: ys) + 1 := by
  induction xs generalizing y ys with
  | nil => simp only [lev_nil_left, List.length_cons]; omega
  | cons x xs ih =>
      have h1 := lev_cons_left_le x xs (y :: ys)
      have h2 := lev_cons_left_le x xs ys
      have h3 := ih y ys
      rw [lev_cons_cons]
      have hd : (if x = y then 0 else 1) ≤ 1 := by split <;> omega
      omega

/-- Prepending to the first list lowers the distance by at most one. -/
theorem lev_le_cons_left (x : α) (xs ys : List α) :
    lev xs ys ≤ lev (x :: xs) ys + 1 := by
  induction ys generalizing x xs with
  | nil => simp only [lev_nil_right, List.length_cons]; omega
  | cons y ys ih =>
      have h1 := lev_cons_right_le y xs ys
      have h2 := lev_cons_right_le y (x :: xs) ys
      have h3 := ih x xs
      rw [lev_cons_cons (x := x)]
      have hd : (if x = y then 0 else 1) ≤ 1 := by split <;> omega
      omega

/-- A shared head contributes nothing to the distance. -/
theorem lev_cons_cons_self (x : α) (xs ys : List α) :
    lev (x :: xs) (x :: ys) = lev xs ys := by
  have h1 := lev_le_cons_right x xs ys
  have h2 := lev_le_cons_left x xs ys
  rw [lev_cons_cons]
  split_ifs with hc
  · omega
  · exact absurd rfl hc

theorem lev_le_length_add (xs ys : List α) :
    lev xs ys ≤ xs.length + ys.length := by
  induction xs generalizing ys with
  | nil => simp [lev_nil_left]
  | cons x xs ih =>
      cases ys with
      | nil => simp [lev_nil_right]
      | cons y ys =>
          have h := ih ys
          rw [lev_cons_cons]
          simp only [List.length_cons]
          have hd : (if x = y then 0 else 1) ≤ 1 := by split <;> omega
          omega

theorem length_le_lev_add_left (xs ys : List α) :
    xs.length ≤ lev xs ys + ys.length := by
  induction xs generalizing ys with
  | nil => simp
  | cons x xs ih =>
      cases ys with
      | nil => simp [lev_nil_right]
      | cons y ys =>
          have h1 := ih (y :: ys)
          have h2 := ih ys
          have h3 := lev_le_cons_left x xs ys
          rw [lev_cons_cons]
          simp only [List.length_cons] at *
          omega

theorem length_le_lev_add_right (xs ys : List α) :
    ys.length ≤ lev xs ys + xs.length := by
  induction ys generalizing xs with
  | nil => simp
  | cons y ys ih =>
      cases xs with
      | nil => simp [lev_nil_left]
      | cons x xs =>
          have h1 := ih (x :: xs)
          have h2 := ih xs
          have h3 := lev_le_cons_right y xs ys
          rw [lev_cons_cons]
          simp only [List.length_cons] at *
          omega

/-- The last-element recurrence: the mirror image of `lev_cons_cons`.  This
is the recurrence the row-oriented dynamic programs in the source compute
with. -/
theorem lev_concat_concat (x y : α) (as bs : List α) :
    lev (as ++ [x]) (bs ++ [y]) =
      min (lev as (bs ++ [y]) + 1)
        (min (lev (as ++ [x]) bs + 1) (lev as bs + (if x = y then 0 else 1))) := by
  have key : ∀ n (as bs : List α), as.length + bs.length ≤ n →
      lev (as ++ [x]) (bs ++ [y]) =
        min (lev as (bs ++ [y]) + 1)
          (min (lev (as ++ [x]) bs + 1) (lev as bs + (if x = y then 0 else 1))) := by
    intro n
    induction n with
    | zero =>
        intro as bs h
        cases as with
        | cons a as => simp at h
        | nil =>
            cases bs with
            | cons b bs => simp at h
            | nil => simp only [List.nil_append]; rw [lev_cons_cons]
    | succ n ih =>
        intro as bs h
        cases as with
        | nil =>
            cases bs with
            | nil => simp only [List.nil_append]; rw [lev_cons_cons]
            | cons b bs =>
                have hlen : List.length ([] : List α) + bs.length ≤ n := by
                  simp only [List.length_nil, List.length_cons] at h ⊢; omega
                have h1 := ih [] bs hlen
                simp only [List.nil_append, lev_nil_left, List.length_append,
                  List.length_cons, List.length_nil] at h1
                simp only [List.nil_append, List.cons_append, lev_cons_cons,
                  lev_nil_left, lev_nil_right, List.length_append,
                  List.length_cons, List.length_nil]
                rw [h1]
                clear h1 ih h hlen
                apply le_antisymm <;> simp only [le_min_iff, min_le_iff] <;>
                  omega
        | cons a as =>
            cases bs with
            | nil =>
                have hlen : as.length + List.length ([] : List α) ≤ n := by
                  simp only [List.length_nil, List.length_cons] at h ⊢; omega
                have h1 := ih as [] hlen
                simp only [List.nil_append, List.append_nil, lev_nil_right,
                  List.length_append, List.length_cons, List.length_nil] at h1
                simp only [List.nil_append, List.append_nil, List.cons_append,
                  lev_cons_cons, lev_nil_left, lev_nil_right,
                  List.length_append, List.length_cons, List.length_nil]
                rw [h1]
                clear h1 ih h hlen
                apply le_antisymm <;> simp only [le_min_iff, min_le_iff] <;>
                  omega
            | cons b bs =>
                have h1 := ih as (b :: bs) (by
                  simp only [List.length_cons] at h ⊢; omega)
                have h2 := ih (a :: as) bs (by
                  simp only [List.length_cons] at h ⊢; omega)
                have h3 := ih as bs (by
                  simp only [List.length_cons] at h ⊢; omega)
                simp only [List.cons_append] at h1 h2
                simp only [List.cons_append, lev_cons_cons]
                rw [h1, h2, h3]
                clear h1 h2 h3 ih h
                apply le_antisymm <;> simp only [le_min_iff, min_le_iff] <;>
                  omega
  exact key (as.length + bs.length) as bs le_rfl

/-- Appending one element to either list lowers the distance by at most
one (both directions at once, for the strong induction). -/
theorem lev_le_concat (c : α) (as bs : List α) :
    lev as bs ≤ lev as (bs ++ [c]) + 1 ∧ lev as bs ≤ lev (as ++ [c]) bs + 1 := by
  have key : ∀ n (as bs : List α), as.length + bs.length ≤ n →
      lev as bs ≤ lev as (bs ++ [c]) + 1 ∧ lev as bs ≤ lev (as ++ [c]) bs + 1 := by
    intro n
    induction n with
    | zero =>
        intro as bs h
        cases as with
        | cons a as => simp at h
        | nil =>
            cases bs with
            | cons b bs => simp at h
            | nil =>
                refine ⟨?_, ?_⟩ <;>
                  simp only [List.nil_append, lev_nil_left, lev_nil_right,
                    List.length_cons, List.length_nil] <;> omega
    | succ n ih =>
        intro as bs h
        cases as with
        | nil =>
            constructor
            · simp only [lev_nil_left, List.length_append, List.length_cons,
                List.length_nil]
              omega
            · have := length_le_lev_add_right ([c] : List α) bs
              simp only [lev_nil_left, List.nil_append, List.length_cons,
                List.length_nil] at this ⊢
              omega
        | cons a as =>
            cases bs with
            | nil =>
                constructor
                · have := length_le_lev_add_left (a :: as) ([c] : List α)
                  simp only [lev_nil_right, List.nil_append, List.length_cons,
                    List.length_nil] at this ⊢
                  omega
                · simp only [lev_nil_right, List.length_append,
                    List.length_cons, List.length_nil]
                  omega
            | cons b bs =>
                have h1 := ih as (b :: bs) (by
                  simp only [List.length_cons] at h ⊢; omega)
                have h2 := ih (a :: as) bs (by
                  simp only [List.length_cons] at h ⊢; omega)
                have h3 := ih as bs (by
                  simp only [List.length_cons] at h ⊢; omega)
                simp only [List.cons_append] at h1 h2
                have hd : (if a = b then 0 else 1) ≤ 1 := by split <;> omega
                constructor
                · rw [List.cons_append, lev_cons_cons a b as bs,
                    lev_cons_cons a b as (bs ++ [c])]
                  omega
                · rw [List.cons_append, lev_cons_cons a b as bs,
                    lev_cons_cons a b (as ++ [c]) bs]
                  omega
  exact key (as.length + bs.length) as bs le_rfl

/-- A shared last element contributes nothing to the distance. -/
theorem lev_concat_concat_self (c : α) (as bs : List α) :
    lev (as ++ [c]) (bs ++ [c]) = lev as bs := by
  rw [lev_concat_concat]
  have h1 := (lev_le_concat c as bs).1
  have h2 := (lev_le_concat c as bs).2
  split_ifs with hc
  · omega
  · exact absurd rfl hc

/-- Uniform Levenshtein distance is invariant under a common suffix. -/
theorem lev_append_same_right (cs as bs : List α) :
    lev (as ++ cs) (bs ++ cs) = lev as bs := by
  induction cs using List.reverseRecOn generalizing as bs with
  | nil => simp
  | append_singleton ds d ih =>
      rw [← List.append_assoc, ← List.append_assoc, lev_concat_concat_self]
      exact ih as bs

/-- Uniform Levenshtein distance is invariant under a common prefix. -/
theorem lev_append_same_left (p as bs : List α) :
    lev (p ++ as) (p ++ bs) = lev as bs := by
  induction p with
  | nil => simp
  | cons x p ih => rw [List.cons_append, List.cons_append, lev_cons_cons_self, ih]

/-! ## The Wagner–Fischer engine (src/distance/levenshtein.rs) -/

/-- `WeightTable` from src/distance/levenshtein.rs: costs of the three
edit operations. -/
structure WeightTable where
  insertion_cost : Nat
  deletion_cost : Nat
  substitution_cost : Nat
deriving DecidableEq, Repr

/-- `Default for WeightTable`: uniform weights (1, 1, 1). -/
def WeightTable.default : WeightTable := ⟨1, 1, 1⟩

/-- Inner loop of `generalized_wagner_fischer` (src/distance/levenshtein.rs
lines 236-255): walks the rest of `s1` together with the old row's tail.
`ni` is the value just written into the current cell (the Rust
`*cur_cache`), `ci` the old value of that cell (the Rust `temp`), and the
`List Nat` argument the not-yet-overwritten tail of the cache. -/
def wfRowAux (w : WeightTable) (ch2 : α) :
    List α → List Nat → Nat → Nat → List Nat
  | [], _, _, _ => []
  | _ :: _, [], _, _ => []
  | x :: xs, ci1 :: ctail, ni, ci =>
      (if x = ch2 then ci
        else min (min (ni + w.deletion_cost) (ci + w.substitution_cost))
          (ci1 + w.insertion_cost)) ::
        wfRowAux w ch2 xs ctail
          (if x = ch2 then ci
            else min (min (ni + w.deletion_cost) (ci + w.substitution_cost))
              (ci1 + w.insertion_cost)) ci1

theorem WeightTable.default_ins : WeightTable.default.insertion_cost = 1 := rfl

theorem WeightTable.default_del : WeightTable.default.deletion_cost = 1 := rfl

theorem WeightTable.default_sub : WeightTable.default.substitution_cost = 1 := rfl

/-- One row update of `generalized_wagner_fischer` (the body of the outer
`for ch2 in s2` loop, src/distance/levenshtein.rs lines 228-256). -/
def wfRow (w : WeightTable) (ch2 : α) (s1 : List α) (cache : List Nat) :
    List Nat :=
  match cache with
  | [] => []
  | c0 :: ctail =>
      (c0 + w.insertion_cost) ::
        wfRowAux w ch2 s1 ctail (c0 + w.insertion_cost) c0

/-- `generalized_wagner_fischer` from src/distance/levenshtein.rs lines
212-259: the row-wise dynamic program over arbitrary weights.  The cache
starts as `[0, del, 2·del, …]` and the final answer is its last entry. -/
def generalized_wagner_fischer (w : WeightTable) (s1 s2 : List α) : Nat :=
  (s2.foldl (fun cache ch2 => wfRow w ch2 s1 cache)
      ((List.range (s1.length + 1)).map (fun i => i * w.deletion_cost))).getLastD 0

theorem map_congr_on {β : Type} (f g : Nat → β) :
    ∀ l : List Nat, (∀ a ∈ l, f a = g a) → l.map f = l.map g := by
  intro l
  induction l with
  | nil => intro _; rfl
  | cons a l ih =>
      intro h
      simp only [List.map_cons]
      rw [h a (by simp), ih (fun b hb => h b (by simp [hb]))]

/-- The cell recurrence the Wagner–Fischer row update implements, under
uniform weights, in terms of `lev` on prefixes. -/
theorem lev_take_cell (s1 t : List α) (c : α) (k : Nat) (hk : k < s1.length) :
    lev (s1.take (k + 1)) (t ++ [c]) =
      if s1[k] = c then lev (s1.take k) t
      else min (min (lev (s1.take k) (t ++ [c]) + 1) (lev (s1.take k) t + 1))
        (lev (s1.take (k + 1)) t + 1) := by
  have htake : s1.take (k + 1) = s1.take k ++ [s1[k]] := by
    rw [List.take_succ]
    simp [List.getElem?_eq_getElem hk]
  split_ifs with hc
  · rw [htake, hc, lev_concat_concat_self]
  · rw [htake, lev_concat_concat]
    rw [if_neg hc]
    apply le_antisymm <;> simp only [le_min_iff, min_le_iff] <;> omega

theorem wfRowAux_spec (s1 t : List α) (c : α) :
    ∀ r k, k + r = s1.length →
      wfRowAux WeightTable.default c (s1.drop k)
          ((List.range' (k + 1) r).map fun i => lev (s1.take i) t)
          (lev (s1.take k) (t ++ [c])) (lev (s1.take k) t)
        = (List.range' (k + 1) r).map fun i => lev (s1.take i) (t ++ [c]) := by
  intro r
  induction r with
  | zero =>
      intro k hk
      have hdrop : s1.drop k = [] := List.drop_eq_nil_of_le (by omega)
      rw [hdrop]
      simp [wfRowAux]
  | succ r ih =>
      intro k hk
      have hklt : k < s1.length := by omega
      rw [List.drop_eq_getElem_cons hklt, List.range'_succ]
      simp only [List.map_cons]
      rw [wfRowAux]
      simp only [WeightTable.default_ins, WeightTable.default_del,
        WeightTable.default_sub]
      rw [← lev_take_cell s1 t c k hklt]
      rw [ih (k + 1) (by omega)]

theorem wfRow_spec (s1 t : List α) (c : α) :
    wfRow WeightTable.default c s1
        ((List.range (s1.length + 1)).map fun i => lev (s1.take i) t)
      = (List.range (s1.length + 1)).map fun i => lev (s1.take i) (t ++ [c]) := by
  have hr : List.range (s1.length + 1) = 0 :: List.range' 1 s1.length := by
    rw [List.range_eq_range', List.range'_succ]
  rw [hr]
  simp only [List.map_cons]
  rw [wfRow]
  have h0 : lev (s1.take 0) t + WeightTable.default.insertion_cost
      = lev (s1.take 0) (t ++ [c]) := by
    simp [List.take_zero, lev_nil_left, WeightTable.default]
  rw [h0]
  have := wfRowAux_spec s1 t c s1.length 0 (by omega)
  rw [List.drop_zero] at this
  simp only [List.take_zero] at this h0 ⊢
  rw [this]

theorem wf_fold_spec (s1 : List α) (t : List α) :
    t.foldl (fun cache ch2 => wfRow WeightTable.default ch2 s1 cache)
        ((List.range (s1.length + 1)).map
          (fun i => i * WeightTable.default.deletion_cost))
      = (List.range (s1.length + 1)).map fun i => lev (s1.take i) t := by
  induction t using List.reverseRecOn with
  | nil =>
      simp only [List.foldl_nil]
      apply map_congr_on
      intro i hi
      rw [List.mem_range] at hi
      rw [lev_nil_right, List.length_take]
      simp [WeightTable.default]
      omega
  | append_singleton t c ih =>
      rw [List.foldl_append, ih]
      simp only [List.foldl_cons, List.foldl_nil]
      exact wfRow_spec s1 t c

/-- Under uniform weights the Wagner–Fischer engine computes the uniform
Levenshtein distance. -/
theorem generalized_wagner_fischer_uniform (s1 s2 : List α) :
    generalized_wagner_fischer WeightTable.default s1 s2 = lev s1 s2 := by
  unfold generalized_wagner_fischer
  rw [wf_fold_spec, List.range_succ, List.map_append]
  simp only [List.map_cons, List.map_nil, List.getLastD_concat]
  rw [List.take_length]

example : generalized_wagner_fischer WeightTable.default
    [10, 8, 2, 2, 20, 9] [18, 8, 2, 2, 8, 9, 11] = 3 := by decide

/-- C8: uniform-weight Levenshtein distance — as computed by the source's
Wagner–Fischer dynamic program under the default (1,1,1) weight table — is
invariant under common affix removal: prepending a shared prefix `pa` and
appending a shared suffix `sa` to both sequences leaves the distance
unchanged, so stripping the longest common prefix and suffix before
running any engine does not change the result. -/
theorem affix_invariance_uniform_levenshtein (pa sa a b : List α) :
    generalized_wagner_fischer WeightTable.default (pa ++ a ++ sa) (pa ++ b ++ sa)
      = generalized_wagner_fischer WeightTable.default a b := by
  rw [generalized_wagner_fischer_uniform, generalized_wagner_fischer_uniform,
    List.append_assoc, List.append_assoc, lev_append_same_left,
    lev_append_same_right]

/-! ## The Indel oracle and cutoff scaffolding used by `fuzz.rs`

`src/distance/indel.rs` and the `MetricUsize` trait of
`src/details/distance.rs` are not part of the staged sources, so they are
modelled from the spec (§4.10, §4.1); the cutoff shaping of
`src/common.rs` is embedded from the source. -/

/-- Modelled from the spec: the Indel engine (`src/distance/indel.rs` is
not under src/).  §4.10: "Defined as Levenshtein with weights (1,1,2)";
realized through the source's own Wagner–Fischer dynamic program at that
weight table. -/
def indel_distance (s1 s2 : List α) : Nat :=
  generalized_wagner_fischer ⟨1, 1, 2⟩ s1 s2

/-- Modelled from the spec: `norm_sim_to_norm_dist` of
`src/details/common.rs` (not under src/); §4.1: "compute as `1.0 - s`". -/
def norm_sim_to_norm_dist (s : ℚ) : ℚ := 1 - s

/-- Modelled from the spec: the Indel metric's `_normalized_distance`
(the `MetricUsize` trait of the staged `src/details/distance.rs` is the
`NormalizedMetricUsize` shape, lines 305-336): the normalized cutoff is
scaled by `maximum` and rounded up (`(maximum as f64 * score_cutoff).ceil()
as usize`), a raw distance above that cutoff is clamped to the sentinel
`cutoff_distance + 1`, and a normalized distance above `score_cutoff`
collapses to `1.0`. -/
def indel_normalized_distance (s1 s2 : List α) (score_cutoff : ℚ) : ℚ :=
  let maximum : ℚ := ((s1.length + s2.length : Nat) : ℚ)
  let cutoff_distance : Nat := ⌈maximum * score_cutoff⌉₊
  let d := indel_distance s1 s2
  let dist : Nat := if d ≤ cutoff_distance then d else cutoff_distance + 1
  let norm_dist : ℚ := if maximum ≠ 0 then (dist : ℚ) / maximum else 0
  if norm_dist ≤ score_cutoff then norm_dist else 1

/-- Modelled from the spec: the Indel metric's `_normalized_similarity`
(mirroring `NormalizedMetricUsize._normalized_similarity` of the staged
`src/details/distance.rs`, lines 338-364): translate the similarity
cutoff, take `1 -` the normalized distance, and collapse a result below
the cutoff to `0.0`. -/
def indel_normalized_similarity (s1 s2 : List α) (score_cutoff : ℚ) : ℚ :=
  let cutoff_score := norm_sim_to_norm_dist score_cutoff
  let norm_dist := indel_normalized_distance s1 s2 cutoff_score
  let norm_sim := 1 - norm_dist
  if score_cutoff ≤ norm_sim then norm_sim else 0

/-- `SimilarityCutoff for WithScoreCutoff<T>` from src/common.rs lines
81-99: `score(raw) = (raw >= self.0).then_some(raw)`. -/
def withScoreCutoff_score (cutoff raw : ℚ) : Option ℚ :=
  if cutoff ≤ raw then some raw else none

/-- `ScoreAlignment` from src/distance/common.rs. -/
structure ScoreAlignment where
  score : ℚ
  src_start : Nat
  src_end : Nat
  dest_start : Nat
  dest_end : Nat
deriving DecidableEq, Repr

/-- Ceil-free evaluation of the cutoff / sentinel / clamp pipeline the
modelled Indel normalized similarity consists of, abstracted over the
pair's combined length `L` and raw distance `d`. -/
theorem indel_norm_sim_eval (L d : Nat) (c : ℚ) :
    (let maximum : ℚ := (L : ℚ)
     let cutoff_score : ℚ := 1 - c
     let cutoff_distance : Nat := ⌈maximum * cutoff_score⌉₊
     let dist : Nat := if d ≤ cutoff_distance then d else cutoff_distance + 1
     let norm_dist : ℚ := if maximum ≠ 0 then (dist : ℚ) / maximum else 0
     let nd2 : ℚ := if norm_dist ≤ cutoff_score then norm_dist else 1
     let norm_sim : ℚ := 1 - nd2
     if c ≤ norm_sim then norm_sim else 0)
    = if L = 0 then (if c ≤ 1 then 1 else 0)
      else (if c ≤ 1 - (d : ℚ) / (L : ℚ) then 1 - (d : ℚ) / (L : ℚ) else 0) := by
  simp only []
  by_cases hL : L = 0
  · subst hL
    simp only [Nat.cast_zero, ne_eq, not_true_eq_false, if_false, if_true,
      eq_self_iff_true]
    by_cases hc1 : c ≤ 1
    · rw [if_pos (show (0:ℚ) ≤ 1 - c by linarith)]
      norm_num [hc1]
    · rw [if_neg (show ¬ ((0:ℚ) ≤ 1 - c) by intro h; exact hc1 (by linarith))]
      rw [if_neg (show ¬ (c ≤ 1 - (1:ℚ)) by intro h; exact hc1 (by linarith))]
      rw [if_neg hc1]
  · have hLq : (0 : ℚ) < (L : ℚ) := by exact_mod_cast Nat.pos_of_ne_zero hL
    have hLne : ((L : ℚ) ≠ 0) := ne_of_gt hLq
    rw [if_neg hL]
    simp only [hLne, ne_eq, not_false_eq_true, if_true]
    by_cases hsim : c ≤ 1 - (d : ℚ) / (L : ℚ)
    · have h1 : (d : ℚ) / (L : ℚ) ≤ 1 - c := by linarith
      have hdist : (d : ℚ) ≤ (1 - c) * (L : ℚ) := (div_le_iff₀ hLq).mp h1
      have hceil : d ≤ ⌈(L : ℚ) * (1 - c)⌉₊ := by
        have h2 : (d : ℚ) ≤ (⌈(L : ℚ) * (1 - c)⌉₊ : ℚ) := by
          have h3 := Nat.le_ceil ((L : ℚ) * (1 - c))
          linarith [mul_comm (1 - c) (L : ℚ)]
        exact_mod_cast h2
      rw [if_pos hceil, if_pos h1, if_pos hsim]
    · rw [if_neg hsim]
      have hnd : ¬ ((d : ℚ) / (L : ℚ) ≤ 1 - c) := by
        intro h; exact hsim (by linarith)
      by_cases hceil : d ≤ ⌈(L : ℚ) * (1 - c)⌉₊
      · rw [if_pos hceil, if_neg hnd]
        norm_num
      · rw [if_neg hceil]
        have hgt : ¬ (((⌈(L : ℚ) * (1 - c)⌉₊ + 1 : ℕ) : ℚ) / (L : ℚ) ≤ 1 - c) := by
          intro hle
          rw [div_le_iff₀ hLq] at hle
          have h3 := Nat.le_ceil ((L : ℚ) * (1 - c))
          push_cast at hle
          linarith [mul_comm (1 - c) (L : ℚ)]
        rw [if_neg hgt]
        norm_num

/-- Ceil-free characterization of the modelled Indel normalized
similarity: it returns the true normalized similarity when that reaches
the cutoff and `0.0` otherwise (and `1.0` for two empty sequences). -/
theorem indel_normalized_similarity_spec (s1 s2 : List α) (c : ℚ) :
    indel_normalized_similarity s1 s2 c =
      if s1.length + s2.length = 0 then (if c ≤ 1 then 1 else 0)
      else
        (if c ≤ 1 - (indel_distance s1 s2 : ℚ) / ((s1.length + s2.length : Nat) : ℚ)
          then 1 - (indel_distance s1 s2 : ℚ) / ((s1.length + s2.length : Nat) : ℚ)
          else 0) := by
  have h := indel_norm_sim_eval (s1.length + s2.length) (indel_distance s1 s2) c
  simpa only [indel_normalized_similarity, indel_normalized_distance,
    norm_sim_to_norm_dist] using h

/-! ## `fuzz.rs`: ratio and the partial-ratio window search -/

/-- `ratio` / `ratio_with_args` with default args from src/fuzz.rs lines
50-87: the Indel normalized similarity of the two sequences, with no
cutoff (the absent cutoff defaults to the most permissive value `0.0`). -/
def ratio (s1 s2 : List α) : ℚ :=
  indel_normalized_similarity s1 s2 0

/-- `partial_ratio` from src/fuzz.rs lines 164-174.  NOTE: the source
delegates to `ratio_with_args(s1, s2, &Args::default())` — the plain
ratio — not to the partial-ratio window search. -/
def partial_ratio (s1 s2 : List α) : ℚ :=
  ratio s1 s2

/-- One window probe of `partial_ratio_short_needle` (the shared body of
its three loops, src/fuzz.rs lines 345-430): skip when the boundary
character is not in the needle's character set, otherwise ask the Indel
comparator for the window's cutoff-shaped normalized similarity —
`none` models the `expect("score should be calculated")` panicking —
and on an improvement raise the running cutoff, record the window, and
return early (`Sum.inl`) when the similarity reaches `1.0`. -/
def prsn_step (s1 : List α) (checkChar : α) (win : List α)
    (dest : Nat × Nat) (st : ℚ × ScoreAlignment) :
    Option (Sum ScoreAlignment (ℚ × ScoreAlignment)) :=
  if ¬ (s1.contains checkChar) then some (Sum.inr st)
  else
    match withScoreCutoff_score st.1 (indel_normalized_similarity s1 win st.1) with
    | none => none
    | some ls_ratio =>
        if ls_ratio > st.2.score then
          if ls_ratio = 1 then
            some (Sum.inl
              ⟨100, st.2.src_start, st.2.src_end, dest.1, dest.2⟩)
          else
            some (Sum.inr (ls_ratio,
              ⟨ls_ratio, st.2.src_start, st.2.src_end, dest.1, dest.2⟩))
        else some (Sum.inr st)

/-- Runs one of the three window loops of `partial_ratio_short_needle`
over its list of (boundary character, window, dest interval) probes,
propagating the running state, an early return, or the panic. -/
def prsn_run (s1 : List α) :
    List (α × List α × Nat × Nat) → ℚ × ScoreAlignment →
    Option (Sum ScoreAlignment (ℚ × ScoreAlignment))
  | [], st => some (Sum.inr st)
  | (ch, win, d1, d2) :: rest, st =>
      match prsn_step s1 ch win (d1, d2) st with
      | none => none
      | some (Sum.inl r) => some (Sum.inl r)
      | some (Sum.inr st') => prsn_run s1 rest st'

/-- `partial_ratio_short_needle` from src/fuzz.rs lines 301-434,
embedded over `List α` with `Option` for the `expect` panic:

* an empty needle returns score `0.0` with all four window bounds `0`;
* otherwise the prefix windows `s2[0..i]` for `i ∈ [1, len1)`, the
  full windows `s2[i..i+len1]` for `i ∈ [0, len2-len1)` and the suffix
  windows `s2[i..]` for `i ∈ [len2-len1, len2)` are probed in order,
  each filtered by its boundary character, against the running cutoff;
* the final score is scaled by `100`.

The `score_hint` argument of the source only tunes engine selection
inside the Indel comparator and has no bearing on values, so the model
omits it. -/
def partial_ratio_short_needle [Inhabited α] (s1 s2 : List α)
    (score_cutoff : ℚ) : Option ScoreAlignment :=
  let len1 := s1.length
  let len2 := s2.length
  if len1 = 0 then
    some ⟨0, 0, 0, 0, 0⟩
  else
    let res0 : ScoreAlignment := ⟨0, 0, len1, 0, len1⟩
    let items1 := (List.range' 1 (len1 - 1)).map (fun i =>
      (s2.getD (i - 1) default, s2.take i, 0, i))
    let window_end := len2 - len1
    let items2 := (List.range window_end).map (fun i =>
      (s2.getD (i + len1 - 1) default, (s2.drop i).take len1, i, i + len1))
    let items3 := (List.range' window_end (len2 - window_end)).map (fun i =>
      (s2.getD i default, s2.drop i, i, len2))
    match prsn_run s1 items1 (score_cutoff, res0) with
    | none => none
    | some (Sum.inl r) => some r
    | some (Sum.inr st1) =>
        match prsn_run s1 items2 st1 with
        | none => none
        | some (Sum.inl r) => some r
        | some (Sum.inr st2) =>
            match prsn_run s1 items3 st2 with
            | none => none
            | some (Sum.inl r) => some r
            | some (Sum.inr st3) =>
                some { st3.2 with score := st3.2.score * 100 }

/-- C10: when the needle is empty (`len1 == 0`),
`partial_ratio_short_needle` returns, for every haystack and every
cutoff, a `ScoreAlignment` with score `0.0` and all four window bounds
(`src_start`, `src_end`, `dest_start`, `dest_end`) equal to `0`. -/
theorem partial_ratio_short_needle_empty_needle [Inhabited α]
    (s2 : List α) (c : ℚ) :
    partial_ratio_short_needle ([] : List α) s2 c
      = some ⟨0, 0, 0, 0, 0⟩ := rfl

/-- C4 (failing-input evaluation): `partial_ratio_short_needle` on the
needle `[0,1]` and haystack `[1,0]` with no cutoff reaches the
`expect("score should be calculated")` with a `None`: the prefix window
`[1]` scores `2/3` and raises the running cutoff, and the suffix window
`[1,0]` then scores `1/2 < 2/3`, so its cutoff-shaped Indel similarity
is absent and the search panics (modelled as `none`). -/
theorem partial_ratio_short_needle_expect_fails :
    partial_ratio_short_needle ([0, 1] : List ℕ) [1, 0] 0 = none := by
  have hd1 : indel_distance ([0, 1] : List ℕ) [1] = 1 := by decide
  have hd2 : indel_distance ([0, 1] : List ℕ) [1, 0] = 2 := by decide
  norm_num [partial_ratio_short_needle, prsn_run, prsn_step,
    withScoreCutoff_score, indel_normalized_similarity_spec, hd1, hd2,
    List.range', List.contains]

/-- C1 (failing-input evaluation): with `"bcd"` and `"abcde"` embedded
as `[1,2,3]` and `[0,1,2,3,4]`, the public `partial_ratio` — which the
source delegates to the plain `ratio` — returns `3/4`, while the actual
window search `partial_ratio_short_needle` returns score `100` with
source window `[0,3)` and dest window `[1,4)` as the spec expects. -/
theorem partial_ratio_bcd_abcde :
    partial_ratio ([1, 2, 3] : List ℕ) [0, 1, 2, 3, 4] = 3 / 4 ∧
    partial_ratio_short_needle ([1, 2, 3] : List ℕ) [0, 1, 2, 3, 4] 0
      = some ⟨100, 0, 3, 1, 4⟩ := by
  have hd0 : indel_distance ([1, 2, 3] : List ℕ) [0, 1, 2, 3, 4] = 2 := by
    decide
  have hd1 : indel_distance ([1, 2, 3] : List ℕ) [0, 1] = 3 := by decide
  have hd2 : indel_distance ([1, 2, 3] : List ℕ) [0, 1, 2] = 2 := by decide
  have hd3 : indel_distance ([1, 2, 3] : List ℕ) [1, 2, 3] = 0 := by decide
  constructor
  · norm_num [partial_ratio, ratio, indel_normalized_similarity_spec, hd0]
  · norm_num [partial_ratio_short_needle, prsn_run, prsn_step,
      withScoreCutoff_score, indel_normalized_similarity_spec,
      hd1, hd2, hd3, List.range', List.contains]

/-! ## `jaro_winkler.rs`: the prefix-boost wrapper

The base Jaro matcher (`src/distance/jaro.rs`) is not under src/, so the
wrapper is embedded parametrically over the Jaro similarity function it
calls; everything the claim about the wrapper says is independent of the
Jaro core's internals. -/

/-- The length of the longest common prefix of two lists. -/
def lcp_len : List α → List α → Nat
  | x :: xs, y :: ys => if x = y then lcp_len xs ys + 1 else 0
  | _, _ => 0

/-- The `prefix` count computed at the top of `similarity_without_pm`
(src/distance/jaro_winkler.rs lines 78-83):
`s1.zip(s2).take(4).take_while(|(a,b)| a == b).count()`. -/
def jw_prefix_count (s1 s2 : List α) : Nat :=
  (((s1.zip s2).take 4).takeWhile (fun p => decide (p.1 = p.2))).length

/-- `similarity_without_pm` from src/distance/jaro_winkler.rs lines
64-101, parameterized by the Jaro core `jaroFn` (a cutoff-taking
similarity, `src/distance/jaro.rs` not being under src/): translate a
cutoff above `0.7` into a Jaro cutoff, call Jaro, and boost a similarity
above `0.7` by `prefix · prefix_weight · (1 - sim)`. -/
def jw_similarity_without_pm (jaroFn : List α → List α → ℚ → ℚ)
    (s1 s2 : List α) (prefix_weight score_cutoff : ℚ) : ℚ :=
  let pfx := jw_prefix_count s1 s2
  let jaro_score_cutoff :=
    if score_cutoff > 7/10 then
      (let prefix_sim := (pfx : ℚ) * prefix_weight
       if prefix_sim ≥ 1 then 7/10
       else max (7/10) ((prefix_sim - score_cutoff) / (prefix_sim - 1)))
    else score_cutoff
  let sim := jaroFn s1 s2 jaro_score_cutoff
  if sim > 7/10 then sim + (pfx : ℚ) * prefix_weight * (1 - sim) else sim

/-- The user-facing Jaro–Winkler similarity with default args: the
`IndividualComparator::_similarity` impl (src/distance/jaro_winkler.rs
lines 152-175) calls `similarity_without_pm` with the absent cutoff
defaulting to `0.0`. -/
def jw_similarity (jaroFn : List α → List α → ℚ → ℚ)
    (s1 s2 : List α) (prefix_weight : ℚ) : ℚ :=
  jw_similarity_without_pm jaroFn s1 s2 prefix_weight 0

/-- `Args::default().prefix_weight` from src/distance/jaro_winkler.rs
line 36. -/
def jw_default_prefix_weight : ℚ := 1/10

theorem jw_prefix_count_eq_min_lcp (s1 s2 : List α) :
    jw_prefix_count s1 s2 = min 4 (lcp_len s1 s2) := by
  have key : ∀ (k : Nat) (s1 s2 : List α),
      (((s1.zip s2).take k).takeWhile (fun p => decide (p.1 = p.2))).length
        = min k (lcp_len s1 s2) := by
    intro k s1
    induction s1 generalizing k with
    | nil => intro s2; simp [lcp_len]
    | cons x xs ih =>
        intro s2
        cases s2 with
        | nil => simp [lcp_len]
        | cons y ys =>
            cases k with
            | zero => simp
            | succ k =>
                simp only [List.zip_cons_cons, List.take_succ_cons,
                  List.takeWhile_cons]
                by_cases hxy : x = y
                · subst hxy
                  simp [lcp_len, ih k ys]
                  omega
                · simp [lcp_len, hxy]
  exact key 4 s1 s2

/-- C9: for every pair of sequences (and every prefix weight `p`, of
which `0.1` is the source's default), the Jaro–Winkler similarity equals
the base Jaro similarity `J` when `J ≤ 0.7`, and otherwise equals
`J + L·p·(1−J)` where `L = min(4, length of the longest common prefix)`;
here `J` is whatever the Jaro core returns for the unchanged cutoff
`0.0`, so the statement holds for any Jaro core. -/
theorem jaro_winkler_similarity_formula
    (jaroFn : List α → List α → ℚ → ℚ) (s1 s2 : List α) (p : ℚ) :
    (jw_similarity jaroFn s1 s2 p =
      (if jaroFn s1 s2 0 ≤ 7/10 then jaroFn s1 s2 0
       else jaroFn s1 s2 0 +
         ((min 4 (lcp_len s1 s2) : Nat) : ℚ) * p * (1 - jaroFn s1 s2 0))) ∧
    jw_default_prefix_weight = 1/10 := by
  constructor
  · simp only [jw_similarity, jw_similarity_without_pm]
    rw [if_neg (by norm_num : ¬ ((0 : ℚ) > 7/10))]
    rw [jw_prefix_count_eq_min_lcp]
    by_cases h : jaroFn s1 s2 0 ≤ 7/10
    · rw [if_neg (by linarith : ¬ (jaroFn s1 s2 0 > 7/10)), if_pos h]
    · rw [if_pos (by linarith : jaroFn s1 s2 0 > 7/10), if_neg h]
  · rfl

/-! ## The Mbleven engine (src/distance/levenshtein.rs lines 311-427) -/

/-- `usize::MAX` on a 64-bit target. -/
def USIZE_MAX : Nat := 2 ^ 64 - 1

/-- `LEVENSHTEIN_MBLEVEN2018_MATRIX` from src/distance/levenshtein.rs
lines 324-337: each 8-bit integer encodes an edit sequence as a
little-endian stream of 2-bit operations (`01` = delete from s1,
`10` = insert into s1 / delete from s2, `11` = substitute). -/
def LEVENSHTEIN_MBLEVEN2018_MATRIX : List (List Nat) := [
  [0x03, 0x00, 0x00, 0x00, 0x00, 0x00, 0x00],
  [0x01, 0x00, 0x00, 0x00, 0x00, 0x00, 0x00],
  [0x0F, 0x09, 0x06, 0x00, 0x00, 0x00, 0x00],
  [0x0D, 0x07, 0x00, 0x00, 0x00, 0x00, 0x00],
  [0x05, 0x00, 0x00, 0x00, 0x00, 0x00, 0x00],
  [0x3F, 0x27, 0x2D, 0x39, 0x36, 0x1E, 0x1B],
  [0x3D, 0x37, 0x1F, 0x25, 0x19, 0x16, 0x00],
  [0x35, 0x1D, 0x17, 0x00, 0x00, 0x00, 0x00],
  [0x15, 0x00, 0x00, 0x00, 0x00, 0x00, 0x00]]

/-- The per-program walk of `mbleven2018` (src/distance/levenshtein.rs
lines 375-422): equal heads advance both sides for free; a mismatch
costs one edit and consumes the low 2-bit operation of `ops` (bit 0
advances s1, bit 1 advances s2), or — when `ops` is exhausted — breaks
and charges the remaining lengths (the popped mismatching heads are not
re-counted, exactly как the Rust iterators drop them); a single empty
side drains at one edit per element. -/
def mbleven_simulate : Nat → List α → List α → Nat
  | _, [], [] => 0
  | ops, _ :: xs, [] => 1 + mbleven_simulate ops xs []
  | ops, [], _ :: ys => 1 + mbleven_simulate ops [] ys
  | ops, x :: xs, y :: ys =>
      if x = y then mbleven_simulate ops xs ys
      else if ops = 0 then 1 + xs.length + ys.length
      else if ops % 2 = 1 then
        (if ops / 2 % 2 = 1 then 1 + mbleven_simulate (ops / 4) xs ys
         else 1 + mbleven_simulate (ops / 4) xs (y :: ys))
      else
        (if ops / 2 % 2 = 1 then 1 + mbleven_simulate (ops / 4) (x :: xs) ys
         else 1 + mbleven_simulate (ops / 4) (x :: xs) (y :: ys))
termination_by ops xs ys => xs.length + ys.length + ops
decreasing_by
  all_goals simp [List.length_cons]
  all_goals omega

/-- The program loop of `mbleven2018`: fold the minimum simulated count
over the row's programs, starting from `score_cutoff + 1` and breaking
at the first `0` entry. -/
def mbleven_loop (s1 s2 : List α) : List Nat → Nat → Nat
  | [], dist => dist
  | ops :: rest, dist =>
      if ops = 0 then dist
      else mbleven_loop s1 s2 rest (min dist (mbleven_simulate ops s1 s2))

/-- The body of `mbleven2018` after the length swap (so `s1` is the
longer side).  Returns `none` for the (reachable only when
`len_diff > score_cutoff` is large) out-of-bounds row index, which
panics in Rust. -/
def mbleven2018_main (s1 s2 : List α) (score_cutoff : Nat) : Option Nat :=
  let len_diff := s1.length - s2.length
  if score_cutoff = 1 then
    some (if len_diff = 1 ∨ s1.length ≠ 1 then USIZE_MAX else 1)
  else
    let ops_index := (score_cutoff + score_cutoff * score_cutoff) / 2 + len_diff - 1
    if ops_index < LEVENSHTEIN_MBLEVEN2018_MATRIX.length then
      some (mbleven_loop s1 s2 (LEVENSHTEIN_MBLEVEN2018_MATRIX.getD ops_index [])
        (score_cutoff + 1))
    else none

/-- `mbleven2018` from src/distance/levenshtein.rs lines 339-427: swap
so the first sequence is the longer one, then run the tabulated
programs. -/
def mbleven2018 (s1 s2 : List α) (score_cutoff : Nat) : Option Nat :=
  if s1.length < s2.length then mbleven2018_main s2 s1 score_cutoff
  else mbleven2018_main s1 s2 score_cutoff

/-! ### Evaluation lemmas for the walk -/

theorem mbleven_simulate_nil_left (ops : Nat) (ys : List α) :
    mbleven_simulate ops ([] : List α) ys = ys.length := by
  induction ys with
  | nil => simp [mbleven_simulate]
  | cons y ys ih => simp [mbleven_simulate, ih]; omega

theorem mbleven_simulate_nil_right (ops : Nat) (xs : List α) :
    mbleven_simulate ops xs ([] : List α) = xs.length := by
  induction xs with
  | nil => simp [mbleven_simulate]
  | cons x xs ih => simp [mbleven_simulate, ih]; omega

theorem mbleven_simulate_cons_cons (ops : Nat) (x y : α) (xs ys : List α) :
    mbleven_simulate ops (x :: xs) (y :: ys) =
      if x = y then mbleven_simulate ops xs ys
      else if ops = 0 then 1 + xs.length + ys.length
      else if ops % 2 = 1 then
        (if ops / 2 % 2 = 1 then 1 + mbleven_simulate (ops / 4) xs ys
         else 1 + mbleven_simulate (ops / 4) xs (y :: ys))
      else
        (if ops / 2 % 2 = 1 then 1 + mbleven_simulate (ops / 4) (x :: xs) ys
         else 1 + mbleven_simulate (ops / 4) (x :: xs) (y :: ys)) := by
  rw [mbleven_simulate]

/-! ### Soundness: every program's count dominates the true distance -/

theorem eq_of_lev_eq_zero (xs ys : List α) (h : lev xs ys = 0) : xs = ys := by
  have key : ∀ n (xs ys : List α), xs.length + ys.length ≤ n →
      lev xs ys = 0 → xs = ys := by
    intro n
    induction n with
    | zero =>
        intro xs ys hn h
        cases xs with
        | nil =>
            cases ys with
            | nil => rfl
            | cons y ys => simp at hn
        | cons x xs => simp at hn
    | succ n ih =>
        intro xs ys hn h
        cases xs with
        | nil =>
            rw [lev_nil_left] at h
            exact (List.length_eq_zero.mp h).symm
        | cons x xs =>
            cases ys with
            | nil => rw [lev_nil_right] at h; simp at h
            | cons y ys =>
                rw [lev_cons_cons] at h
                by_cases hxy : x = y
                · rw [if_pos hxy] at h
                  have h3 : lev xs ys = 0 := by omega
                  have := ih xs ys (by simp at hn ⊢; omega) h3
                  rw [hxy, this]
                · rw [if_neg hxy] at h
                  omega
  exact key (xs.length + ys.length) xs ys le_rfl h

theorem lev_comm (xs ys : List α) : lev xs ys = lev ys xs := by
  have key : ∀ n (xs ys : List α), xs.length + ys.length ≤ n →
      lev xs ys = lev ys xs := by
    intro n
    induction n with
    | zero =>
        intro xs ys hn
        cases xs with
        | nil =>
            cases ys with
            | nil => rfl
            | cons y ys => simp at hn
        | cons x xs => simp at hn
    | succ n ih =>
        intro xs ys hn
        cases xs with
        | nil => rw [lev_nil_left, lev_nil_right]
        | cons x xs =>
            cases ys with
            | nil => rw [lev_nil_left, lev_nil_right]
            | cons y ys =>
                rw [lev_cons_cons, lev_cons_cons]
                have h1 := ih xs (y :: ys) (by simp at hn ⊢; omega)
                have h2 := ih (x :: xs) ys (by simp at hn ⊢; omega)
                have h3 := ih xs ys (by simp at hn ⊢; omega)
                have hif : (if x = y then 0 else 1) = (if y = x then 0 else 1) := by
                  by_cases hxy : x = y
                  · rw [if_pos hxy, if_pos hxy.symm]
                  · rw [if_neg hxy, if_neg (fun hh => hxy hh.symm)]
                rw [h1, h2, h3, hif]
                omega
  exact key (xs.length + ys.length) xs ys le_rfl

theorem lev_le_mbleven_simulate (ops : Nat) (xs ys : List α) :
    lev xs ys ≤ mbleven_simulate ops xs ys := by
  have key : ∀ n ops (xs ys : List α), xs.length + ys.length + ops ≤ n →
      lev xs ys ≤ mbleven_simulate ops xs ys := by
    intro n
    induction n with
    | zero =>
        intro ops xs ys hn
        cases xs with
        | nil =>
            cases ys with
            | nil => simp [mbleven_simulate, lev_nil_left]
            | cons y ys => simp at hn
        | cons x xs => simp at hn
    | succ n ih =>
        intro ops xs ys hn
        cases xs with
        | nil => rw [mbleven_simulate_nil_left, lev_nil_left]
        | cons x xs =>
            cases ys with
            | nil => rw [mbleven_simulate_nil_right, lev_nil_right]
            | cons y ys =>
                rw [mbleven_simulate_cons_cons]
                by_cases hxy : x = y
                · rw [if_pos hxy]
                  subst hxy
                  rw [lev_cons_cons_self]
                  exact ih ops xs ys (by simp at hn ⊢; omega)
                · rw [if_neg hxy]
                  by_cases h0 : ops = 0
                  · rw [if_pos h0]
                    have h3 := lev_le_length_add xs ys
                    rw [lev_cons_cons, if_neg hxy]
                    omega
                  · rw [if_neg h0]
                    have hop : ops / 4 < ops :=
                      Nat.div_lt_self (Nat.pos_of_ne_zero h0) (by omega)
                    rw [lev_cons_cons, if_neg hxy]
                    by_cases hb1 : ops % 2 = 1 <;> by_cases hb2 : ops / 2 % 2 = 1
                    · rw [if_pos hb1, if_pos hb2]
                      have := ih (ops / 4) xs ys (by simp at hn ⊢; omega)
                      omega
                    · rw [if_pos hb1, if_neg hb2]
                      have := ih (ops / 4) xs (y :: ys) (by simp at hn ⊢; omega)
                      omega
                    · rw [if_neg hb1, if_pos hb2]
                      have := ih (ops / 4) (x :: xs) ys (by simp at hn ⊢; omega)
                      omega
                    · rw [if_neg hb1, if_neg hb2]
                      have h5 := ih (ops / 4) (x :: xs) (y :: ys)
                        (by simp at hn ⊢; omega)
                      rw [lev_cons_cons, if_neg hxy] at h5
                      omega
  exact key (xs.length + ys.length + ops) ops xs ys le_rfl

/-! ### The program loop: bounds and membership -/

theorem mbleven_loop_le_init (s1 s2 : List α) (l : List Nat) (d : Nat) :
    mbleven_loop s1 s2 l d ≤ d := by
  induction l generalizing d with
  | nil => simp [mbleven_loop]
  | cons ops rest ih =>
      rw [mbleven_loop]
      split
      · exact le_rfl
      · exact le_trans (ih _) (min_le_left _ _)

theorem le_mbleven_loop (s1 s2 : List α) (l : List Nat) (d : Nat) :
    min d (lev s1 s2) ≤ mbleven_loop s1 s2 l d := by
  induction l generalizing d with
  | nil => rw [mbleven_loop]; exact min_le_left _ _
  | cons ops rest ih =>
      rw [mbleven_loop]
      split
      · exact min_le_left _ _
      · refine le_trans ?_ (ih _)
        have hs := lev_le_mbleven_simulate ops s1 s2
        simp only [le_min_iff, min_le_iff]
        omega

/-- Each row of the program table lists its nonzero programs first: once a
`0` entry appears, every later entry is `0` as well (so the loop's early
break skips no program). -/
def zeros_padded : List Nat → Bool
  | [] => true
  | 0 :: rest => rest.all (· == 0)
  | _ :: rest => zeros_padded rest

theorem mbleven_loop_le_sim (s1 s2 : List α) (v : Nat) (hv0 : v ≠ 0) :
    ∀ l : List Nat, zeros_padded l = true → v ∈ l → ∀ d,
      mbleven_loop s1 s2 l d ≤ mbleven_simulate v s1 s2 := by
  intro l
  induction l with
  | nil => intro _ hv; simp at hv
  | cons ops rest ih =>
      intro hz hv d
      rw [mbleven_loop]
      by_cases h0 : ops = 0
      · rw [if_pos h0]
        subst h0
        simp only [zeros_padded, List.all_eq_true, beq_iff_eq] at hz
        rcases List.mem_cons.1 hv with h | h
        · exact absurd h hv0
        · exact absurd (hz v h) hv0
      · rw [if_neg h0]
        rcases List.mem_cons.1 hv with h | h
        · subst h
          exact le_trans (mbleven_loop_le_init s1 s2 rest _) (min_le_right _ _)
        · have hz' : zeros_padded rest = true := by
            cases ops with
            | zero => exact absurd rfl h0
            | succ k => simpa [zeros_padded] using hz
          exact ih hz' h _

/-! ### Chunk encodings: programs as little-endian streams of 2-bit ops -/

/-- Number of ops in the chunk list that consume an element of s1
(low bit set: `01` delete and `11` substitute). -/
def chunkDel1 : List Nat → Nat
  | [] => 0
  | c :: p => (if c % 2 = 1 then 1 else 0) + chunkDel1 p

/-- Number of ops in the chunk list that consume an element of s2
(high bit set: `10` insert and `11` substitute). -/
def chunkDel2 : List Nat → Nat
  | [] => 0
  | c :: p => (if c / 2 % 2 = 1 then 1 else 0) + chunkDel2 p

/-- Pack a chunk list into a program integer, little-endian, two bits per
chunk. -/
def encodeChunks : List Nat → Nat
  | [] => 0
  | c :: p => c + 4 * encodeChunks p

/-- A program integer whose low chunks are `p` and whose remaining high
part is arbitrary. -/
def progWith (p : List Nat) (ext : Nat) : Nat :=
  encodeChunks p + 4 ^ p.length * ext

theorem progWith_nil (ext : Nat) : progWith [] ext = ext := by
  simp [progWith, encodeChunks]

theorem progWith_cons (c : Nat) (p : List Nat) (ext : Nat) :
    progWith (c :: p) ext = c + 4 * progWith p ext := by
  simp [progWith, encodeChunks, pow_succ]
  ring

/-- Boolean test that the 2-bit chunks of the program `v` start with the
chunk list `p`. -/
def chunkPrefixB : List Nat → Nat → Bool
  | [], _ => true
  | c :: p, v => (v % 4 == c) && chunkPrefixB p (v / 4)

theorem chunkPrefixB_progWith (p : List Nat) (v : Nat)
    (h : chunkPrefixB p v = true) : ∃ ext, v = progWith p ext := by
  induction p generalizing v with
  | nil => exact ⟨v, (progWith_nil v).symm⟩
  | cons c p ih =>
      simp only [chunkPrefixB, Bool.and_eq_true, beq_iff_eq] at h
      obtain ⟨h1, h2⟩ := h
      obtain ⟨e, he⟩ := ih _ h2
      refine ⟨e, ?_⟩
      rw [progWith_cons, ← he]
      omega

/-- All chunk lists over `{1, 2, 3}` of length at most `n`. -/
def chunkLists : Nat → List (List Nat)
  | 0 => [[]]
  | n + 1 =>
      [] :: ((chunkLists n).map (1 :: ·) ++ (chunkLists n).map (2 :: ·) ++
        (chunkLists n).map (3 :: ·))

theorem mem_chunkLists : ∀ (n : Nat) (p : List Nat),
    (∀ c ∈ p, c = 1 ∨ c = 2 ∨ c = 3) → p.length ≤ n → p ∈ chunkLists n := by
  intro n
  induction n with
  | zero =>
      intro p hc hl
      have hp : p = [] := List.length_eq_zero.mp (Nat.le_zero.mp hl)
      subst hp
      simp [chunkLists]
  | succ n ih =>
      intro p hc hl
      cases p with
      | nil => simp [chunkLists]
      | cons c p' =>
          have hmem : p' ∈ chunkLists n :=
            ih p' (fun d hd => hc d (List.mem_cons_of_mem _ hd))
              (by simp at hl; omega)
          have hcm := hc c (List.mem_cons_self _ _)
          simp only [chunkLists, List.mem_cons, List.mem_append, List.mem_map]
          rcases hcm with rfl | rfl | rfl
          · exact Or.inr (Or.inl (Or.inl ⟨p', hmem, rfl⟩))
          · exact Or.inr (Or.inl (Or.inr ⟨p', hmem, rfl⟩))
          · exact Or.inr (Or.inr ⟨p', hmem, rfl⟩)

/-! ### The script lemma: an optimal edit script realizes the distance -/

/-- For any two sequences there is a chunk list `p` (the ops spent at
mismatches) and tail costs `t1, t2` (spent draining the surviving side)
such that `|p| + t1 + t2` equals the Levenshtein distance, the length
bookkeeping balances, and every program whose low chunks are `p` walks the
two sequences with exactly that edit count, regardless of its higher
chunks (which are never consulted, as the walk runs out of mismatches
first). -/
theorem mbleven_script_exists (xs ys : List α) :
    ∃ p t1 t2, (∀ c ∈ p, c = 1 ∨ c = 2 ∨ c = 3) ∧
      p.length + t1 + t2 = lev xs ys ∧
      (t1 = 0 ∨ t2 = 0) ∧
      xs.length + chunkDel2 p + t2 = ys.length + chunkDel1 p + t1 ∧
      ∀ ext, mbleven_simulate (progWith p ext) xs ys = lev xs ys := by
  have key : ∀ n (xs ys : List α), xs.length + ys.length ≤ n →
      ∃ p t1 t2, (∀ c ∈ p, c = 1 ∨ c = 2 ∨ c = 3) ∧
        p.length + t1 + t2 = lev xs ys ∧
        (t1 = 0 ∨ t2 = 0) ∧
        xs.length + chunkDel2 p + t2 = ys.length + chunkDel1 p + t1 ∧
        ∀ ext, mbleven_simulate (progWith p ext) xs ys = lev xs ys := by
    intro n
    induction n with
    | zero =>
        intro xs ys hn
        cases xs with
        | nil =>
            cases ys with
            | nil =>
                refine ⟨[], 0, 0, by simp, ?_, Or.inl rfl, by simp [chunkDel1, chunkDel2], ?_⟩
                · simp [lev_nil_left]
                · intro ext
                  rw [mbleven_simulate_nil_left, lev_nil_left]
            | cons y ys => simp at hn
        | cons x xs => simp at hn
    | succ n ih =>
        intro xs ys hn
        cases xs with
        | nil =>
            refine ⟨[], 0, ys.length, by simp, ?_, Or.inl rfl,
              by simp [chunkDel1, chunkDel2], ?_⟩
            · simp [lev_nil_left]
            · intro ext
              rw [mbleven_simulate_nil_left, lev_nil_left]
        | cons x xs =>
            cases ys with
            | nil =>
                refine ⟨[], xs.length + 1, 0, by simp, ?_, Or.inr rfl,
                  by simp [chunkDel1, chunkDel2], ?_⟩
                · simp [lev_nil_right]
                · intro ext
                  rw [mbleven_simulate_nil_right, lev_nil_right]
            | cons y ys =>
                by_cases hxy : x = y
                · subst hxy
                  obtain ⟨p, t1, t2, hcs, hlen, ht, hacc, hsim⟩ :=
                    ih xs ys (by simp at hn ⊢; omega)
                  refine ⟨p, t1, t2, hcs, ?_, ht, ?_, ?_⟩
                  · rw [lev_cons_cons_self]; exact hlen
                  · simp only [List.length_cons]; omega
                  · intro ext
                    rw [lev_cons_cons_self, mbleven_simulate_cons_cons, if_pos rfl]
                    exact hsim ext
                · have hcc := lev_cons_cons x y xs ys
                  rw [if_neg hxy] at hcc
                  have harm : lev (x :: xs) (y :: ys) = lev xs (y :: ys) + 1 ∨
                      lev (x :: xs) (y :: ys) = lev (x :: xs) ys + 1 ∨
                      lev (x :: xs) (y :: ys) = lev xs ys + 1 := by omega
                  rcases harm with ha | ha | ha
                  · obtain ⟨p, t1, t2, hcs, hlen, ht, hacc, hsim⟩ :=
                      ih xs (y :: ys) (by simp at hn ⊢; omega)
                    refine ⟨1 :: p, t1, t2, ?_, ?_, ht, ?_, ?_⟩
                    · intro c hc
                      rcases List.mem_cons.1 hc with rfl | hc
                      · exact Or.inl rfl
                      · exact hcs c hc
                    · simp only [List.length_cons]; omega
                    · simp only [List.length_cons, chunkDel1, chunkDel2] at hacc ⊢
                      norm_num
                      try omega
                    · intro ext
                      rw [progWith_cons, mbleven_simulate_cons_cons, if_neg hxy]
                      have hm1 : ¬(1 + 4 * progWith p ext = 0) := by omega
                      have hm2 : (1 + 4 * progWith p ext) % 2 = 1 := by omega
                      have hm3 : ¬((1 + 4 * progWith p ext) / 2 % 2 = 1) := by omega
                      have hm4 : (1 + 4 * progWith p ext) / 4 = progWith p ext := by
                        omega
                      rw [if_neg hm1, if_pos hm2, if_neg hm3, hm4, hsim ext, ha]
                      omega
                  · obtain ⟨p, t1, t2, hcs, hlen, ht, hacc, hsim⟩ :=
                      ih (x :: xs) ys (by simp at hn ⊢; omega)
                    refine ⟨2 :: p, t1, t2, ?_, ?_, ht, ?_, ?_⟩
                    · intro c hc
                      rcases List.mem_cons.1 hc with rfl | hc
                      · exact Or.inr (Or.inl rfl)
                      · exact hcs c hc
                    · simp only [List.length_cons]; omega
                    · simp only [List.length_cons, chunkDel1, chunkDel2] at hacc ⊢
                      norm_num
                      try omega
                    · intro ext
                      rw [progWith_cons, mbleven_simulate_cons_cons, if_neg hxy]
                      have hm1 : ¬(2 + 4 * progWith p ext = 0) := by omega
                      have hm2 : ¬((2 + 4 * progWith p ext) % 2 = 1) := by omega
                      have hm3 : (2 + 4 * progWith p ext) / 2 % 2 = 1 := by omega
                      have hm4 : (2 + 4 * progWith p ext) / 4 = progWith p ext := by
                        omega
                      rw [if_neg hm1, if_neg hm2, if_pos hm3, hm4, hsim ext, ha]
                      omega
                  · obtain ⟨p, t1, t2, hcs, hlen, ht, hacc, hsim⟩ :=
                      ih xs ys (by simp at hn ⊢; omega)
                    refine ⟨3 :: p, t1, t2, ?_, ?_, ht, ?_, ?_⟩
                    · intro c hc
                      rcases List.mem_cons.1 hc with rfl | hc
                      · exact Or.inr (Or.inr rfl)
                      · exact hcs c hc
                    · simp only [List.length_cons]; omega
                    · simp only [List.length_cons, chunkDel1, chunkDel2] at hacc ⊢
                      norm_num
                      try omega
                    · intro ext
                      rw [progWith_cons, mbleven_simulate_cons_cons, if_neg hxy]
                      have hm1 : ¬(3 + 4 * progWith p ext = 0) := by omega
                      have hm2 : (3 + 4 * progWith p ext) % 2 = 1 := by omega
                      have hm3 : (3 + 4 * progWith p ext) / 2 % 2 = 1 := by omega
                      have hm4 : (3 + 4 * progWith p ext) / 4 = progWith p ext := by
                        omega
                      rw [if_neg hm1, if_pos hm2, if_pos hm3, hm4, hsim ext, ha]
                      omega
  exact key (xs.length + ys.length) xs ys le_rfl

/-! ### The finite table facts -/

/-- The table row consulted for cutoff `k` and length difference `delta`. -/
def mblevenRow (k delta : Nat) : List Nat :=
  LEVENSHTEIN_MBLEVEN2018_MATRIX.getD ((k + k * k) / 2 + delta - 1) []

theorem zeros_padded_mblevenRow (k delta : Nat) :
    zeros_padded (mblevenRow k delta) = true := by
  unfold mblevenRow
  set i := (k + k * k) / 2 + delta - 1 with hi
  have h : i = 0 ∨ i = 1 ∨ i = 2 ∨ i = 3 ∨ i = 4 ∨ i = 5 ∨ i = 6 ∨ i = 7 ∨
      i = 8 ∨ 9 ≤ i := by omega
  rcases h with h | h | h | h | h | h | h | h | h | h
  all_goals try (rw [h]; decide)
  rw [List.getD_eq_default]
  · decide
  · simpa [LEVENSHTEIN_MBLEVEN2018_MATRIX] using h

/-- The tabulated programs are complete: every op/tail profile that could
realize a distance within the cutoff is the chunk-prefix of some nonzero
program in the corresponding row. -/
theorem mbleven_table_complete : ∀ k ∈ [2, 3], ∀ delta ∈ List.range (k + 1),
    ∀ p ∈ chunkLists k, ∀ t1 ∈ List.range (k + 1), ∀ t2 ∈ List.range (k + 1),
    (p.length + t1 + t2 ≤ k ∧ (t1 = 0 ∨ t2 = 0) ∧
      chunkDel1 p + t1 = chunkDel2 p + t2 + delta) →
    ∃ v ∈ mblevenRow k delta, v ≠ 0 ∧ chunkPrefixB p v = true := by
  decide

/-! ### The cutoff-1 shortcut -/

theorem two_le_lev_of_ends_differ (x y : α) (xs ys : List α)
    (hhead : x ≠ y)
    (hlast : (x :: xs).getLast? ≠ (y :: ys).getLast?)
    (hne : ¬(xs = [] ∧ ys = [])) :
    2 ≤ lev (x :: xs) (y :: ys) := by
  have h0 : lev (x :: xs) (y :: ys) ≠ 0 := by
    intro h
    have := eq_of_lev_eq_zero _ _ h
    exact hhead (by injection this)
  have h1 : lev (x :: xs) (y :: ys) ≠ 1 := by
    intro h
    rw [lev_cons_cons, if_neg hhead] at h
    have harm : lev xs (y :: ys) = 0 ∨ lev (x :: xs) ys = 0 ∨ lev xs ys = 0 := by
      omega
    rcases harm with ha | ha | ha
    · have hx := eq_of_lev_eq_zero _ _ ha
      exact hlast (by rw [hx, List.getLast?_cons_cons])
    · have hx := eq_of_lev_eq_zero _ _ ha
      exact hlast (by rw [← hx, List.getLast?_cons_cons])
    · have hx := eq_of_lev_eq_zero _ _ ha
      cases xs with
      | nil =>
          cases ys with
          | nil => exact hne ⟨rfl, rfl⟩
          | cons y' ys' => exact absurd hx.symm (List.cons_ne_nil _ _)
      | cons x' xs' =>
          cases ys with
          | nil => exact absurd hx (List.cons_ne_nil _ _)
          | cons y' ys' =>
              exact hlast (by rw [List.getLast?_cons_cons, hx,
                List.getLast?_cons_cons])
  omega

/-! ### Correctness of the Mbleven engine -/

theorem mbleven2018_main_correct (s1 s2 : List α) (k : Nat)
    (hk : k = 1 ∨ k = 2 ∨ k = 3)
    (h2 : s2 ≠ []) (hlen : s2.length ≤ s1.length)
    (hhead : s1.head? ≠ s2.head?) (hlast : s1.getLast? ≠ s2.getLast?)
    (hdiff : s1.length - s2.length ≤ k) :
    ∃ r, mbleven2018_main s1 s2 k = some r ∧
      (lev s1 s2 ≤ k → r = lev s1 s2) ∧ (k < lev s1 s2 → k < r) := by
  obtain ⟨y, ys, rfl⟩ : ∃ y ys, s2 = y :: ys := by
    cases s2 with
    | nil => exact absurd rfl h2
    | cons y ys => exact ⟨y, ys, rfl⟩
  obtain ⟨x, xs, rfl⟩ : ∃ x xs, s1 = x :: xs := by
    cases s1 with
    | nil => simp at hlen
    | cons x xs => exact ⟨x, xs, rfl⟩
  have hxy : x ≠ y := by
    intro h
    exact hhead (by rw [List.head?_cons, List.head?_cons, h])
  simp only [mbleven2018_main]
  rcases hk with rfl | hk23
  · rw [if_pos rfl]
    by_cases hcond : (x :: xs).length - (y :: ys).length = 1 ∨ (x :: xs).length ≠ 1
    · rw [if_pos hcond]
      have hne : ¬(xs = [] ∧ ys = []) := by
        rintro ⟨rfl, rfl⟩
        simp at hcond
      have hge := two_le_lev_of_ends_differ x y xs ys hxy hlast hne
      refine ⟨USIZE_MAX, rfl, ?_, ?_⟩
      · intro hle; omega
      · intro _
        have : (1 : Nat) < USIZE_MAX := by norm_num [USIZE_MAX]
        exact this
    · rw [if_neg hcond]
      push_neg at hcond
      obtain ⟨hd0, hl1⟩ := hcond
      have hxs : xs = [] := by
        simp only [List.length_cons] at hl1
        exact List.length_eq_zero.mp (by omega)
      have hys : ys = [] := by
        subst hxs
        simp only [List.length_cons, List.length_nil] at hlen
        exact List.length_eq_zero.mp (by omega)
      subst hxs; subst hys
      have hlev : lev [x] [y] = 1 := by
        rw [lev_cons_cons, if_neg hxy]
        simp only [lev_nil_left, lev_nil_right, List.length_cons,
          List.length_nil]
        omega
      exact ⟨1, rfl, fun _ => hlev.symm, fun hgt => by omega⟩
  · have hk1 : ¬(k = 1) := by rcases hk23 with rfl | rfl <;> omega
    rw [if_neg hk1]
    have hidx : (k + k * k) / 2 + ((x :: xs).length - (y :: ys).length) - 1 <
        LEVENSHTEIN_MBLEVEN2018_MATRIX.length := by
      have : LEVENSHTEIN_MBLEVEN2018_MATRIX.length = 9 := by decide
      rw [this]
      rcases hk23 with rfl | rfl <;> omega
    rw [if_pos hidx]
    set delta := (x :: xs).length - (y :: ys).length with hdelta
    have hrow : LEVENSHTEIN_MBLEVEN2018_MATRIX.getD
        ((k + k * k) / 2 + delta - 1) [] = mblevenRow k delta := rfl
    rw [hrow]
    refine ⟨_, rfl, ?_, ?_⟩
    · intro hlev
      apply le_antisymm
      · obtain ⟨p, t1, t2, hcs, hlen', ht, hacc, hsim⟩ :=
          mbleven_script_exists (x :: xs) (y :: ys)
        have hdel : chunkDel1 p + t1 = chunkDel2 p + t2 + delta := by omega
        have hplen : p.length + t1 + t2 ≤ k := by omega
        have hpmem : p ∈ chunkLists k := mem_chunkLists k p hcs (by omega)
        have hkm : k ∈ [2, 3] := by
          rcases hk23 with rfl | rfl <;> simp
        have hdm : delta ∈ List.range (k + 1) := by
          simp only [List.mem_range]; omega
        have ht1 : t1 ∈ List.range (k + 1) := by
          simp only [List.mem_range]; omega
        have ht2 : t2 ∈ List.range (k + 1) := by
          simp only [List.mem_range]; omega
        obtain ⟨v, hvmem, hvne, hvpre⟩ :=
          mbleven_table_complete k hkm delta hdm p hpmem t1 ht1 t2 ht2
            ⟨hplen, ht, hdel⟩
        obtain ⟨ext, rfl⟩ := chunkPrefixB_progWith p v hvpre
        calc mbleven_loop (x :: xs) (y :: ys) (mblevenRow k delta) (k + 1) ≤
              mbleven_simulate (progWith p ext) (x :: xs) (y :: ys) :=
            mbleven_loop_le_sim (x :: xs) (y :: ys) _ hvne _
              (zeros_padded_mblevenRow k delta) hvmem _
          _ = lev (x :: xs) (y :: ys) := hsim ext
      · have hlow := le_mbleven_loop (x :: xs) (y :: ys) (mblevenRow k delta)
          (k + 1)
        omega
    · intro hlev
      have hlow := le_mbleven_loop (x :: xs) (y :: ys) (mblevenRow k delta)
        (k + 1)
      omega

/-- **C7.** Amended Mbleven correctness: with cutoff in `{1, 2, 3}`, both
sequences non-empty, differing first and last elements, and length
difference at most the cutoff (the regime the dispatcher guarantees), the
engine returns a value equal to the Levenshtein distance whenever that
distance is within the cutoff, and a value exceeding the cutoff otherwise
(the row sentinel `cutoff + 1`, or `usize::MAX` on the cutoff-1 shortcut —
not always `usize::MAX` as claimed; see the counterexample). -/
theorem mbleven2018_correct (s1 s2 : List α) (k : Nat)
    (hk : k = 1 ∨ k = 2 ∨ k = 3) (h1 : s1 ≠ []) (h2 : s2 ≠ [])
    (hhead : s1.head? ≠ s2.head?) (hlast : s1.getLast? ≠ s2.getLast?)
    (hd1 : s1.length - s2.length ≤ k) (hd2 : s2.length - s1.length ≤ k) :
    ∃ r, mbleven2018 s1 s2 k = some r ∧
      (lev s1 s2 ≤ k → r = lev s1 s2) ∧ (k < lev s1 s2 → k < r) := by
  rw [mbleven2018]
  by_cases hlt : s1.length < s2.length
  · rw [if_pos hlt]
    obtain ⟨r, hr, ha, hb⟩ := mbleven2018_main_correct s2 s1 k hk h1
      (le_of_lt hlt) (fun h => hhead h.symm) (fun h => hlast h.symm) hd2
    refine ⟨r, hr, ?_, ?_⟩
    · rw [lev_comm]; exact ha
    · rw [lev_comm]; exact hb
  · rw [if_neg hlt]
    exact mbleven2018_main_correct s1 s2 k hk h2 (le_of_not_lt hlt) hhead
      hlast hd1

/-- Witness for `mbleven2018_correct` at `s1 = [0]`, `s2 = [1]`, `k = 1`. -/
theorem mbleven2018_correct_witness :
    ∃ r, mbleven2018 ([0] : List Nat) [1] 1 = some r ∧
      (lev ([0] : List Nat) [1] ≤ 1 → r = lev ([0] : List Nat) [1]) ∧
      (1 < lev ([0] : List Nat) [1] → 1 < r) :=
  mbleven2018_correct [0] [1] 1 (Or.inl rfl) (by decide) (by decide)
    (by decide) (by decide) (by decide) (by decide)

/-! ## The Hyyrö 2003 single-word bit-parallel engine
(src/distance/levenshtein.rs lines 435-507) -/

/-- Pattern match vector for one character: bit `i` is set iff
`s1[i] == ch`.  Modelled from the spec: the `PatternMatchVector` builder
(`src/details/pattern_match_vector.rs`) is not under src/; spec §3
describes `PM[x]` as the mask of positions of `x` in the first sequence,
which `pm.get(0, ch2)` reads back. -/
def pmVec (s1 : List α) (c : α) : Nat :=
  s1.foldr (fun a acc => 2 * acc + (if a = c then 1 else 0)) 0

/-- One iteration of the `hyrroe2003` loop body
(src/distance/levenshtein.rs lines 466-490) on the state
`(vp, vn, dist)`, over `Nat` with explicit wrapping mod `2^64`; `!x` on
`u64` is `x ^^^ (2^64 - 1)`. -/
def hyrroe2003_step (mask : Nat) (pmj : Nat) (st : Nat × Nat × Nat) :
    Nat × Nat × Nat :=
  let vp := st.1
  let vn := st.2.1
  let dist := st.2.2
  let x := pmj
  let d0 := ((((x &&& vp) + vp) % 2 ^ 64) ^^^ vp) ||| x ||| vn
  let hp := vn ||| ((d0 ||| vp) ^^^ (2 ^ 64 - 1))
  let hn := d0 &&& vp
  let dist1 := dist + (if hp &&& mask ≠ 0 then 1 else 0)
  let dist2 := dist1 - (if hn &&& mask ≠ 0 then 1 else 0)
  let hp2 := ((hp <<< 1) % 2 ^ 64) ||| 1
  let hn2 := (hn <<< 1) % 2 ^ 64
  let vp2 := hn2 ||| ((d0 ||| hp2) ^^^ (2 ^ 64 - 1))
  let vn2 := hp2 &&& d0
  (vp2, vn2, dist2)

/-- `hyrroe2003` (src/distance/levenshtein.rs lines 435-507): fold the
bit-parallel update over s2 starting from `vp = !0`, `vn = 0`,
`dist = len1`, with `mask = 1 << (len1 - 1)`; return `dist` if within
the cutoff and `usize::MAX` otherwise.  (The shift is well defined for
the engine's precondition `1 ≤ len1 ≤ 64`.) -/
def hyrroe2003 (s1 s2 : List α) (score_cutoff : Nat) : Nat :=
  let mask := 1 <<< (s1.length - 1)
  let final := s2.foldl
    (fun st c => hyrroe2003_step mask (pmVec s1 c) st) (2 ^ 64 - 1, 0, s1.length)
  if final.2.2 ≤ score_cutoff then final.2.2 else USIZE_MAX

/-- The Hyyrö loop invariant: `dist` is the distance of all of s1
against the consumed prefix `t` of s2, and for each row `i < len1` the
`VP`/`VN` bits record whether the DP column increases / decreases from
row `i` to row `i + 1`. -/
def hyrroeInv (s1 t : List α) (st : Nat × Nat × Nat) : Prop :=
  st.2.2 = lev s1 t ∧
  ∀ i < s1.length,
    (st.1.testBit i = true ↔
      lev (s1.take (i + 1)) t = lev (s1.take i) t + 1) ∧
    (st.2.1.testBit i = true ↔
      lev (s1.take i) t = lev (s1.take (i + 1)) t + 1)

/-! ### Ripple-carry arithmetic -/

/-- The carry into bit `i` of the addition `a + b`. -/
def carryAt (a b i : Nat) : Bool := decide (2 ^ i ≤ a % 2 ^ i + b % 2 ^ i)

theorem carryAt_zero (a b : Nat) : carryAt a b 0 = false := by
  simp [carryAt, Nat.mod_one]

theorem carryAt_succ (a b i : Nat) :
    carryAt a b (i + 1) =
      ((a.testBit i && b.testBit i) ||
        ((a.testBit i || b.testBit i) && carryAt a b i)) := by
  rw [Bool.eq_iff_iff]
  simp only [carryAt, Bool.and_eq_true, Bool.or_eq_true, decide_eq_true_eq,
    Nat.testBit_to_div_mod]
  rw [Nat.mod_pow_succ, Nat.mod_pow_succ]
  have hpa : a % 2 ^ i < 2 ^ i := Nat.mod_lt _ (Nat.two_pow_pos i)
  have hpb : b % 2 ^ i < 2 ^ i := Nat.mod_lt _ (Nat.two_pow_pos i)
  have hpow : 2 ^ (i + 1) = 2 * 2 ^ i := by ring
  rcases Nat.mod_two_eq_zero_or_one (a / 2 ^ i) with ha2 | ha2 <;>
    rcases Nat.mod_two_eq_zero_or_one (b / 2 ^ i) with hb2 | hb2 <;>
    (rw [hpow]
     simp [ha2, hb2]
     try omega)

theorem testBit_add_carryAt (a b i : Nat) :
    (a + b).testBit i = ((a.testBit i ^^ b.testBit i) ^^ carryAt a b i) := by
  simp only [Nat.testBit_to_div_mod, carryAt]
  rw [Nat.add_div (Nat.two_pow_pos i)]
  rcases Nat.mod_two_eq_zero_or_one (a / 2 ^ i) with ha2 | ha2 <;>
    rcases Nat.mod_two_eq_zero_or_one (b / 2 ^ i) with hb2 | hb2 <;>
    rcases le_or_lt (2 ^ i) (a % 2 ^ i + b % 2 ^ i) with hc | hc
  all_goals first
    | rw [if_pos hc]
    | rw [if_neg (Nat.not_le.mpr hc)]
  all_goals try rw [Nat.add_zero]
  all_goals first
    | (have hp : (a / 2 ^ i + b / 2 ^ i + 1) % 2 = 1 := by omega
       simp [ha2, hb2, hp, hc]
       done)
    | (have hp : (a / 2 ^ i + b / 2 ^ i + 1) % 2 = 0 := by omega
       simp [ha2, hb2, hp, hc]
       done)
    | (have hp : (a / 2 ^ i + b / 2 ^ i) % 2 = 1 := by omega
       simp [ha2, hb2, hp, Nat.not_le.mpr hc]
       done)
    | (have hp : (a / 2 ^ i + b / 2 ^ i) % 2 = 0 := by omega
       simp [ha2, hb2, hp, Nat.not_le.mpr hc]
       done)

theorem and_two_pow_ne_zero (x j : Nat) :
    x &&& 2 ^ j ≠ 0 ↔ x.testBit j = true := by
  constructor
  · intro h
    by_contra hb
    apply h
    apply Nat.eq_of_testBit_eq
    intro k
    rw [Nat.testBit_and, Nat.zero_testBit]
    rcases eq_or_ne k j with rfl | hk
    · have hxf : x.testBit k = false := by
        revert hb; cases x.testBit k <;> simp
      rw [hxf]
      simp
    · rw [Nat.testBit_two_pow]
      simp [Ne.symm hk]
  · intro h h0
    have hbit : (x &&& 2 ^ j).testBit j = true := by
      rw [Nat.testBit_and, h, Nat.testBit_two_pow]
      simp
    rw [h0] at hbit
    simp at hbit

theorem testBit_not64 (a i : Nat) (h : i < 64) :
    (a ^^^ (2 ^ 64 - 1)).testBit i = !(a.testBit i) := by
  rw [Nat.testBit_xor, Nat.testBit_two_pow_sub_one]
  simp [h]

theorem testBit_pmVec (s1 : List α) (c : α) :
    ∀ i, (pmVec s1 c).testBit i = decide (s1.get? i = some c) := by
  induction s1 with
  | nil => intro i; simp [pmVec]
  | cons a s1 ih =>
      intro i
      have hunfold : pmVec (a :: s1) c
          = 2 * pmVec s1 c + (if a = c then 1 else 0) := rfl
      cases i with
      | zero =>
          rw [hunfold, Nat.testBit_zero]
          by_cases hac : a = c
          · rw [if_pos hac]
            have hm : (2 * pmVec s1 c + 1) % 2 = 1 := by omega
            simp [hm, hac]
          · rw [if_neg hac]
            have hm : (2 * pmVec s1 c + 0) % 2 = 0 := by omega
            simp [hm, hac]
      | succ i =>
          rw [hunfold, Nat.testBit_add_one]
          have hdiv : (2 * pmVec s1 c + (if a = c then 1 else 0)) / 2
              = pmVec s1 c := by
            split_ifs <;> omega
          rw [hdiv, ih i]
          simp

/-! ### Scalar facts about adjacent DP cells -/

/-- Appending one element to either list raises the distance by at most
one. -/
theorem lev_concat_le (c : α) (as bs : List α) :
    lev as (bs ++ [c]) ≤ lev as bs + 1 ∧ lev (as ++ [c]) bs ≤ lev as bs + 1 := by
  have key : ∀ n (as bs : List α), as.length + bs.length ≤ n →
      lev as (bs ++ [c]) ≤ lev as bs + 1 ∧
        lev (as ++ [c]) bs ≤ lev as bs + 1 := by
    intro n
    induction n with
    | zero =>
        intro as bs h
        cases as with
        | cons a as => simp at h
        | nil =>
            cases bs with
            | cons b bs => simp at h
            | nil =>
                refine ⟨?_, ?_⟩ <;>
                  simp only [List.nil_append, lev_nil_left, lev_nil_right,
                    List.length_cons, List.length_nil] <;> omega
    | succ n ih =>
        intro as bs h
        cases as with
        | nil =>
            constructor
            · simp only [lev_nil_left, List.length_append, List.length_cons,
                List.length_nil]
              omega
            · have := lev_le_length_add ([c] : List α) bs
              simp only [List.nil_append, lev_nil_left, List.length_cons,
                List.length_nil] at this ⊢
              omega
        | cons a as =>
            cases bs with
            | nil =>
                constructor
                · have := lev_le_length_add (a :: as) ([c] : List α)
                  simp only [List.nil_append, lev_nil_right, List.length_cons,
                    List.length_nil] at this ⊢
                  omega
                · simp only [lev_nil_right, List.length_append,
                    List.length_cons, List.length_nil]
                  omega
            | cons b bs =>
                have h1 := ih as (b :: bs) (by
                  simp only [List.length_cons] at h ⊢; omega)
                have h2 := ih (a :: as) bs (by
                  simp only [List.length_cons] at h ⊢; omega)
                have h3 := ih as bs (by
                  simp only [List.length_cons] at h ⊢; omega)
                simp only [List.cons_append] at h1 h2
                have hd : (if a = b then 0 else 1) ≤ 1 := by split <;> omega
                constructor
                · rw [List.cons_append,
                    lev_cons_cons a b as (bs ++ [c]),
                    lev_cons_cons a b as bs]
                  omega
                · rw [List.cons_append,
                    lev_cons_cons a b (as ++ [c]) bs,
                    lev_cons_cons a b as bs]
                  omega
  exact key (as.length + bs.length) as bs le_rfl

/-- Diagonal DP step: appending one element to each list keeps the
distance within `[d, d + 1]`. -/
theorem lev_diag_bounds (a c : α) (as bs : List α) :
    lev as bs ≤ lev (as ++ [a]) (bs ++ [c]) ∧
      lev (as ++ [a]) (bs ++ [c]) ≤ lev as bs + 1 := by
  have hcc := lev_concat_concat a c as bs
  have h1 := lev_le_concat c as bs
  have h2 := lev_le_concat a as bs
  constructor
  · rw [hcc]
    split_ifs with h <;>
      simp only [le_min_iff] <;> omega
  · rw [hcc]
    split_ifs with h <;> omega

/-! ### Bit semantics of one loop iteration, over an abstract DP column -/

/-- Vertical ranges for the new column, derived from the recurrence. -/
theorem hyrroe_newcol_ranges (m : Nat) (Dold Dnew : Nat → Nat) (X : Nat → Bool)
    (hh : ∀ i, i ≤ m → Dnew i ≤ Dold i + 1 ∧ Dold i ≤ Dnew i + 1)
    (hdg : ∀ i < m, Dold i ≤ Dnew (i + 1) ∧ Dnew (i + 1) ≤ Dold i + 1)
    (hrecT : ∀ i < m, X i = true → Dnew (i + 1) = Dold i)
    (hrecF : ∀ i < m, X i = false →
      Dnew (i + 1) = min (min (Dnew i + 1) (Dold i + 1)) (Dold (i + 1) + 1)) :
    ∀ i < m, Dnew (i + 1) ≤ Dnew i + 1 ∧ Dnew i ≤ Dnew (i + 1) + 1 := by
  intro i hi
  have h1 := hh i (by omega)
  have h3 := hdg i hi
  cases hX : X i with
  | true => have hr := hrecT i hi hX; omega
  | false => have hr := hrecF i hi hX; omega

/-- Semantics of the `D0` word: bit `i` is set iff the new column repeats
the old column's value one row up (diagonal equality).  The wrapping
addition's ripple carry realises the scalar carry chain
`c(i+1) = y(i) or (vp(i) and c(i))`. -/
theorem hyrroe_d0_sem (m : Nat) (h64 : m ≤ 64) (Dold Dnew : Nat → Nat)
    (X : Nat → Bool) (x vp vn : Nat)
    (hv : ∀ i < m, Dold (i + 1) ≤ Dold i + 1 ∧ Dold i ≤ Dold (i + 1) + 1)
    (hh : ∀ i, i ≤ m → Dnew i ≤ Dold i + 1 ∧ Dold i ≤ Dnew i + 1)
    (hdg : ∀ i < m, Dold i ≤ Dnew (i + 1) ∧ Dnew (i + 1) ≤ Dold i + 1)
    (hv2 : ∀ i < m, Dnew (i + 1) ≤ Dnew i + 1 ∧ Dnew i ≤ Dnew (i + 1) + 1)
    (h0 : Dnew 0 = Dold 0 + 1)
    (hrecT : ∀ i < m, X i = true → Dnew (i + 1) = Dold i)
    (hrecF : ∀ i < m, X i = false →
      Dnew (i + 1) = min (min (Dnew i + 1) (Dold i + 1)) (Dold (i + 1) + 1))
    (hx : ∀ i < m, x.testBit i = X i)
    (hvp : ∀ i < m, vp.testBit i = true ↔ Dold (i + 1) = Dold i + 1)
    (hvn : ∀ i < m, vn.testBit i = true ↔ Dold i = Dold (i + 1) + 1) :
    ∀ i < m, (((((x &&& vp) + vp) % 2 ^ 64) ^^^ vp) ||| x ||| vn).testBit i
      = true ↔ Dnew (i + 1) = Dold i := by
  have hcarry : ∀ i, i < m →
      (carryAt (x &&& vp) vp i = true ↔ Dold i = Dnew i + 1) := by
    intro i
    induction i with
    | zero =>
        intro _
        rw [carryAt_zero]
        constructor
        · intro hfalse; simp at hfalse
        · intro hD; omega
    | succ i ihc =>
        intro hi1
        have hi : i < m := by omega
        rw [carryAt_succ, Nat.testBit_and, hx i hi]
        have hvv := hv i hi
        have hh1 := hh i (by omega)
        have hh2 := hh (i + 1) (by omega)
        have hdgi := hdg i hi
        have hv2i := hv2 i hi
        have hrT := hrecT i hi
        have hrF := hrecF i hi
        cases hX : X i <;> cases hvpb : vp.testBit i
        all_goals (first | (have hr := hrT hX) | (have hr := hrF hX))
        all_goals (have hvps := hvp i hi; rw [hvpb] at hvps; simp at hvps)
        all_goals simp only [hX, hvpb, Bool.true_and, Bool.false_and,
          Bool.and_true, Bool.and_false, Bool.true_or, Bool.false_or,
          Bool.or_true, Bool.or_false]
        all_goals first
          | (rw [ihc hi]; omega)
          | (simp; omega)
  intro i hi
  have h64i : i < 64 := by omega
  rw [Nat.testBit_or, Nat.testBit_or, Nat.testBit_xor, Nat.testBit_mod_two_pow]
  rw [testBit_add_carryAt]
  simp only [h64i, decide_True, Bool.true_and]
  rw [Nat.testBit_and, hx i hi]
  have hvv := hv i hi
  have hh1 := hh i (by omega)
  have hh2 := hh (i + 1) (by omega)
  have hdgi := hdg i hi
  have hv2i := hv2 i hi
  have hrT := hrecT i hi
  have hrF := hrecF i hi
  have hci := hcarry i hi
  cases hX : X i <;> cases hvpb : vp.testBit i <;> cases hvnb : vn.testBit i
  all_goals (first | (have hr := hrT hX) | (have hr := hrF hX))
  all_goals (have hvps := hvp i hi; rw [hvpb] at hvps; simp at hvps)
  all_goals (have hvns := hvn i hi; rw [hvnb] at hvns; simp at hvns)
  all_goals simp only [hX, hvpb, hvnb, Bool.false_xor, Bool.true_xor,
    Bool.xor_false, Bool.xor_true, Bool.xor_self, Bool.and_true,
    Bool.and_false, Bool.true_and, Bool.false_and, Bool.or_true,
    Bool.or_false, Bool.true_or, Bool.false_or, Bool.not_not,
    Bool.not_false, Bool.not_true]
  all_goals first
    | (rw [hci]; omega)
    | (simp; omega)

/-- Semantics of `HP`: bit `i` is set iff the new column exceeds the old
by one at row `i + 1`. -/
theorem hyrroe_hp_sem (m : Nat) (h64 : m ≤ 64) (Dold Dnew : Nat → Nat)
    (d0 vp vn : Nat)
    (hv : ∀ i < m, Dold (i + 1) ≤ Dold i + 1 ∧ Dold i ≤ Dold (i + 1) + 1)
    (hh : ∀ i, i ≤ m → Dnew i ≤ Dold i + 1 ∧ Dold i ≤ Dnew i + 1)
    (hdg : ∀ i < m, Dold i ≤ Dnew (i + 1) ∧ Dnew (i + 1) ≤ Dold i + 1)
    (hd0 : ∀ i < m, d0.testBit i = true ↔ Dnew (i + 1) = Dold i)
    (hvp : ∀ i < m, vp.testBit i = true ↔ Dold (i + 1) = Dold i + 1)
    (hvn : ∀ i < m, vn.testBit i = true ↔ Dold i = Dold (i + 1) + 1) :
    ∀ i < m, (vn ||| ((d0 ||| vp) ^^^ (2 ^ 64 - 1))).testBit i = true ↔
      Dnew (i + 1) = Dold (i + 1) + 1 := by
  intro i hi
  have h64i : i < 64 := by omega
  rw [Nat.testBit_or, testBit_not64 _ _ h64i, Nat.testBit_or]
  have hvv := hv i hi
  have hh1 := hh i (by omega)
  have hh2 := hh (i + 1) (by omega)
  have hdgi := hdg i hi
  cases hd0b : d0.testBit i <;> cases hvpb : vp.testBit i <;>
    cases hvnb : vn.testBit i
  all_goals (have hd0s := hd0 i hi; rw [hd0b] at hd0s; simp at hd0s)
  all_goals (have hvps := hvp i hi; rw [hvpb] at hvps; simp at hvps)
  all_goals (have hvns := hvn i hi; rw [hvnb] at hvns; simp at hvns)
  all_goals simp only [hd0b, hvpb, hvnb, Bool.or_true, Bool.or_false,
    Bool.true_or, Bool.false_or, Bool.not_false, Bool.not_true]
  all_goals (simp; omega)

/-- Semantics of `HN`: bit `i` is set iff the new column drops below the
old by one at row `i + 1`. -/
theorem hyrroe_hn_sem (m : Nat) (h64 : m ≤ 64) (Dold Dnew : Nat → Nat)
    (d0 vp : Nat)
    (hv : ∀ i < m, Dold (i + 1) ≤ Dold i + 1 ∧ Dold i ≤ Dold (i + 1) + 1)
    (hh : ∀ i, i ≤ m → Dnew i ≤ Dold i + 1 ∧ Dold i ≤ Dnew i + 1)
    (hdg : ∀ i < m, Dold i ≤ Dnew (i + 1) ∧ Dnew (i + 1) ≤ Dold i + 1)
    (hd0 : ∀ i < m, d0.testBit i = true ↔ Dnew (i + 1) = Dold i)
    (hvp : ∀ i < m, vp.testBit i = true ↔ Dold (i + 1) = Dold i + 1) :
    ∀ i < m, (d0 &&& vp).testBit i = true ↔
      Dold (i + 1) = Dnew (i + 1) + 1 := by
  intro i hi
  rw [Nat.testBit_and]
  have hvv := hv i hi
  have hh1 := hh i (by omega)
  have hh2 := hh (i + 1) (by omega)
  have hdgi := hdg i hi
  cases hd0b : d0.testBit i <;> cases hvpb : vp.testBit i
  all_goals (have hd0s := hd0 i hi; rw [hd0b] at hd0s; simp at hd0s)
  all_goals (have hvps := hvp i hi; rw [hvpb] at hvps; simp at hvps)
  all_goals simp only [hd0b, hvpb, Bool.and_true, Bool.and_false,
    Bool.true_and, Bool.false_and]
  all_goals (simp; omega)

/-- Semantics of the shifted `HP` word: bit `i` records the horizontal
`+1` delta at row `i` (the `| 1` seeds row 0, whose delta is always
`+1`). -/
theorem hyrroe_hp2_sem (m : Nat) (h64 : m ≤ 64) (Dold Dnew : Nat → Nat)
    (hp : Nat)
    (h0 : Dnew 0 = Dold 0 + 1)
    (hhp : ∀ i < m, hp.testBit i = true ↔ Dnew (i + 1) = Dold (i + 1) + 1) :
    ∀ i < m, (((hp <<< 1) % 2 ^ 64) ||| 1).testBit i = true ↔
      Dnew i = Dold i + 1 := by
  intro i hi
  have h64i : i < 64 := by omega
  rw [Nat.testBit_or, Nat.testBit_mod_two_pow, Nat.testBit_shiftLeft]
  cases i with
  | zero =>
      simp only [Nat.testBit_zero]
      simp
      omega
  | succ j =>
      have hj : j < m := by omega
      have h1bit : Nat.testBit 1 (j + 1) = false := by
        have hlt : (1 : Nat) < 2 ^ (j + 1) := Nat.one_lt_two_pow (by omega)
        simp [Nat.testBit_to_div_mod, Nat.div_eq_of_lt hlt]
      rw [h1bit]
      have hge : decide (j + 1 ≥ 1) = true := by simp
      have hsub : j + 1 - 1 = j := by omega
      rw [hge, hsub]
      simp only [h64i, decide_True, Bool.true_and, Bool.or_false]
      exact hhp j hj

/-- Semantics of the shifted `HN` word: bit `i` records the horizontal
`-1` delta at row `i` (never at row 0). -/
theorem hyrroe_hn2_sem (m : Nat) (h64 : m ≤ 64) (Dold Dnew : Nat → Nat)
    (hn : Nat)
    (h0 : Dnew 0 = Dold 0 + 1)
    (hhn : ∀ i < m, hn.testBit i = true ↔ Dold (i + 1) = Dnew (i + 1) + 1) :
    ∀ i < m, ((hn <<< 1) % 2 ^ 64).testBit i = true ↔
      Dold i = Dnew i + 1 := by
  intro i hi
  have h64i : i < 64 := by omega
  rw [Nat.testBit_mod_two_pow, Nat.testBit_shiftLeft]
  cases i with
  | zero =>
      simp
      omega
  | succ j =>
      have hj : j < m := by omega
      have hge : decide (j + 1 ≥ 1) = true := by simp
      have hsub : j + 1 - 1 = j := by omega
      rw [hge, hsub]
      simp only [h64i, decide_True, Bool.true_and]
      exact hhn j hj

/-- Semantics of the new `VP` word. -/
theorem hyrroe_vp2_sem (m : Nat) (h64 : m ≤ 64) (Dold Dnew : Nat → Nat)
    (d0 hp2 hn2 : Nat)
    (hv2 : ∀ i < m, Dnew (i + 1) ≤ Dnew i + 1 ∧ Dnew i ≤ Dnew (i + 1) + 1)
    (hh : ∀ i, i ≤ m → Dnew i ≤ Dold i + 1 ∧ Dold i ≤ Dnew i + 1)
    (hdg : ∀ i < m, Dold i ≤ Dnew (i + 1) ∧ Dnew (i + 1) ≤ Dold i + 1)
    (hd0 : ∀ i < m, d0.testBit i = true ↔ Dnew (i + 1) = Dold i)
    (hhp2 : ∀ i < m, hp2.testBit i = true ↔ Dnew i = Dold i + 1)
    (hhn2 : ∀ i < m, hn2.testBit i = true ↔ Dold i = Dnew i + 1) :
    ∀ i < m, (hn2 ||| ((d0 ||| hp2) ^^^ (2 ^ 64 - 1))).testBit i = true ↔
      Dnew (i + 1) = Dnew i + 1 := by
  intro i hi
  have h64i : i < 64 := by omega
  rw [Nat.testBit_or, testBit_not64 _ _ h64i, Nat.testBit_or]
  have hv2i := hv2 i hi
  have hh1 := hh i (by omega)
  have hh2 := hh (i + 1) (by omega)
  have hdgi := hdg i hi
  cases hd0b : d0.testBit i <;> cases hb2 : hp2.testBit i <;>
    cases hbn : hn2.testBit i
  all_goals (have hd0s := hd0 i hi; rw [hd0b] at hd0s; simp at hd0s)
  all_goals (have hp2s := hhp2 i hi; rw [hb2] at hp2s; simp at hp2s)
  all_goals (have hn2s := hhn2 i hi; rw [hbn] at hn2s; simp at hn2s)
  all_goals simp only [hd0b, hb2, hbn, Bool.or_true, Bool.or_false,
    Bool.true_or, Bool.false_or, Bool.not_false, Bool.not_true]
  all_goals (simp; omega)

/-- Semantics of the new `VN` word. -/
theorem hyrroe_vn2_sem (m : Nat) (h64 : m ≤ 64) (Dold Dnew : Nat → Nat)
    (d0 hp2 : Nat)
    (hv2 : ∀ i < m, Dnew (i + 1) ≤ Dnew i + 1 ∧ Dnew i ≤ Dnew (i + 1) + 1)
    (hh : ∀ i, i ≤ m → Dnew i ≤ Dold i + 1 ∧ Dold i ≤ Dnew i + 1)
    (hdg : ∀ i < m, Dold i ≤ Dnew (i + 1) ∧ Dnew (i + 1) ≤ Dold i + 1)
    (hd0 : ∀ i < m, d0.testBit i = true ↔ Dnew (i + 1) = Dold i)
    (hhp2 : ∀ i < m, hp2.testBit i = true ↔ Dnew i = Dold i + 1) :
    ∀ i < m, (hp2 &&& d0).testBit i = true ↔
      Dnew i = Dnew (i + 1) + 1 := by
  intro i hi
  rw [Nat.testBit_and]
  have hv2i := hv2 i hi
  have hh1 := hh i (by omega)
  have hh2 := hh (i + 1) (by omega)
  have hdgi := hdg i hi
  cases hd0b : d0.testBit i <;> cases hb2 : hp2.testBit i
  all_goals (have hd0s := hd0 i hi; rw [hd0b] at hd0s; simp at hd0s)
  all_goals (have hp2s := hhp2 i hi; rw [hb2] at hp2s; simp at hp2s)
  all_goals simp only [hd0b, hb2, Bool.and_true, Bool.and_false,
    Bool.true_and, Bool.false_and]
  all_goals (simp; omega)

/-- The distance update: add the `HP` bit at the mask, subtract the `HN`
bit. -/
theorem hyrroe_dist_sem (m : Nat) (hm : 1 ≤ m) (Dold Dnew : Nat → Nat)
    (hpv hnv : Nat) (dist : Nat)
    (hh : ∀ i, i ≤ m → Dnew i ≤ Dold i + 1 ∧ Dold i ≤ Dnew i + 1)
    (hhp : ∀ i < m, hpv.testBit i = true ↔ Dnew (i + 1) = Dold (i + 1) + 1)
    (hhn : ∀ i < m, hnv.testBit i = true ↔ Dold (i + 1) = Dnew (i + 1) + 1)
    (hdist : dist = Dold m) :
    dist + (if hpv &&& (1 <<< (m - 1)) ≠ 0 then 1 else 0)
      - (if hnv &&& (1 <<< (m - 1)) ≠ 0 then 1 else 0) = Dnew m := by
  have hmask : (1 : Nat) <<< (m - 1) = 2 ^ (m - 1) := by
    rw [Nat.shiftLeft_eq, Nat.one_mul]
  rw [hmask]
  have hm1 : m - 1 < m := by omega
  have hhp1 := hhp (m - 1) hm1
  have hhn1 := hhn (m - 1) hm1
  have hm1' : m - 1 + 1 = m := by omega
  rw [hm1'] at hhp1 hhn1
  have hhm := hh m le_rfl
  by_cases hb1 : hpv.testBit (m - 1) = true <;>
    by_cases hb2 : hnv.testBit (m - 1) = true
  all_goals first
    | rw [if_pos ((and_two_pow_ne_zero hpv (m - 1)).mpr hb1)]
    | rw [if_neg (fun hcon => hb1 ((and_two_pow_ne_zero hpv (m - 1)).mp hcon))]
  all_goals first
    | rw [if_pos ((and_two_pow_ne_zero hnv (m - 1)).mpr hb2)]
    | rw [if_neg (fun hcon => hb2 ((and_two_pow_ne_zero hnv (m - 1)).mp hcon))]
  all_goals first
    | have hs1 := hhp1.mp hb1
    | have hs1 : ¬(Dnew m = Dold m + 1) := fun hs => hb1 (hhp1.mpr hs)
  all_goals first
    | have hs2 := hhn1.mp hb2
    | have hs2 : ¬(Dold m = Dnew m + 1) := fun hs => hb2 (hhn1.mpr hs)
  all_goals omega

/-- Full semantics of one step of the bit-parallel loop: it maps a state
encoding the old DP column to a state encoding the new one. -/
theorem hyrroe_step_spec (m : Nat) (hm : 1 ≤ m) (h64 : m ≤ 64)
    (Dold Dnew : Nat → Nat) (X : Nat → Bool) (x vp vn dist : Nat)
    (hv : ∀ i < m, Dold (i + 1) ≤ Dold i + 1 ∧ Dold i ≤ Dold (i + 1) + 1)
    (hh : ∀ i, i ≤ m → Dnew i ≤ Dold i + 1 ∧ Dold i ≤ Dnew i + 1)
    (hdg : ∀ i < m, Dold i ≤ Dnew (i + 1) ∧ Dnew (i + 1) ≤ Dold i + 1)
    (h0 : Dnew 0 = Dold 0 + 1)
    (hrecT : ∀ i < m, X i = true → Dnew (i + 1) = Dold i)
    (hrecF : ∀ i < m, X i = false →
      Dnew (i + 1) = min (min (Dnew i + 1) (Dold i + 1)) (Dold (i + 1) + 1))
    (hx : ∀ i < m, x.testBit i = X i)
    (hvp : ∀ i < m, vp.testBit i = true ↔ Dold (i + 1) = Dold i + 1)
    (hvn : ∀ i < m, vn.testBit i = true ↔ Dold i = Dold (i + 1) + 1)
    (hdist : dist = Dold m) :
    (hyrroe2003_step (1 <<< (m - 1)) x (vp, vn, dist)).2.2 = Dnew m ∧
    (∀ i < m,
      (hyrroe2003_step (1 <<< (m - 1)) x (vp, vn, dist)).1.testBit i = true ↔
        Dnew (i + 1) = Dnew i + 1) ∧
    (∀ i < m,
      (hyrroe2003_step (1 <<< (m - 1)) x (vp, vn, dist)).2.1.testBit i = true ↔
        Dnew i = Dnew (i + 1) + 1) := by
  have hv2 := hyrroe_newcol_ranges m Dold Dnew X hh hdg hrecT hrecF
  have hd0 := hyrroe_d0_sem m h64 Dold Dnew X x vp vn hv hh hdg hv2 h0 hrecT
    hrecF hx hvp hvn
  have hhp := hyrroe_hp_sem m h64 Dold Dnew _ vp vn hv hh hdg hd0 hvp hvn
  have hhn := hyrroe_hn_sem m h64 Dold Dnew _ vp hv hh hdg hd0 hvp
  have hhp2 := hyrroe_hp2_sem m h64 Dold Dnew _ h0 hhp
  have hhn2 := hyrroe_hn2_sem m h64 Dold Dnew _ h0 hhn
  have hvp2 := hyrroe_vp2_sem m h64 Dold Dnew _ _ _ hv2 hh hdg hd0 hhp2 hhn2
  have hvn2 := hyrroe_vn2_sem m h64 Dold Dnew _ _ hv2 hh hdg hd0 hhp2
  have hdi := hyrroe_dist_sem m hm Dold Dnew _ _ dist hh hhp hhn hdist
  exact ⟨hdi, hvp2, hvn2⟩

/-! ### The loop invariant for the concrete columns -/

theorem hyrroeInv_step (s1 t : List α) (c : α) (st : Nat × Nat × Nat)
    (hm : 1 ≤ s1.length) (h64 : s1.length ≤ 64)
    (hinv : hyrroeInv s1 t st) :
    hyrroeInv s1 (t ++ [c])
      (hyrroe2003_step (1 <<< (s1.length - 1)) (pmVec s1 c) st) := by
  obtain ⟨vp, vn, dist⟩ := st
  obtain ⟨hdist, hbits⟩ := hinv
  have hdist' : dist = lev s1 t := hdist
  have hvA : ∀ i < s1.length,
      lev (s1.take (i + 1)) t ≤ lev (s1.take i) t + 1 ∧
        lev (s1.take i) t ≤ lev (s1.take (i + 1)) t + 1 := by
    intro i hi
    have htake : s1.take (i + 1) = s1.take i ++ [s1[i]] := by
      rw [List.take_succ]
      simp [List.getElem?_eq_getElem hi]
    rw [htake]
    exact ⟨(lev_concat_le (s1[i]) (s1.take i) t).2,
      (lev_le_concat (s1[i]) (s1.take i) t).2⟩
  have hhA : ∀ i, i ≤ s1.length →
      lev (s1.take i) (t ++ [c]) ≤ lev (s1.take i) t + 1 ∧
        lev (s1.take i) t ≤ lev (s1.take i) (t ++ [c]) + 1 :=
    fun i _ => ⟨(lev_concat_le c (s1.take i) t).1,
      (lev_le_concat c (s1.take i) t).1⟩
  have hdgA : ∀ i < s1.length,
      lev (s1.take i) t ≤ lev (s1.take (i + 1)) (t ++ [c]) ∧
        lev (s1.take (i + 1)) (t ++ [c]) ≤ lev (s1.take i) t + 1 := by
    intro i hi
    have htake : s1.take (i + 1) = s1.take i ++ [s1[i]] := by
      rw [List.take_succ]
      simp [List.getElem?_eq_getElem hi]
    rw [htake]
    exact lev_diag_bounds (s1[i]) c (s1.take i) t
  have h0A : lev (s1.take 0) (t ++ [c]) = lev (s1.take 0) t + 1 := by
    simp [lev_nil_left]
  have hrecTA : ∀ i < s1.length, decide (s1.get? i = some c) = true →
      lev (s1.take (i + 1)) (t ++ [c]) = lev (s1.take i) t := by
    intro i hi hdec
    rw [decide_eq_true_eq] at hdec
    have hgs : s1[i] = c := by
      rw [List.get?_eq_getElem?, List.getElem?_eq_getElem hi] at hdec
      simpa using hdec
    have hcell := lev_take_cell s1 t c i hi
    rw [if_pos hgs] at hcell
    exact hcell
  have hrecFA : ∀ i < s1.length, decide (s1.get? i = some c) = false →
      lev (s1.take (i + 1)) (t ++ [c]) =
        min (min (lev (s1.take i) (t ++ [c]) + 1) (lev (s1.take i) t + 1))
          (lev (s1.take (i + 1)) t + 1) := by
    intro i hi hdec
    have hgs : ¬(s1[i] = c) := by
      intro hcon
      have hsome : s1.get? i = some c := by
        rw [List.get?_eq_getElem?, List.getElem?_eq_getElem hi, hcon]
      rw [hsome] at hdec
      simp at hdec
    have hcell := lev_take_cell s1 t c i hi
    rw [if_neg hgs] at hcell
    exact hcell
  have hxA : ∀ i < s1.length,
      (pmVec s1 c).testBit i = decide (s1.get? i = some c) :=
    fun i _ => testBit_pmVec s1 c i
  have hvpA : ∀ i < s1.length, vp.testBit i = true ↔
      lev (s1.take (i + 1)) t = lev (s1.take i) t + 1 :=
    fun i hi => (hbits i hi).1
  have hvnA : ∀ i < s1.length, vn.testBit i = true ↔
      lev (s1.take i) t = lev (s1.take (i + 1)) t + 1 :=
    fun i hi => (hbits i hi).2
  have hdistA : dist = lev (s1.take s1.length) t := by
    rw [List.take_length]
    exact hdist'
  have hstep := hyrroe_step_spec s1.length hm h64
    (fun i => lev (s1.take i) t) (fun i => lev (s1.take i) (t ++ [c]))
    (fun i => decide (s1.get? i = some c)) (pmVec s1 c) vp vn dist
    hvA hhA hdgA h0A hrecTA hrecFA hxA hvpA hvnA hdistA
  constructor
  · have h1 := hstep.1
    simp only [List.take_length] at h1
    exact h1
  · intro i hi
    exact ⟨hstep.2.1 i hi, hstep.2.2 i hi⟩

theorem hyrroeInv_init (s1 : List α) (h64 : s1.length ≤ 64) :
    hyrroeInv s1 [] (2 ^ 64 - 1, 0, s1.length) := by
  constructor
  · exact (lev_nil_right s1).symm
  · intro i hi
    have htt : lev (s1.take (i + 1)) ([] : List α) = i + 1 := by
      rw [lev_nil_right, List.length_take]
      omega
    have ht2 : lev (s1.take i) ([] : List α) = i := by
      rw [lev_nil_right, List.length_take]
      omega
    constructor
    · rw [Nat.testBit_two_pow_sub_one]
      simp [htt, ht2, show i < 64 by omega]
    · simp [Nat.zero_testBit, htt, ht2]
      omega

theorem hyrroe2003_loop_inv (s1 : List α) (hm : 1 ≤ s1.length)
    (h64 : s1.length ≤ 64) :
    ∀ (s2 t : List α) (st : Nat × Nat × Nat), hyrroeInv s1 t st →
      hyrroeInv s1 (t ++ s2)
        (s2.foldl (fun st c => hyrroe2003_step (1 <<< (s1.length - 1))
          (pmVec s1 c) st) st) := by
  intro s2
  induction s2 with
  | nil => intro t st hinv; simpa using hinv
  | cons c s2 ih =>
      intro t st hinv
      rw [List.foldl_cons]
      have hone := hyrroeInv_step s1 t c st hm h64 hinv
      have hrest := ih (t ++ [c]) _ hone
      simpa [List.append_assoc] using hrest

/-- **C6.** Correctness of the Hyyrö single-word bit-parallel engine:
under the precondition `1 ≤ len1 ≤ 64`, the loop starting from
`VP = all-ones`, `VN = 0`, `d = len1` and applying the `D0`/`HP`/`HN`
update for each element of s2 ends with `d` equal to the uniform
Levenshtein distance of the two sequences, and `hyrroe2003` returns `d`
when `d ≤ score_cutoff` and `usize::MAX` otherwise. -/
theorem hyrroe2003_correct (s1 s2 : List α) (k : Nat)
    (hm : 1 ≤ s1.length) (h64 : s1.length ≤ 64) :
    (s2.foldl (fun st c => hyrroe2003_step (1 <<< (s1.length - 1))
        (pmVec s1 c) st) (2 ^ 64 - 1, 0, s1.length)).2.2 = lev s1 s2 ∧
    hyrroe2003 s1 s2 k = if lev s1 s2 ≤ k then lev s1 s2 else USIZE_MAX := by
  have h := hyrroe2003_loop_inv s1 hm h64 s2 [] _ (hyrroeInv_init s1 h64)
  rw [List.nil_append] at h
  refine ⟨h.1, ?_⟩
  simp only [hyrroe2003]
  rw [h.1]

/-- Witness for `hyrroe2003_correct` at `s1 = [0]`, `s2 = [1]`, `k = 0`. -/
theorem hyrroe2003_correct_witness :
    (([1] : List Nat).foldl (fun st c =>
        hyrroe2003_step (1 <<< (([0] : List Nat).length - 1))
          (pmVec ([0] : List Nat) c) st)
      (2 ^ 64 - 1, 0, ([0] : List Nat).length)).2.2 = lev ([0] : List Nat) [1] ∧
    hyrroe2003 ([0] : List Nat) [1] 0 =
      if lev ([0] : List Nat) [1] ≤ 0 then lev ([0] : List Nat) [1]
      else USIZE_MAX :=
  hyrroe2003_correct [0] [1] 0 (by decide) (by decide)

/-! ## The Hyyrö small-band engine: extended DP matrix

The band algorithm's 64-bit window slides one row per column, so its
bits can cover "virtual" rows below the end of s1 (which never match
anything).  `extDP s1 s2 i j` is the Levenshtein DP value at row `i`,
column `j` of the matrix for `s1` extended downwards by non-matching
padding; for `i ≤ s1.length` it coincides with
`lev (s1.take i) (s2.take j)`. -/

/-- `s1` mapped into `Option α` and padded with `none` up to length `i`
(the padding never matches a real element of s2). -/
def padded (s1 : List α) (i : Nat) : List (Option α) :=
  (s1.map some).take i ++ List.replicate (i - s1.length) none

/-- Row `i` of a list (0-based) as an `Option`, `none` beyond the end. -/
def padElt (s1 : List α) (i : Nat) : Option α :=
  if h : i < s1.length then some s1[i] else none

def extDP (s1 s2 : List α) (i j : Nat) : Nat :=
  lev (padded s1 i) ((s2.map some).take j)

theorem padded_length (s1 : List α) (i : Nat) : (padded s1 i).length = i := by
  simp only [padded, List.length_append, List.length_take, List.length_map,
    List.length_replicate]
  omega

theorem padded_succ (s1 : List α) (i : Nat) :
    padded s1 (i + 1) = padded s1 i ++ [padElt s1 i] := by
  by_cases h : i < s1.length
  · have hmap : i < (s1.map some).length := by simpa using h
    have htake : (s1.map some).take (i + 1)
        = (s1.map some).take i ++ [(s1.map some)[i]] := by
      rw [List.take_succ]
      simp [List.getElem?_eq_getElem hmap]
    have hel : padElt s1 i = (s1.map some)[i] := by
      simp [padElt, h]
    simp only [padded, htake, hel]
    have h0 : i + 1 - s1.length = 0 := by omega
    have h0' : i - s1.length = 0 := by omega
    simp [h0, h0']
  · have hle : s1.length ≤ i := by omega
    have htake : ∀ t, s1.length ≤ t → (s1.map some).take t = s1.map some := by
      intro t ht
      apply List.take_of_length_le
      simpa using ht
    have hel : padElt s1 i = none := by
      simp [padElt, h]
    simp only [padded, htake i hle, htake (i + 1) (by omega), hel]
    have hrep : i + 1 - s1.length = (i - s1.length) + 1 := by omega
    rw [hrep, List.replicate_succ', List.append_assoc]

theorem map_some_take_succ (s2 : List α) (j : Nat) (hj : j < s2.length) :
    (s2.map some).take (j + 1)
      = (s2.map some).take j ++ [padElt s2 j] := by
  have hmap : j < (s2.map some).length := by simpa using hj
  rw [List.take_succ]
  simp [List.getElem?_eq_getElem hmap, padElt, hj]

/-- `lev` is invariant under mapping both lists through `some`. -/
theorem lev_map_some (xs ys : List α) :
    lev (xs.map some) (ys.map some) = lev xs ys := by
  have key : ∀ n (xs ys : List α), xs.length + ys.length ≤ n →
      lev (xs.map some) (ys.map some) = lev xs ys := by
    intro n
    induction n with
    | zero =>
        intro xs ys h
        cases xs with
        | cons x xs => simp at h
        | nil =>
            cases ys with
            | cons y ys => simp at h
            | nil => simp [lev_nil_left]
    | succ n ih =>
        intro xs ys h
        cases xs with
        | nil => simp [lev_nil_left]
        | cons x xs =>
            cases ys with
            | nil => simp [lev_nil_right]
            | cons y ys =>
                simp only [List.map_cons]
                rw [lev_cons_cons, lev_cons_cons]
                have h1 := ih xs ys (by simp at h ⊢; omega)
                have h2 := ih (x :: xs) ys (by simp at h ⊢; omega)
                have h3 := ih xs (y :: ys) (by simp at h ⊢; omega)
                simp only [List.map_cons] at h2 h3
                rw [h1, h2, h3]
                by_cases hxy : x = y
                · rw [if_pos hxy, if_pos (by rw [hxy])]
                · rw [if_neg hxy, if_neg (by simpa using hxy)]
  exact key (xs.length + ys.length) xs ys le_rfl

/-- The distance never exceeds the longer length. -/
theorem lev_le_max (xs ys : List α) :
    lev xs ys ≤ max xs.length ys.length := by
  have key : ∀ n (xs ys : List α), xs.length + ys.length ≤ n →
      lev xs ys ≤ max xs.length ys.length := by
    intro n
    induction n with
    | zero =>
        intro xs ys h
        cases xs with
        | cons x xs => simp at h
        | nil => simp [lev_nil_left]
    | succ n ih =>
        intro xs ys h
        cases xs with
        | nil => simp [lev_nil_left]
        | cons x xs =>
            cases ys with
            | nil => simp [lev_nil_right]
            | cons y ys =>
                rw [lev_cons_cons]
                have h1 := ih xs ys (by simp at h ⊢; omega)
                have h2 := ih (x :: xs) ys (by simp at h ⊢; omega)
                have h3 := ih xs (y :: ys) (by simp at h ⊢; omega)
                simp only [List.length_cons] at h1 h2 h3 ⊢
                split_ifs <;> omega
  exact key (xs.length + ys.length) xs ys le_rfl

/-! Basic values and adjacency bounds for `extDP`, all inherited from the
corresponding `lev` lemmas through the padded representation. -/

theorem extDP_zero_left (s1 s2 : List α) (j : Nat) (hj : j ≤ s2.length) :
    extDP s1 s2 0 j = j := by
  simp only [extDP, padded, Nat.zero_sub, List.take_zero, List.replicate_zero,
    List.nil_append]
  rw [lev_nil_left]
  simp
  omega

theorem extDP_zero_right (s1 s2 : List α) (i : Nat) :
    extDP s1 s2 i 0 = i := by
  simp only [extDP]
  rw [List.take_zero, lev_nil_right, padded_length]

theorem extDP_vert (s1 s2 : List α) (i j : Nat) :
    extDP s1 s2 (i + 1) j ≤ extDP s1 s2 i j + 1 ∧
      extDP s1 s2 i j ≤ extDP s1 s2 (i + 1) j + 1 := by
  simp only [extDP, padded_succ]
  exact ⟨(lev_concat_le _ _ _).2, (lev_le_concat _ _ _).2⟩

theorem extDP_horiz (s1 s2 : List α) (i j : Nat) (hj : j < s2.length) :
    extDP s1 s2 i (j + 1) ≤ extDP s1 s2 i j + 1 ∧
      extDP s1 s2 i j ≤ extDP s1 s2 i (j + 1) + 1 := by
  simp only [extDP, map_some_take_succ s2 j hj]
  exact ⟨(lev_concat_le _ _ _).1, (lev_le_concat _ _ _).1⟩

theorem extDP_diag (s1 s2 : List α) (i j : Nat) (hj : j < s2.length) :
    extDP s1 s2 i j ≤ extDP s1 s2 (i + 1) (j + 1) ∧
      extDP s1 s2 (i + 1) (j + 1) ≤ extDP s1 s2 i j + 1 := by
  simp only [extDP, padded_succ, map_some_take_succ s2 j hj]
  exact lev_diag_bounds _ _ _ _

/-- The DP cell recurrence for `extDP`, in the same shape as
`lev_take_cell`. -/
theorem extDP_cell (s1 s2 : List α) (i j : Nat) (hj : j < s2.length) :
    extDP s1 s2 (i + 1) (j + 1) =
      if padElt s1 i = padElt s2 j then extDP s1 s2 i j
      else min (min (extDP s1 s2 i (j + 1) + 1) (extDP s1 s2 i j + 1))
        (extDP s1 s2 (i + 1) j + 1) := by
  have hk : i < (padded s1 (i + 1)).length := by rw [padded_length]; omega
  have hcell := lev_take_cell (padded s1 (i + 1)) ((s2.map some).take j)
    (padElt s2 j) i hk
  have htake1 : (padded s1 (i + 1)).take (i + 1) = padded s1 (i + 1) := by
    apply List.take_of_length_le
    rw [padded_length]
  have htake0 : (padded s1 (i + 1)).take i = padded s1 i := by
    rw [padded_succ]
    rw [List.take_append_of_le_length (by rw [padded_length])]
    apply List.take_of_length_le
    rw [padded_length]
  have hgq : (padded s1 (i + 1))[i]? = some (padElt s1 i) := by
    rw [padded_succ]
    rw [List.getElem?_append_right (by rw [padded_length])]
    simp [padded_length]
  have hget : (padded s1 (i + 1))[i] = padElt s1 i := by
    have h2 := List.getElem?_eq_getElem hk
    rw [hgq] at h2
    exact (Option.some.injEq _ _).mp h2.symm
  rw [htake1, htake0] at hcell
  simp only [hget] at hcell
  rw [← map_some_take_succ s2 j hj] at hcell
  simpa [extDP] using hcell

/-- The cell recurrence in pure-min form: when the elements match, the
diagonal value is also the minimum of the three candidate terms. -/
theorem extDP_cell_min (s1 s2 : List α) (i j : Nat) (hj : j < s2.length) :
    extDP s1 s2 (i + 1) (j + 1) =
      min (min (extDP s1 s2 i (j + 1) + 1) (extDP s1 s2 (i + 1) j + 1))
        (extDP s1 s2 i j +
          (if padElt s1 i = padElt s2 j then 0 else 1)) := by
  rw [extDP_cell s1 s2 i j hj]
  have hv := extDP_vert s1 s2 i (j + 1)
  have hh := extDP_horiz s1 s2 i j hj
  have hh2 := extDP_horiz s1 s2 (i + 1) j hj
  have hv2 := extDP_vert s1 s2 i j
  split_ifs with hm
  · omega
  · omega

/-- The DP value dominates the diagonal offset in both directions. -/
theorem extDP_ge_offset (s1 s2 : List α) (i j : Nat) (hj : j ≤ s2.length) :
    i - j ≤ extDP s1 s2 i j ∧ j - i ≤ extDP s1 s2 i j := by
  have h1 := length_le_lev_add_left (padded s1 i) ((s2.map some).take j)
  have h2 := length_le_lev_add_right (padded s1 i) ((s2.map some).take j)
  rw [padded_length] at h1 h2
  have hlen : ((s2.map some).take j).length = j := by simp; omega
  rw [hlen] at h1 h2
  constructor
  · have := h1
    simp only [extDP]
    omega
  · have := h2
    simp only [extDP]
    omega

theorem extDP_le_max (s1 s2 : List α) (i j : Nat) (hj : j ≤ s2.length) :
    extDP s1 s2 i j ≤ max i j := by
  have h := lev_le_max (padded s1 i) ((s2.map some).take j)
  rw [padded_length] at h
  have hlen : ((s2.map some).take j).length = j := by simp; omega
  rw [hlen] at h
  exact h

/-- On real rows the extended DP is the Levenshtein distance of the
prefixes. -/
theorem extDP_eq_lev (s1 s2 : List α) (i j : Nat) (hi : i ≤ s1.length) :
    extDP s1 s2 i j = lev (s1.take i) (s2.take j) := by
  have hpad : padded s1 i = (s1.take i).map some := by
    simp only [padded]
    have h0 : i - s1.length = 0 := by omega
    rw [h0, List.replicate_zero, List.append_nil, List.map_take]
  have htk : (s2.map some).take j = (s2.take j).map some := by
    rw [List.map_take]
  rw [extDP, hpad, htk, lev_map_some]
/-! ## The band-restricted DP

`bandDP` is the Levenshtein DP restricted to the Ukkonen band of half
width `k`: predecessors outside the band are not available.  Cells
outside the band get the dummy value `i + j` (large enough never to be
preferred over an in-band predecessor).  The band algorithm's window
values are sandwiched between `extDP` and `bandDP`. -/

def bandDP (s1 s2 : List α) (k : Nat) : Nat → Nat → Nat
  | 0, j => j
  | i + 1, 0 => i + 1
  | i + 1, j + 1 =>
      if i + 1 ≤ j + 1 + k ∧ j + 1 ≤ i + 1 + k then
        min (min ((if j + 1 ≤ i + k then bandDP s1 s2 k i (j + 1) else i + j + 1) + 1)
            ((if i + 1 ≤ j + k then bandDP s1 s2 k (i + 1) j else i + j + 1) + 1))
          (bandDP s1 s2 k i j + (if padElt s1 i = padElt s2 j then 0 else 1))
      else i + j + 2
  termination_by i j => (i, j)

theorem extDP_full (s1 s2 : List α) :
    extDP s1 s2 s1.length s2.length = lev s1 s2 := by
  rw [extDP_eq_lev s1 s2 _ _ le_rfl, List.take_length, List.take_length]

/-- The band-restricted DP dominates the unrestricted one. -/
theorem extDP_le_bandDP (s1 s2 : List α) (k : Nat) :
    ∀ n i j, i + j ≤ n → j ≤ s2.length →
      extDP s1 s2 i j ≤ bandDP s1 s2 k i j := by
  intro n
  induction n with
  | zero =>
      intro i j hn hj
      have hi : i = 0 := by omega
      have hj0 : j = 0 := by omega
      subst hi; subst hj0
      rw [extDP_zero_right, bandDP]
  | succ n ih =>
      intro i j hn hj
      match i, j with
      | 0, j => rw [extDP_zero_left s1 s2 j hj, bandDP]
      | i + 1, 0 => rw [extDP_zero_right, bandDP]
      | i + 1, j + 1 =>
          rw [bandDP]
          have hjlt : j < s2.length := by omega
          have hcm := extDP_cell_min s1 s2 i j hjlt
          have hmax := extDP_le_max s1 s2 (i + 1) (j + 1) (by omega)
          have h1 := ih i (j + 1) (by omega) (by omega)
          have h2 := ih (i + 1) j (by omega) (by omega)
          have h3 := ih i j (by omega) (by omega)
          by_cases hpad : padElt s1 i = padElt s2 j <;>
            [rw [if_pos hpad] at hcm ⊢; rw [if_neg hpad] at hcm ⊢] <;>
            split_ifs <;> omega

/-- In the band, wherever the true DP value is within the cutoff, the
band-restricted DP equals it: an optimal predecessor chain for a small
value never leaves the band. -/
theorem bandDP_eq_extDP (s1 s2 : List α) (k : Nat) :
    ∀ n i j, i + j ≤ n → j ≤ s2.length → i ≤ j + k → j ≤ i + k →
      extDP s1 s2 i j ≤ k →
      bandDP s1 s2 k i j = extDP s1 s2 i j := by
  intro n
  induction n with
  | zero =>
      intro i j hn hj _ _ _
      have hi : i = 0 := by omega
      have hj0 : j = 0 := by omega
      subst hi; subst hj0
      rw [extDP_zero_right, bandDP]
  | succ n ih =>
      intro i j hn hj hb1 hb2 hle
      match i, j with
      | 0, j => rw [extDP_zero_left s1 s2 j hj, bandDP]
      | i + 1, 0 => rw [extDP_zero_right, bandDP]
      | i + 1, j + 1 =>
          have hjlt : j < s2.length := by omega
          have hge := extDP_le_bandDP s1 s2 k (i + j + 2) (i + 1) (j + 1)
            (by omega) (by omega)
          refine le_antisymm ?_ hge
          rw [bandDP, if_pos ⟨hb1, hb2⟩]
          have hcm := extDP_cell_min s1 s2 i j hjlt
          have hcst : ∃ cst ≤ 1, (if padElt s1 i = padElt s2 j then 0 else 1)
              = cst := ⟨_, by split_ifs <;> omega, rfl⟩
          obtain ⟨cst, hcst1, hcstv⟩ := hcst
          rw [hcstv] at hcm ⊢
          have hOr : extDP s1 s2 (i + 1) (j + 1) = extDP s1 s2 i (j + 1) + 1 ∨
              extDP s1 s2 (i + 1) (j + 1) = extDP s1 s2 (i + 1) j + 1 ∨
              extDP s1 s2 (i + 1) (j + 1) = extDP s1 s2 i j + cst := by omega
          rcases hOr with hat | hat | hat
          · -- vertical predecessor attains the minimum
            have hoff := extDP_ge_offset s1 s2 i (j + 1) (by omega)
            have hih := ih i (j + 1) (by omega) (by omega) (by omega)
              (by omega) (by omega)
            split_ifs <;> omega
          · -- horizontal predecessor attains the minimum
            have hoff := extDP_ge_offset s1 s2 (i + 1) j (by omega)
            have hih := ih (i + 1) j (by omega) (by omega) (by omega)
              (by omega) (by omega)
            split_ifs <;> omega
          · -- diagonal predecessor attains the minimum
            have hoff := extDP_ge_offset s1 s2 i j (by omega)
            have hih := ih i j (by omega) (by omega) (by omega)
              (by omega) (by omega)
            split_ifs <;> omega

theorem bandDP_zero_right (s1 s2 : List α) (k : Nat) (i : Nat) :
    bandDP s1 s2 k i 0 = i := by
  cases i with
  | zero => rw [bandDP]
  | succ t => rw [bandDP]

/-- One vertical step inside the band. -/
theorem bandDP_vstep (s1 s2 : List α) (k : Nat) (i j : Nat)
    (hcell : i + 1 ≤ j + k) (hpred : j ≤ i + k) :
    bandDP s1 s2 k (i + 1) j ≤ bandDP s1 s2 k i j + 1 := by
  cases j with
  | zero => rw [bandDP_zero_right, bandDP_zero_right]
  | succ t =>
      rw [bandDP, if_pos (show i + 1 ≤ t + 1 + k ∧ t + 1 ≤ i + 1 + k by omega),
        if_pos (show t + 1 ≤ i + k by omega)]
      exact le_trans (Nat.min_le_left _ _) (Nat.min_le_left _ _)

/-- Backward scan: every column `j` contains a cell from which the final
cell is still reachable within the total budget (the inductive skeleton
of the "optimal path visits every column" argument). -/
theorem extDP_scan_step (s1 s2 : List α) (j : Nat) (hj : j + 1 ≤ s2.length) :
    ∀ a, a ≤ s1.length →
      extDP s1 s2 a (j + 1) ≤ extDP s1 s2 s1.length s2.length →
      extDP s1 s2 a (j + 1) + (s1.length - a) ≤
        extDP s1 s2 s1.length s2.length + (s2.length - (j + 1)) →
      ∃ b, b ≤ s1.length ∧
        extDP s1 s2 b j ≤ extDP s1 s2 s1.length s2.length ∧
        extDP s1 s2 b j + (s1.length - b) ≤
          extDP s1 s2 s1.length s2.length + (s2.length - j) := by
  intro a
  induction a with
  | zero =>
      intro _ h1 h2
      refine ⟨0, by omega, ?_, ?_⟩
      · rw [extDP_zero_left s1 s2 j (by omega)]
        rw [extDP_zero_left s1 s2 (j + 1) (by omega)] at h1
        omega
      · rw [extDP_zero_left s1 s2 j (by omega)]
        rw [extDP_zero_left s1 s2 (j + 1) (by omega)] at h1 h2
        omega
  | succ a iha =>
      intro ha h1 h2
      have hjlt : j < s2.length := by omega
      have hcm := extDP_cell_min s1 s2 a j hjlt
      set A := extDP s1 s2 a (j + 1) + 1 with hA
      set B := extDP s1 s2 (a + 1) j + 1 with hB
      set cst := (if padElt s1 a = padElt s2 j then 0 else 1) with hcst
      have hOr : extDP s1 s2 (a + 1) (j + 1) = A ∨
          extDP s1 s2 (a + 1) (j + 1) = B ∨
          extDP s1 s2 (a + 1) (j + 1) = extDP s1 s2 a j + cst := by omega
      have hcost : cst ≤ 1 := by rw [hcst]; split_ifs <;> omega
      rcases hOr with hat | hat | hat
      · exact iha (by omega) (by omega) (by omega)
      · exact ⟨a + 1, by omega, by omega, by omega⟩
      · exact ⟨a, by omega, by omega, by omega⟩

theorem extDP_scan (s1 s2 : List α) : ∀ d j, j + d = s2.length →
    ∃ b, b ≤ s1.length ∧
      extDP s1 s2 b j ≤ extDP s1 s2 s1.length s2.length ∧
      extDP s1 s2 b j + (s1.length - b) ≤
        extDP s1 s2 s1.length s2.length + (s2.length - j) := by
  intro d
  induction d with
  | zero =>
      intro j hj
      have hjj : j = s2.length := by omega
      subst hjj
      exact ⟨s1.length, le_rfl, le_rfl, by omega⟩
  | succ d ihd =>
      intro j hj
      obtain ⟨b, hb, h1, h2⟩ := ihd (j + 1) (by omega)
      exact extDP_scan_step s1 s2 j (by omega) b hb h1 h2

/-- The band algorithm's tracked cell (row `min (k+j) len1`, column `j`)
stays within the break score `2k + len2 - len1` whenever the total
distance is within the cutoff.  Stated additively to avoid truncated
subtraction. -/
theorem bandDP_tracked_le (s1 s2 : List α) (k : Nat)
    (hL : extDP s1 s2 s1.length s2.length ≤ k)
    (j : Nat) (hj : j ≤ s2.length) :
    bandDP s1 s2 k (min (k + j) s1.length) j + s1.length
      ≤ 2 * k + s2.length := by
  obtain ⟨b, hb, h1, h2⟩ := extDP_scan s1 s2 (s2.length - j) j (by omega)
  have hoff := extDP_ge_offset s1 s2 b j hj
  have hbT : b ≤ min (k + j) s1.length := by omega
  have heq := bandDP_eq_extDP s1 s2 k (b + j) b j le_rfl hj
    (by omega) (by omega) (by omega)
  have hdesc : ∀ t, b ≤ t → t ≤ min (k + j) s1.length →
      bandDP s1 s2 k t j ≤ extDP s1 s2 b j + (t - b) := by
    intro t hbt
    induction t, hbt using Nat.le_induction with
    | base => intro _; rw [heq]; omega
    | succ t hbt iht =>
        intro ht
        have hstep := bandDP_vstep s1 s2 k t j (by omega) (by omega)
        have := iht (by omega)
        omega
  have hfin := hdesc (min (k + j) s1.length) hbT le_rfl
  omega
/-! ## The small-band window shadow

`bandColStep prev mt` models one column update of the 64-bit window of
`hyrroe2003_small_band_with_pm` at full precision.  Window index
`ℓ ∈ [0, 65]` of column `n` corresponds to matrix row `k + n + ℓ - 64`:
index 0 is the implicit boundary row (always one more than the previous
column), indices 1-64 follow the DP cell recurrence, and index 65 is the
row entering the window at the bottom, whose value the hardware derives
from the horizontal delta of index 64 (`VP' = HN | !((D0>>1) | HP)` shifts
everything down by one and feeds bit 63 with `HN | !HP`). -/

def bandColStep (prev : Nat → Nat) (mt : Nat → Bool) : Nat → Nat
  | 0 => prev 1 + 1
  | i + 1 =>
      if i < 64 then
        (if mt i then prev (i + 1)
         else min (min (bandColStep prev mt i + 1) (prev (i + 1) + 1))
           (prev (i + 2) + 1))
      else if i = 64 then
        bandColStep prev mt i +
          (if bandColStep prev mt i = prev 65 + 1 then 0 else 1)
      else bandColStep prev mt i

/-- Match flag for window bit `i` while the `n`-th element (1-based) of
s2, equal to `c`, is processed: compares `c` against s1 position
`k + n + i - 64` (a shifted-in zero when that position is negative). -/
def bandMt (s1 : List α) (k n : Nat) (c : α) (i : Nat) : Bool :=
  if k + n + i < 64 then false
  else decide (padElt s1 (k + n + i - 64) = some c)

/-- The shadow value at window index `ℓ` after `n` columns. -/
def bandCol (s1 s2 : List α) (k : Nat) : Nat → Nat → Nat
  | 0, ℓ => k + ℓ - 64
  | n + 1, ℓ =>
      match s2.get? n with
      | some c => bandColStep (bandCol s1 s2 k n) (bandMt s1 k (n + 1) c) ℓ
      | none => bandColStep (bandCol s1 s2 k n) (fun _ => false) ℓ

theorem bandCol_succ (s1 s2 : List α) (k n : Nat) (c : α)
    (hc : s2.get? n = some c) (ℓ : Nat) :
    bandCol s1 s2 k (n + 1) ℓ
      = bandColStep (bandCol s1 s2 k n) (bandMt s1 k (n + 1) c) ℓ := by
  rw [bandCol, hc]

theorem bandColStep_zero (prev : Nat → Nat) (mt : Nat → Bool) :
    bandColStep prev mt 0 = prev 1 + 1 := by
  rw [bandColStep]

theorem bandColStep_mid (prev : Nat → Nat) (mt : Nat → Bool) (i : Nat)
    (hi : i < 64) :
    bandColStep prev mt (i + 1) =
      if mt i then prev (i + 1)
      else min (min (bandColStep prev mt i + 1) (prev (i + 1) + 1))
        (prev (i + 2) + 1) := by
  rw [bandColStep, if_pos hi]

theorem bandColStep_enter (prev : Nat → Nat) (mt : Nat → Bool) :
    bandColStep prev mt 65 = bandColStep prev mt 64 +
      (if bandColStep prev mt 64 = prev 65 + 1 then 0 else 1) := by
  rw [show (65 : Nat) = 64 + 1 from rfl, bandColStep]
  simp

/-- Adjacent-row bounds for a column, usable at every index. -/
def colAdj (f : Nat → Nat) : Prop :=
  ∀ i, f (i + 1) ≤ f i + 1 ∧ f i ≤ f (i + 1) + 1

theorem bandCol_zero_adj (s1 s2 : List α) (k : Nat) :
    colAdj (bandCol s1 s2 k 0) := by
  intro i
  show k + (i + 1) - 64 ≤ k + i - 64 + 1 ∧ k + i - 64 ≤ k + (i + 1) - 64 + 1
  omega

/-- Horizontal bounds between a column and its successor, in the
step-lemma alignment `Dold i = prev (i + 1)`. -/
theorem bandColStep_hh (prev : Nat → Nat) (mt : Nat → Bool)
    (hprev : colAdj prev) :
    ∀ i, i ≤ 64 → bandColStep prev mt i ≤ prev (i + 1) + 1 ∧
      prev (i + 1) ≤ bandColStep prev mt i + 1 := by
  intro i
  induction i with
  | zero =>
      intro _
      rw [bandColStep_zero]
      have := hprev 0
      have e1 : prev (0 + 1) = prev 1 := rfl
      omega
  | succ i ih =>
      intro hi
      have hlt : i < 64 := by omega
      have hih := ih (by omega)
      have hp1 := hprev (i + 1)
      have e1 : prev (i + 1 + 1) = prev (i + 2) := rfl
      rw [bandColStep_mid prev mt i hlt]
      split_ifs <;> omega

/-- Diagonal bounds: the new cell sits within one of the old cell one
row up. -/
theorem bandColStep_hdg (prev : Nat → Nat) (mt : Nat → Bool)
    (hprev : colAdj prev) :
    ∀ i, i < 64 → prev (i + 1) ≤ bandColStep prev mt (i + 1) ∧
      bandColStep prev mt (i + 1) ≤ prev (i + 1) + 1 := by
  intro i hi
  have hhh := bandColStep_hh prev mt hprev i (by omega)
  have hp1 := hprev (i + 1)
  have e1 : prev (i + 1 + 1) = prev (i + 2) := rfl
  rw [bandColStep_mid prev mt i hi]
  split_ifs <;> omega

/-- The new column again satisfies the adjacent-row bounds. -/
theorem bandColStep_adj (prev : Nat → Nat) (mt : Nat → Bool)
    (hprev : colAdj prev) :
    colAdj (bandColStep prev mt) := by
  intro i
  by_cases hi : i < 64
  · cases i with
    | zero =>
        have hdg := bandColStep_hdg prev mt hprev 0 (by omega)
        have hhh := bandColStep_hh prev mt hprev 0 (by omega)
        have e1 : prev (0 + 1) = prev 1 := rfl
        rw [bandColStep_zero] at hhh ⊢
        omega
    | succ t =>
        have ht1 : t + 1 < 64 := hi
        have hhh := bandColStep_hh prev mt hprev (t + 1) (by omega)
        have e1 : prev (t + 1 + 1) = prev (t + 2) := rfl
        have e3 : prev (t + 1 + 2) = prev (t + 3) := rfl
        have e4 : prev (t + 2 + 1) = prev (t + 3) := rfl
        have hp2 := hprev (t + 2)
        have hmid := bandColStep_mid prev mt (t + 1) ht1
        split_ifs at hmid <;> omega
  · by_cases h65 : i = 64
    · subst h65
      rw [show (64 : Nat) + 1 = 65 from rfl, bandColStep_enter]
      split_ifs <;> omega
    · have : bandColStep prev mt (i + 1) = bandColStep prev mt i := by
        rw [bandColStep, if_neg (by omega), if_neg (by omega)]
      omega

/-- Shadow cells on and above the top boundary of the matrix (window
indices whose row is not yet real) hold exactly the column number. -/
theorem bandCol_top (s1 s2 : List α) (k : Nat) :
    ∀ n ℓ, k + n + ℓ ≤ 64 → bandCol s1 s2 k n ℓ = n := by
  intro n
  induction n with
  | zero => intro ℓ h; show k + ℓ - 64 = 0; omega
  | succ n ih =>
      have hstep : ∀ (mt : Nat → Bool),
          (∀ i, k + (n + 1) + i < 64 → mt i = false) →
          ∀ ℓ, k + (n + 1) + ℓ ≤ 64 →
          bandColStep (bandCol s1 s2 k n) mt ℓ = n + 1 := by
        intro mt hmt ℓ
        induction ℓ with
        | zero =>
            intro h
            rw [bandColStep_zero, ih 1 (by omega)]
        | succ i ihl =>
            intro h
            have hi : i < 64 := by omega
            rw [bandColStep_mid _ _ i hi]
            have hmtb := hmt i (by omega)
            have hF := ihl (by omega)
            have h1 := ih (i + 1) (by omega)
            have h2 := ih (i + 2) (by omega)
            rw [if_neg (by simp [hmtb])]
            rw [hF, h1, h2]
            omega
      intro ℓ h
      rw [bandCol]
      cases s2.get? n with
      | some c =>
          refine hstep _ ?_ ℓ h
          intro i hlt
          rw [bandMt, if_pos hlt]
      | none => exact hstep _ (fun _ _ => rfl) ℓ h
  
/-- Crude upper bound: a shadow cell never exceeds its row plus its
column. -/
theorem bandCol_le_row_add (s1 s2 : List α) (k : Nat) :
    ∀ n ℓ, bandCol s1 s2 k n ℓ ≤ (k + n + ℓ - 64) + n := by
  intro n
  induction n with
  | zero => intro ℓ; show k + ℓ - 64 ≤ k + 0 + ℓ - 64 + 0; omega
  | succ n ih =>
      have hstep : ∀ (mt : Nat → Bool), ∀ ℓ,
          bandColStep (bandCol s1 s2 k n) mt ℓ
            ≤ (k + (n + 1) + ℓ - 64) + (n + 1) := by
        intro mt ℓ
        induction ℓ with
        | zero =>
            rw [bandColStep_zero]
            have := ih 1
            omega
        | succ i ihl =>
            by_cases hi : i < 64
            · rw [bandColStep_mid _ _ i hi]
              have h1 := ih (i + 1)
              have h2 := ih (i + 2)
              split_ifs <;> omega
            · by_cases h65 : i = 64
              · subst h65
                rw [show (64 : Nat) + 1 = 65 from rfl, bandColStep_enter]
                have h1 := ih 65
                split_ifs <;> omega
              · rw [bandColStep, if_neg (by omega), if_neg (by omega)]
                omega
      intro ℓ
      rw [bandCol]
      cases s2.get? n with
      | some c => exact hstep _ ℓ
      | none => exact hstep _ ℓ
theorem padElt_eq_get (xs : List α) (i : Nat) : padElt xs i = xs.get? i := by
  rw [padElt, List.get?_eq_getElem?]
  by_cases h : i < xs.length
  · rw [dif_pos h, List.getElem?_eq_getElem h]
  · rw [dif_neg h, List.getElem?_eq_none (by omega)]

theorem bandCol_succ_none (s1 s2 : List α) (k n : Nat)
    (hc : s2.get? n = none) (ℓ : Nat) :
    bandCol s1 s2 k (n + 1) ℓ
      = bandColStep (bandCol s1 s2 k n) (fun _ => false) ℓ := by
  rw [bandCol, hc]

theorem bandCol_adj (s1 s2 : List α) (k : Nat) :
    ∀ n, colAdj (bandCol s1 s2 k n) := by
  intro n
  induction n with
  | zero => exact bandCol_zero_adj s1 s2 k
  | succ n ih =>
      intro i
      cases hc : s2.get? n with
      | some c =>
          simp only [bandCol_succ s1 s2 k n c hc]
          exact bandColStep_adj _ _ ih i
      | none =>
          simp only [bandCol_succ_none s1 s2 k n hc]
          exact bandColStep_adj _ _ ih i

/-- Lower sandwich: every shadow cell dominates the extended DP value at
its (truncated) matrix position. -/
theorem extDP_le_bandCol (s1 s2 : List α) (k : Nat) :
    ∀ n, n ≤ s2.length → ∀ ℓ, ℓ ≤ 65 →
      extDP s1 s2 (k + n + ℓ - 64) n ≤ bandCol s1 s2 k n ℓ := by
  intro n
  induction n with
  | zero =>
      intro _ ℓ _
      rw [extDP_zero_right]
      show k + 0 + ℓ - 64 ≤ k + ℓ - 64
      omega
  | succ n ih =>
      intro hn ℓ hℓ
      have hn' : n < s2.length := by omega
      have hnle : n ≤ s2.length := by omega
      obtain ⟨c, hc⟩ : ∃ c, s2.get? n = some c := by
        rw [List.get?_eq_getElem?, List.getElem?_eq_getElem hn']
        exact ⟨_, rfl⟩
      have hpe : padElt s2 n = some c := by rw [padElt_eq_get, hc]
      by_cases htop : k + (n + 1) + ℓ ≤ 64
      · rw [bandCol_top s1 s2 k (n + 1) ℓ htop]
        have hrow : k + (n + 1) + ℓ - 64 = 0 := by omega
        rw [hrow, extDP_zero_left s1 s2 (n + 1) hn]
      · -- real rows: peel the window index
        have key : ∀ m, m ≤ 65 → 64 < k + (n + 1) + m →
            extDP s1 s2 (k + (n + 1) + m - 64) (n + 1)
              ≤ bandCol s1 s2 k (n + 1) m := by
          intro m
          induction m with
          | zero =>
              intro _ hreal
              rw [bandCol_succ s1 s2 k n c hc, bandColStep_zero]
              have hih := ih hnle 1 (by omega)
              have hrow : k + (n + 1) + 0 - 64 = k + n + 1 - 64 := by omega
              rw [hrow]
              have hhz := extDP_horiz s1 s2 (k + n + 1 - 64) n hn'
              omega
          | succ i ihm =>
              intro him hreal
              by_cases hi : i < 64
              · -- interior cell: the DP recurrence against the window one
                obtain ⟨r, hr⟩ : ∃ r, k + (n + 1) + (i + 1) - 64 = r + 1 :=
                  ⟨k + (n + 1) + i - 64, by omega⟩
                rw [hr]
                have hcell := extDP_cell s1 s2 r n hn'
                rw [bandCol_succ s1 s2 k n c hc, bandColStep_mid _ _ i hi]
                have hmt : bandMt s1 k (n + 1) c i
                    = decide (padElt s1 r = some c) := by
                  rw [bandMt, if_neg (by omega)]
                  have hidx : k + (n + 1) + i - 64 = r := by omega
                  rw [hidx]
                have hih1 : extDP s1 s2 r n ≤ bandCol s1 s2 k n (i + 1) := by
                  have := ih hnle (i + 1) (by omega)
                  have hidx : k + n + (i + 1) - 64 = r := by omega
                  rwa [hidx] at this
                have hih2 : extDP s1 s2 (r + 1) n
                    ≤ bandCol s1 s2 k n (i + 2) := by
                  have := ih hnle (i + 2) (by omega)
                  have hidx : k + n + (i + 2) - 64 = r + 1 := by omega
                  rwa [hidx] at this
                cases hmtb : bandMt s1 k (n + 1) c i with
                | true =>
                    rw [if_pos rfl]
                    have hpm : padElt s1 r = some c := by
                      rw [hmt] at hmtb
                      simpa using hmtb
                    rw [hcell, hpe, if_pos (by rw [hpm])]
                    exact hih1
                | false =>
                    rw [if_neg (by simp)]
                    have hpm : ¬(padElt s1 r = some c) := by
                      rw [hmt] at hmtb
                      simpa using hmtb
                    rw [hcell, hpe]
                    rw [if_neg (by simpa using hpm)]
                    by_cases hreal0 : 64 < k + (n + 1) + i
                    · have hihm : extDP s1 s2 (k + (n + 1) + i - 64) (n + 1)
                          ≤ bandCol s1 s2 k (n + 1) i :=
                        ihm (by omega) hreal0
                      have hidx : k + (n + 1) + i - 64 = r := by omega
                      rw [hidx] at hihm
                      rw [bandCol_succ s1 s2 k n c hc] at hihm
                      omega
                    · -- window cell above the real matrix: its value is n+1
                      have htop2 : bandColStep (bandCol s1 s2 k n)
                          (bandMt s1 k (n + 1) c) i = n + 1 := by
                        have h0 := bandCol_top s1 s2 k (n + 1) i (by omega)
                        rwa [bandCol_succ s1 s2 k n c hc] at h0
                      have hr0 : r = 0 := by omega
                      subst hr0
                      have hz1 := extDP_zero_left s1 s2 (n + 1) hn
                      have hz2 := extDP_zero_left s1 s2 n hnle
                      omega
              · -- the entering row at the bottom of the window
                have h65 : i = 64 := by omega
                subst h65
                rw [bandCol_succ s1 s2 k n c hc, show (64 : Nat) + 1 = 65
                  from rfl, bandColStep_enter]
                obtain ⟨r, hr⟩ : ∃ r, k + (n + 1) + 65 - 64 = r + 1 :=
                  ⟨k + n + 1 - 0, by omega⟩
                rw [hr]
                have hrprev : r = k + n + 65 - 64 := by omega
                have hih65 : extDP s1 s2 r n ≤ bandCol s1 s2 k n 65 := by
                  have := ih hnle 65 (by omega)
                  rwa [← hrprev] at this
                have hih64 : extDP s1 s2 r (n + 1)
                    ≤ bandColStep (bandCol s1 s2 k n)
                      (bandMt s1 k (n + 1) c) 64 := by
                  have := ihm (by omega) (by omega)
                  have hidx : k + (n + 1) + 64 - 64 = r := by omega
                  rw [hidx] at this
                  rwa [bandCol_succ s1 s2 k n c hc] at this
                have hdiag := (extDP_diag s1 s2 r n hn').2
                have hvert := (extDP_vert s1 s2 r (n + 1)).1
                split_ifs with hδ
                · omega
                · omega
        exact key ℓ hℓ (by omega)
/-- Every interior window cell is bounded by each of its three candidate
terms (in the matching case the diagonal cost is zero). -/
theorem bandColStep_le_terms (prev : Nat → Nat) (mt : Nat → Bool)
    (hprev : colAdj prev) (i : Nat) (hi : i < 64) :
    bandColStep prev mt (i + 1) ≤ bandColStep prev mt i + 1 ∧
    bandColStep prev mt (i + 1) ≤ prev (i + 1) + (if mt i then 0 else 1) ∧
    bandColStep prev mt (i + 1) ≤ prev (i + 2) + 1 := by
  have hhh := bandColStep_hh prev mt hprev i (by omega)
  have hp := hprev (i + 1)
  have e1 : prev (i + 1 + 1) = prev (i + 2) := rfl
  rw [bandColStep_mid prev mt i hi]
  split_ifs <;> omega

/-- Upper sandwich: inside the Ukkonen band the shadow values are
bounded by the band-restricted DP. -/
theorem bandCol_le_bandDP (s1 s2 : List α) (k : Nat) (hk : 2 * k ≤ 63) :
    ∀ n, n ≤ s2.length → ∀ ℓ, ℓ ≤ 64 → 64 ≤ k + n + ℓ → 64 ≤ 2 * k + ℓ →
      bandCol s1 s2 k n ℓ ≤ bandDP s1 s2 k (k + n + ℓ - 64) n := by
  intro n
  induction n with
  | zero =>
      intro _ ℓ _ _ _
      rw [bandDP_zero_right]
      show k + ℓ - 64 ≤ k + 0 + ℓ - 64
      omega
  | succ n ih =>
      intro hn ℓ hℓ hreal hband
      have hn' : n < s2.length := by omega
      have hnle : n ≤ s2.length := by omega
      obtain ⟨c, hc⟩ : ∃ c, s2.get? n = some c := by
        rw [List.get?_eq_getElem?, List.getElem?_eq_getElem hn']
        exact ⟨_, rfl⟩
      have hpe : padElt s2 n = some c := by rw [padElt_eq_get, hc]
      have key : ∀ m, m ≤ 64 → 64 ≤ k + (n + 1) + m → 64 ≤ 2 * k + m →
          bandCol s1 s2 k (n + 1) m
            ≤ bandDP s1 s2 k (k + (n + 1) + m - 64) (n + 1) := by
        intro m
        induction m with
        | zero => intro _ _ hb; omega
        | succ i ihm =>
            intro him hreal2 hband2
            by_cases htop : k + (n + 1) + (i + 1) ≤ 64
            · have hrow : k + (n + 1) + (i + 1) - 64 = 0 := by omega
              rw [hrow, bandCol_top s1 s2 k (n + 1) (i + 1) htop, bandDP]
            · obtain ⟨r, hr⟩ : ∃ r, k + (n + 1) + (i + 1) - 64 = r + 1 :=
                ⟨k + n + i - 63, by omega⟩
              have hi64 : i < 64 := by omega
              have hadj := bandCol_adj s1 s2 k n
              have hterms := bandColStep_le_terms (bandCol s1 s2 k n)
                (bandMt s1 k (n + 1) c) hadj i hi64
              rw [bandCol_succ s1 s2 k n c hc, hr, bandDP,
                if_pos (show r + 1 ≤ n + 1 + k ∧ n + 1 ≤ r + 1 + k by omega)]
              refine le_min (le_min ?_ ?_) ?_
              · -- vertical predecessor (same column, one row up)
                by_cases hg : n + 1 ≤ r + k
                · rw [if_pos hg]
                  have hin := ihm (by omega) (by omega) (by omega)
                  have hidx : k + (n + 1) + i - 64 = r := by omega
                  rw [hidx, bandCol_succ s1 s2 k n c hc] at hin
                  omega
                · rw [if_neg hg]
                  have hcb := bandCol_le_row_add s1 s2 k (n + 1) i
                  rw [bandCol_succ s1 s2 k n c hc] at hcb
                  omega
              · -- horizontal predecessor (previous column, same row)
                by_cases hg : r + 1 ≤ n + k
                · rw [if_pos hg]
                  have hi62 : i ≤ 62 := by omega
                  have hin := ih hnle (i + 2) (by omega) (by omega) (by omega)
                  have hidx : k + n + (i + 2) - 64 = r + 1 := by omega
                  rw [hidx] at hin
                  omega
                · rw [if_neg hg]
                  have hcb := bandCol_le_row_add s1 s2 k n (i + 2)
                  omega
              · -- diagonal predecessor
                have hin := ih hnle (i + 1) (by omega) (by omega) (by omega)
                have hidx : k + n + (i + 1) - 64 = r := by omega
                rw [hidx] at hin
                have hmt : bandMt s1 k (n + 1) c i
                    = decide (padElt s1 r = padElt s2 n) := by
                  rw [bandMt, if_neg (by omega), hpe]
                  have hidx2 : k + (n + 1) + i - 64 = r := by omega
                  rw [hidx2]
                have ht2 := hterms.2.1
                cases hmtb : bandMt s1 k (n + 1) c i with
                | true =>
                    have hpm : padElt s1 r = padElt s2 n := by
                      rw [hmt] at hmtb
                      simpa using hmtb
                    rw [if_pos hpm]
                    rw [hmtb] at ht2
                    simp only [if_true] at ht2
                    omega
                | false =>
                    have hpm : ¬(padElt s1 r = padElt s2 n) := by
                      rw [hmt] at hmtb
                      simpa using hmtb
                    rw [if_neg hpm]
                    rw [hmtb] at ht2
                    simp only [Bool.false_eq_true, if_false] at ht2
                    omega
      exact key ℓ hℓ hreal hband
/-! ## The small-band engine itself
(src/distance/levenshtein.rs lines 509-617) -/

/-- `ceil_div_usize` — modelled from the spec: the helper lives in
`src/details/intrinsics.rs`, which is not under src/; it is the rounding-up
integer division used to size block vectors. -/
def ceil_div_usize (a b : Nat) : Nat := (a + b - 1) / b

/-- Word `word` of the block pattern-match vector.  Modelled from the
spec: `BlockPatternMatchVector` (src/details/pattern_match_vector.rs) is
not under src/; spec §3 describes the block bitmap as, for each position
`j` of the needle, setting bit `j mod 64` of word `j / 64` for the
element at that position, i.e. word `w` is the single-word bitmap of
elements `64w..64w+63`. -/
def blockPmGet (s1 : List α) (word : Nat) (c : α) : Nat :=
  pmVec ((s1.drop (64 * word)).take 64) c

/-- The PM-word fetch of the small-band loop (src/distance/levenshtein.rs
lines 541-553): the 64-bit window at signed start position `sp`, read
from one block word (shifted left when `sp < 0`) or assembled from two
adjacent words. -/
def band_pm_j (pmget : Nat → α → Nat) (words : Nat) (sp : ℤ) (c : α) : Nat :=
  if sp < 0 then (pmget 0 c <<< (-sp).toNat) % 2 ^ 64
  else if sp.toNat / 64 + 1 < words ∧ sp.toNat % 64 ≠ 0 then
    (pmget (sp.toNat / 64) c >>> (sp.toNat % 64)) |||
      ((pmget (sp.toNat / 64 + 1) c <<< (64 - sp.toNat % 64)) % 2 ^ 64)
  else pmget (sp.toNat / 64) c >>> (sp.toNat % 64)

/-- One iteration of the small-band diagonal phase
(src/distance/levenshtein.rs lines 539-574) on the state
`(vp, vn, curr_dist, start_pos)`; `none` models the early
`return usize::MAX` when the running score exceeds the break score. -/
def small_band_diag_step (pmget : Nat → α → Nat) (words brk : Nat)
    (st : Nat × Nat × Nat × ℤ) (c : α) : Option (Nat × Nat × Nat × ℤ) :=
  let vp := st.1
  let vn := st.2.1
  let dist := st.2.2.1
  let sp := st.2.2.2
  let x := band_pm_j pmget words sp c
  let d0 := ((((x &&& vp) + vp) % 2 ^ 64) ^^^ vp) ||| x ||| vn
  let hp := vn ||| ((d0 ||| vp) ^^^ (2 ^ 64 - 1))
  let hn := d0 &&& vp
  let dist2 := dist + (if d0 &&& (1 <<< 63) = 0 then 1 else 0)
  if brk < dist2 then none
  else some (hn ||| (((d0 >>> 1) ||| hp) ^^^ (2 ^ 64 - 1)),
    (d0 >>> 1) &&& hp, dist2, sp + 1)

/-- One iteration of the small-band horizontal phase
(src/distance/levenshtein.rs lines 577-614) on the state
`(vp, vn, curr_dist, horizontal_mask, start_pos)`. -/
def small_band_horiz_step (pmget : Nat → α → Nat) (words brk : Nat)
    (st : Nat × Nat × Nat × Nat × ℤ) (c : α) :
    Option (Nat × Nat × Nat × Nat × ℤ) :=
  let vp := st.1
  let vn := st.2.1
  let dist := st.2.2.1
  let mask := st.2.2.2.1
  let sp := st.2.2.2.2
  let x := band_pm_j pmget words sp c
  let d0 := ((((x &&& vp) + vp) % 2 ^ 64) ^^^ vp) ||| x ||| vn
  let hp := vn ||| ((d0 ||| vp) ^^^ (2 ^ 64 - 1))
  let hn := d0 &&& vp
  let dist2 := dist + (if hp &&& mask ≠ 0 then 1 else 0)
    - (if hn &&& mask ≠ 0 then 1 else 0)
  if brk < dist2 then none
  else some (hn ||| (((d0 >>> 1) ||| hp) ^^^ (2 ^ 64 - 1)),
    (d0 >>> 1) &&& hp, dist2, mask >>> 1, sp + 1)

/-- Return-value shaping shared by both phases: an aborted run is
`usize::MAX`, a completed one returns the final `curr_dist`. -/
def sbScore : Option (Nat × Nat × Nat × Nat × ℤ) → Nat
  | none => USIZE_MAX
  | some st => st.2.2.1

/-- The horizontal phase of the small-band loop, run from the state the
diagonal phase left (`none` = the diagonal phase already returned
`usize::MAX`); the horizontal mask starts at `1 << 62`. -/
def sbPhase2 (pmget : Nat → α → Nat) (words brk : Nat) (s2tail : List α) :
    Option (Nat × Nat × Nat × ℤ) → Nat
  | none => USIZE_MAX
  | some st1 =>
      sbScore (s2tail.foldl
        (fun ost c => ost.bind
          (fun st => small_band_horiz_step pmget words brk st c))
        (some (st1.1, st1.2.1, st1.2.2.1, 1 <<< 62, st1.2.2.2)))

/-- `hyrroe2003_small_band_with_pm` (src/distance/levenshtein.rs lines
509-617), generic over the pattern-match interface like the Rust source:
`VP = !0 << (64 - cutoff - 1)`, `VN = 0`, `curr_dist = cutoff`,
`start_pos = cutoff + 1 - 64`, `break_score = cutoff + len2 -
(len1 - cutoff)` (an `isize` expression cast to `usize`); then the
diagonal phase over the first `len1 - cutoff` elements of s2 (guarded by
`len1 > cutoff`) followed by the horizontal phase with the mask starting
at `1 << 62`; either phase returns `usize::MAX` on an early break, and
otherwise the final `curr_dist` is returned. -/
def hyrroe2003_small_band_with_pm (pmget : Nat → α → Nat)
    (words len1 : Nat) (s2 : List α) (len2 score_cutoff : Nat) : Nat :=
  let vp0 := ((2 ^ 64 - 1) <<< (64 - score_cutoff - 1)) % 2 ^ 64
  let brk := (((score_cutoff : ℤ) + len2 - ((len1 : ℤ) - score_cutoff))
    % 2 ^ 64).toNat
  let p1 := if score_cutoff < len1 then len1 - score_cutoff else 0
  sbPhase2 pmget words brk (s2.drop p1)
    ((s2.take p1).foldl
      (fun ost c => ost.bind
        (fun st => small_band_diag_step pmget words brk st c))
      (some (vp0, 0, score_cutoff, (score_cutoff : ℤ) + 1 - 64)))

theorem pmVec_lt (s1 : List α) (c : α) : pmVec s1 c < 2 ^ s1.length := by
  induction s1 with
  | nil => simp [pmVec]
  | cons a s1 ih =>
      have hunfold : pmVec (a :: s1) c
          = 2 * pmVec s1 c + (if a = c then 1 else 0) := rfl
      have hpow : 2 ^ (a :: s1).length = 2 * 2 ^ s1.length := by
        rw [List.length_cons]
        ring
      rw [hunfold, hpow]
      split_ifs <;> omega

/-- On a one-word pattern (len1 ≤ 64) the fetched window bit `i` is the
match flag `bandMt` of the corresponding matrix row. -/
theorem band_pm_j_sem (s1 : List α) (c : α) (k n : Nat)
    (hlen : s1.length ≤ 64) (hsp : (k : ℤ) + 1 - 64 + n < 64) :
    ∀ i < 64, (band_pm_j (blockPmGet s1) 1 ((k : ℤ) + 1 - 64 + n) c).testBit i
      = bandMt s1 k (n + 1) c i := by
  intro i hi
  have hget0 : blockPmGet s1 0 c = pmVec s1 c := by
    rw [blockPmGet, Nat.mul_zero, List.drop_zero, List.take_of_length_le hlen]
  rw [band_pm_j]
  by_cases hneg : (k : ℤ) + 1 - 64 + n < 0
  · rw [if_pos hneg, hget0]
    have hS : ((-((k : ℤ) + 1 - 64 + n)).toNat) = 63 - k - n := by omega
    rw [hS, Nat.testBit_mod_two_pow, Nat.testBit_shiftLeft, testBit_pmVec]
    rw [bandMt]
    by_cases hguard : k + (n + 1) + i < 64
    · rw [if_pos hguard]
      have hd : decide (i ≥ 63 - k - n) = false := by
        simp only [decide_eq_false_iff_not]
        omega
      rw [hd]
      simp
    · rw [if_neg hguard]
      have hge : decide (i ≥ 63 - k - n) = true := by
        simp only [decide_eq_true_eq]
        omega
      have hidx : i - (63 - k - n) = k + (n + 1) + i - 64 := by omega
      rw [hge, hidx, padElt_eq_get]
      have hd64 : decide (i < 64) = true := by
        simp only [decide_eq_true_eq]
        omega
      rw [hd64]
      simp
  · rw [if_neg hneg]
    have hspn : ((k : ℤ) + 1 - 64 + n).toNat < 64 := by omega
    have hdiv : ((k : ℤ) + 1 - 64 + n).toNat / 64 = 0 := by omega
    have hmod : ((k : ℤ) + 1 - 64 + n).toNat % 64
        = ((k : ℤ) + 1 - 64 + n).toNat := by omega
    rw [if_neg (by rintro ⟨h1, _⟩; omega)]
    rw [hdiv, hmod, hget0, Nat.testBit_shiftRight, testBit_pmVec]
    rw [bandMt, if_neg (by omega), padElt_eq_get]
    have hidx : ((k : ℤ) + 1 - 64 + n).toNat + i = k + (n + 1) + i - 64 := by
      omega
    rw [hidx]

/-- Semantics of the band's shifted `VP` update
`VP := HN | !((D0 >> 1) | HP)`: bit `i` records the vertical `+1` delta
one row further down, including the row entering the window at bit 63. -/
theorem band_vp2_sem (Dold Dnew : Nat → Nat) (d0 hpv hnv : Nat)
    (hd0lt : d0 < 2 ^ 64)
    (hv2 : ∀ i < 64, Dnew (i + 1) ≤ Dnew i + 1 ∧ Dnew i ≤ Dnew (i + 1) + 1)
    (hh : ∀ i, i ≤ 64 → Dnew i ≤ Dold i + 1 ∧ Dold i ≤ Dnew i + 1)
    (hdg : ∀ i < 64, Dold i ≤ Dnew (i + 1) ∧ Dnew (i + 1) ≤ Dold i + 1)
    (hd0 : ∀ i < 64, d0.testBit i = true ↔ Dnew (i + 1) = Dold i)
    (hhp : ∀ i < 64, hpv.testBit i = true ↔ Dnew (i + 1) = Dold (i + 1) + 1)
    (hhn : ∀ i < 64, hnv.testBit i = true ↔ Dold (i + 1) = Dnew (i + 1) + 1)
    (hent : Dnew 65 = Dnew 64 + (if Dnew 64 = Dold 64 + 1 then 0 else 1)) :
    ∀ i < 64, (hnv ||| (((d0 >>> 1) ||| hpv) ^^^ (2 ^ 64 - 1))).testBit i
      = true ↔ Dnew (i + 2) = Dnew (i + 1) + 1 := by
  intro i hi
  rw [Nat.testBit_or, testBit_not64 _ _ hi, Nat.testBit_or,
    Nat.testBit_shiftRight]
  by_cases htop : i = 63
  · subst htop
    have hd64 : d0.testBit (1 + 63) = false :=
      Nat.testBit_eq_false_of_lt (by exact hd0lt)
    rw [hd64]
    have hs1 := hhp 63 (by omega)
    have hs2 := hhn 63 (by omega)
    have hh64 := hh 64 le_rfl
    by_cases hif : Dnew 64 = Dold 64 + 1
    · rw [if_pos hif] at hent
      cases hb1 : hpv.testBit 63 <;> cases hb2 : hnv.testBit 63 <;>
        (rw [hb1] at hs1; rw [hb2] at hs2; simp at hs1 hs2) <;>
        (try simp) <;> omega
    · rw [if_neg hif] at hent
      cases hb1 : hpv.testBit 63 <;> cases hb2 : hnv.testBit 63 <;>
        (rw [hb1] at hs1; rw [hb2] at hs2; simp at hs1 hs2) <;>
        (try simp) <;> omega
  · have hi1 : i + 1 < 64 := by omega
    have h1i : 1 + i = i + 1 := by omega
    rw [h1i]
    have hs0 := hd0 (i + 1) hi1
    have hs1 := hhp i hi
    have hs2 := hhn i hi
    have hv2i := hv2 i hi
    have hv2i1 := hv2 (i + 1) hi1
    have hh1 := hh (i + 1) (by omega)
    have hh2 := hh (i + 2) (by omega)
    have hdg1 := hdg (i + 1) hi1
    have e1 : Dnew (i + 1 + 1) = Dnew (i + 2) := rfl
    have e2 : Dold (i + 1 + 1) = Dold (i + 2) := rfl
    cases hb0 : d0.testBit (i + 1) <;> cases hb1 : hpv.testBit i <;>
      cases hb2 : hnv.testBit i <;>
      (rw [hb0] at hs0; rw [hb1] at hs1; rw [hb2] at hs2;
       simp at hs0 hs1 hs2) <;>
      (try simp) <;> omega

/-- Semantics of the band's shifted `VN` update `VN := (D0 >> 1) & HP`. -/
theorem band_vn2_sem (Dold Dnew : Nat → Nat) (d0 hpv : Nat)
    (hd0lt : d0 < 2 ^ 64)
    (hv2 : ∀ i < 64, Dnew (i + 1) ≤ Dnew i + 1 ∧ Dnew i ≤ Dnew (i + 1) + 1)
    (hh : ∀ i, i ≤ 64 → Dnew i ≤ Dold i + 1 ∧ Dold i ≤ Dnew i + 1)
    (hdg : ∀ i < 64, Dold i ≤ Dnew (i + 1) ∧ Dnew (i + 1) ≤ Dold i + 1)
    (hd0 : ∀ i < 64, d0.testBit i = true ↔ Dnew (i + 1) = Dold i)
    (hhp : ∀ i < 64, hpv.testBit i = true ↔ Dnew (i + 1) = Dold (i + 1) + 1)
    (hent : Dnew 65 = Dnew 64 + (if Dnew 64 = Dold 64 + 1 then 0 else 1)) :
    ∀ i < 64, ((d0 >>> 1) &&& hpv).testBit i = true
      ↔ Dnew (i + 1) = Dnew (i + 2) + 1 := by
  intro i hi
  rw [Nat.testBit_and, Nat.testBit_shiftRight]
  by_cases htop : i = 63
  · subst htop
    have hd64 : d0.testBit (1 + 63) = false :=
      Nat.testBit_eq_false_of_lt (by exact hd0lt)
    rw [hd64]
    have hδ : Dnew 64 ≤ Dnew 65 := by
      split_ifs at hent <;> omega
    simp
    omega
  · have hi1 : i + 1 < 64 := by omega
    have h1i : 1 + i = i + 1 := by omega
    rw [h1i]
    have hs0 := hd0 (i + 1) hi1
    have hs1 := hhp i hi
    have hv2i1 := hv2 (i + 1) hi1
    have hh1 := hh (i + 1) (by omega)
    have hdg1 := hdg (i + 1) hi1
    have e1 : Dnew (i + 1 + 1) = Dnew (i + 2) := rfl
    cases hb0 : d0.testBit (i + 1) <;> cases hb1 : hpv.testBit i <;>
      (rw [hb0] at hs0; rw [hb1] at hs1; simp at hs0 hs1) <;>
      (try simp) <;> omega

/-- The diagonal-phase score update: add one unless `D0` has the
diagonal bit 63 set. -/
theorem band_diag_dist_sem (Dold Dnew : Nat → Nat) (d0 dist : Nat)
    (hdg : Dold 63 ≤ Dnew 64 ∧ Dnew 64 ≤ Dold 63 + 1)
    (hd63 : d0.testBit 63 = true ↔ Dnew 64 = Dold 63)
    (hdist : dist = Dold 63) :
    dist + (if d0 &&& (1 <<< 63) = 0 then 1 else 0) = Dnew 64 := by
  have hmask : (1 : Nat) <<< 63 = 2 ^ 63 := by
    rw [Nat.shiftLeft_eq, Nat.one_mul]
  rw [hmask]
  by_cases hb : d0.testBit 63 = true
  · rw [if_neg ((and_two_pow_ne_zero d0 63).mpr hb)]
    have := hd63.mp hb
    omega
  · have h0 : d0 &&& 2 ^ 63 = 0 := by
      by_contra hne
      exact hb ((and_two_pow_ne_zero d0 63).mp hne)
    rw [if_pos h0]
    have hne : ¬(Dnew 64 = Dold 63) := fun h => hb (hd63.mpr h)
    omega
/-- The fetched match word while processing element `n` (0-based) of s2
in the small-band loop. -/
def sbX (s1 : List α) (k n : Nat) (c : α) : Nat :=
  band_pm_j (blockPmGet s1) 1 ((k : ℤ) + 1 - 64 + n) c

/-- The band loop's `D0` word. -/
def sbD0 (x vp vn : Nat) : Nat :=
  ((((x &&& vp) + vp) % 2 ^ 64) ^^^ vp) ||| x ||| vn

/-- The band loop's `HP` word. -/
def sbHP (d0 vp vn : Nat) : Nat := vn ||| ((d0 ||| vp) ^^^ (2 ^ 64 - 1))

/-- The band loop's `HN` word. -/
def sbHN (d0 vp : Nat) : Nat := d0 &&& vp

/-- The band loop's updated `VP` word. -/
def sbVP2 (d0 hp hn : Nat) : Nat :=
  hn ||| (((d0 >>> 1) ||| hp) ^^^ (2 ^ 64 - 1))

/-- The band loop's updated `VN` word. -/
def sbVN2 (d0 hp : Nat) : Nat := (d0 >>> 1) &&& hp

theorem blockPmGet_lt (s1 : List α) (w : Nat) (c : α) :
    blockPmGet s1 w c < 2 ^ 64 := by
  have h := pmVec_lt ((s1.drop (64 * w)).take 64) c
  have hlen : ((s1.drop (64 * w)).take 64).length ≤ 64 := by
    simp [List.length_take]
  calc blockPmGet s1 w c < 2 ^ ((s1.drop (64 * w)).take 64).length := h
    _ ≤ 2 ^ 64 := Nat.pow_le_pow_right (by norm_num) hlen

theorem band_pm_j_lt (s1 : List α) (words : Nat) (sp : ℤ) (c : α) :
    band_pm_j (blockPmGet s1) words sp c < 2 ^ 64 := by
  rw [band_pm_j]
  split_ifs
  · exact Nat.mod_lt _ (by norm_num)
  · refine Nat.or_lt_two_pow ?_ (Nat.mod_lt _ (by norm_num))
    refine lt_of_le_of_lt ?_ (blockPmGet_lt s1 (sp.toNat / 64) c)
    rw [Nat.shiftRight_eq_div_pow]
    exact Nat.div_le_self _ _
  · refine lt_of_le_of_lt ?_ (blockPmGet_lt s1 (sp.toNat / 64) c)
    rw [Nat.shiftRight_eq_div_pow]
    exact Nat.div_le_self _ _

/-- Bits of the initial `VP = !0 << (64 - cutoff - 1)`. -/
theorem sb_vp0_testBit (k : Nat) (hk : k ≤ 63) : ∀ i < 64,
    (((2 ^ 64 - 1) <<< (64 - k - 1)) % 2 ^ 64).testBit i
      = decide (64 - k - 1 ≤ i) := by
  intro i hi
  rw [Nat.testBit_mod_two_pow, Nat.testBit_shiftLeft,
    Nat.testBit_two_pow_sub_one]
  have hd : decide (i < 64) = true := by
    simp only [decide_eq_true_eq]
    omega
  rw [hd, Bool.true_and]
  by_cases hge : 64 - k - 1 ≤ i
  · have h1 : decide (i ≥ 64 - k - 1) = true := by
      simp only [ge_iff_le, decide_eq_true_eq]
      omega
    have h2 : decide (i - (64 - k - 1) < 64) = true := by
      simp only [decide_eq_true_eq]
      omega
    rw [h1, h2]
    rfl
  · have h1 : decide (i ≥ 64 - k - 1) = false := by
      simp only [ge_iff_le, decide_eq_false_iff_not]
      omega
    rw [h1, Bool.false_and]

/-- Semantics of one word update of the small-band loop: given the
`VP`/`VN` encoding of the shadow column `n`, the computed `D0`, `HP`,
`HN` words carry the diagonal/horizontal deltas between columns `n` and
`n + 1`, and the updated `VP`/`VN` encode column `n + 1` (shifted one
window position, with the entering-row bit folded in). -/
theorem sb_word_sem (s1 s2 : List α) (k n : Nat) (c : α)
    (hlen : s1.length ≤ 64) (hc : s2.get? n = some c)
    (hnb : k + n < 127) (vp vn : Nat)
    (hvplt : vp < 2 ^ 64) (hvnlt : vn < 2 ^ 64)
    (hvp : ∀ i < 64, vp.testBit i = true ↔
      bandCol s1 s2 k n (i + 2) = bandCol s1 s2 k n (i + 1) + 1)
    (hvn : ∀ i < 64, vn.testBit i = true ↔
      bandCol s1 s2 k n (i + 1) = bandCol s1 s2 k n (i + 2) + 1) :
    (∀ i < 64, (sbD0 (sbX s1 k n c) vp vn).testBit i = true ↔
      bandCol s1 s2 k (n + 1) (i + 1) = bandCol s1 s2 k n (i + 1)) ∧
    (∀ i < 64, (sbHP (sbD0 (sbX s1 k n c) vp vn) vp vn).testBit i = true ↔
      bandCol s1 s2 k (n + 1) (i + 1) = bandCol s1 s2 k n (i + 2) + 1) ∧
    (∀ i < 64, (sbHN (sbD0 (sbX s1 k n c) vp vn) vp).testBit i = true ↔
      bandCol s1 s2 k n (i + 2) = bandCol s1 s2 k (n + 1) (i + 1) + 1) ∧
    sbVP2 (sbD0 (sbX s1 k n c) vp vn)
      (sbHP (sbD0 (sbX s1 k n c) vp vn) vp vn)
      (sbHN (sbD0 (sbX s1 k n c) vp vn) vp) < 2 ^ 64 ∧
    sbVN2 (sbD0 (sbX s1 k n c) vp vn)
      (sbHP (sbD0 (sbX s1 k n c) vp vn) vp vn) < 2 ^ 64 ∧
    (∀ i < 64, (sbVP2 (sbD0 (sbX s1 k n c) vp vn)
        (sbHP (sbD0 (sbX s1 k n c) vp vn) vp vn)
        (sbHN (sbD0 (sbX s1 k n c) vp vn) vp)).testBit i = true ↔
      bandCol s1 s2 k (n + 1) (i + 2) = bandCol s1 s2 k (n + 1) (i + 1) + 1) ∧
    (∀ i < 64, (sbVN2 (sbD0 (sbX s1 k n c) vp vn)
        (sbHP (sbD0 (sbX s1 k n c) vp vn) vp vn)).testBit i = true ↔
      bandCol s1 s2 k (n + 1) (i + 1) = bandCol s1 s2 k (n + 1) (i + 2) + 1) ∧
    (∀ i, i ≤ 64 → bandCol s1 s2 k (n + 1) i ≤ bandCol s1 s2 k n (i + 1) + 1
      ∧ bandCol s1 s2 k n (i + 1) ≤ bandCol s1 s2 k (n + 1) i + 1) ∧
    (∀ i < 64, bandCol s1 s2 k n (i + 1) ≤ bandCol s1 s2 k (n + 1) (i + 1)
      ∧ bandCol s1 s2 k (n + 1) (i + 1) ≤ bandCol s1 s2 k n (i + 1) + 1) := by
  have hadj : colAdj (bandCol s1 s2 k n) := bandCol_adj s1 s2 k n
  have hsucc : ∀ ℓ, bandCol s1 s2 k (n + 1) ℓ
      = bandColStep (bandCol s1 s2 k n) (bandMt s1 k (n + 1) c) ℓ :=
    bandCol_succ s1 s2 k n c hc
  have hv : ∀ i < 64, bandCol s1 s2 k n (i + 2) ≤ bandCol s1 s2 k n (i + 1) + 1
      ∧ bandCol s1 s2 k n (i + 1) ≤ bandCol s1 s2 k n (i + 2) + 1 :=
    fun i _ => hadj (i + 1)
  have hh : ∀ i, i ≤ 64 →
      bandCol s1 s2 k (n + 1) i ≤ bandCol s1 s2 k n (i + 1) + 1
      ∧ bandCol s1 s2 k n (i + 1) ≤ bandCol s1 s2 k (n + 1) i + 1 := by
    intro i hi
    rw [hsucc i]
    exact bandColStep_hh (bandCol s1 s2 k n) (bandMt s1 k (n + 1) c) hadj i hi
  have hdg : ∀ i < 64,
      bandCol s1 s2 k n (i + 1) ≤ bandCol s1 s2 k (n + 1) (i + 1)
      ∧ bandCol s1 s2 k (n + 1) (i + 1) ≤ bandCol s1 s2 k n (i + 1) + 1 := by
    intro i hi
    rw [hsucc (i + 1)]
    exact bandColStep_hdg (bandCol s1 s2 k n) (bandMt s1 k (n + 1) c) hadj i hi
  have h0 : bandCol s1 s2 k (n + 1) 0 = bandCol s1 s2 k n 1 + 1 := by
    rw [hsucc 0, bandColStep_zero]
  have hrecT : ∀ i < 64, bandMt s1 k (n + 1) c i = true →
      bandCol s1 s2 k (n + 1) (i + 1) = bandCol s1 s2 k n (i + 1) := by
    intro i hi hX
    rw [hsucc (i + 1), bandColStep_mid _ _ i hi, if_pos hX]
  have hrecF : ∀ i < 64, bandMt s1 k (n + 1) c i = false →
      bandCol s1 s2 k (n + 1) (i + 1) =
        min (min (bandCol s1 s2 k (n + 1) i + 1) (bandCol s1 s2 k n (i + 1) + 1))
          (bandCol s1 s2 k n (i + 2) + 1) := by
    intro i hi hX
    rw [hsucc (i + 1), bandColStep_mid _ _ i hi, if_neg (by simp [hX]),
      hsucc i]
  have hx : ∀ i < 64, (sbX s1 k n c).testBit i = bandMt s1 k (n + 1) c i :=
    band_pm_j_sem s1 c k n hlen (by omega)
  have hv2 : ∀ i < 64,
      bandCol s1 s2 k (n + 1) (i + 1) ≤ bandCol s1 s2 k (n + 1) i + 1
      ∧ bandCol s1 s2 k (n + 1) i ≤ bandCol s1 s2 k (n + 1) (i + 1) + 1 :=
    hyrroe_newcol_ranges 64 (fun i => bandCol s1 s2 k n (i + 1))
      (fun i => bandCol s1 s2 k (n + 1) i) (bandMt s1 k (n + 1) c)
      hh hdg hrecT hrecF
  have hxlt : sbX s1 k n c < 2 ^ 64 := band_pm_j_lt s1 1 _ c
  have hd0lt : sbD0 (sbX s1 k n c) vp vn < 2 ^ 64 := by
    have h1 : (((sbX s1 k n c &&& vp) + vp) % 2 ^ 64) < 2 ^ 64 :=
      Nat.mod_lt _ (by norm_num)
    exact Nat.or_lt_two_pow
      (Nat.or_lt_two_pow (Nat.xor_lt_two_pow h1 hvplt) hxlt) hvnlt
  have hd0sem : ∀ i < 64, (sbD0 (sbX s1 k n c) vp vn).testBit i = true ↔
      bandCol s1 s2 k (n + 1) (i + 1) = bandCol s1 s2 k n (i + 1) :=
    hyrroe_d0_sem 64 le_rfl (fun i => bandCol s1 s2 k n (i + 1))
      (fun i => bandCol s1 s2 k (n + 1) i) (bandMt s1 k (n + 1) c)
      (sbX s1 k n c) vp vn hv hh hdg hv2 h0 hrecT hrecF hx hvp hvn
  have hhpsem : ∀ i < 64,
      (sbHP (sbD0 (sbX s1 k n c) vp vn) vp vn).testBit i = true ↔
      bandCol s1 s2 k (n + 1) (i + 1) = bandCol s1 s2 k n (i + 2) + 1 :=
    hyrroe_hp_sem 64 le_rfl (fun i => bandCol s1 s2 k n (i + 1))
      (fun i => bandCol s1 s2 k (n + 1) i) (sbD0 (sbX s1 k n c) vp vn)
      vp vn hv hh hdg hd0sem hvp hvn
  have hhnsem : ∀ i < 64,
      (sbHN (sbD0 (sbX s1 k n c) vp vn) vp).testBit i = true ↔
      bandCol s1 s2 k n (i + 2) = bandCol s1 s2 k (n + 1) (i + 1) + 1 :=
    hyrroe_hn_sem 64 le_rfl (fun i => bandCol s1 s2 k n (i + 1))
      (fun i => bandCol s1 s2 k (n + 1) i) (sbD0 (sbX s1 k n c) vp vn)
      vp hv hh hdg hd0sem hvp
  have hent : bandCol s1 s2 k (n + 1) 65 = bandCol s1 s2 k (n + 1) 64 +
      (if bandCol s1 s2 k (n + 1) 64 = bandCol s1 s2 k n 65 + 1
       then 0 else 1) := by
    rw [hsucc 65, hsucc 64, bandColStep_enter]
  have hhplt : sbHP (sbD0 (sbX s1 k n c) vp vn) vp vn < 2 ^ 64 :=
    Nat.or_lt_two_pow hvnlt
      (Nat.xor_lt_two_pow (Nat.or_lt_two_pow hd0lt hvplt) (by norm_num))
  have hhnlt : sbHN (sbD0 (sbX s1 k n c) vp vn) vp < 2 ^ 64 :=
    Nat.and_lt_two_pow _ hvplt
  have hd0rlt : sbD0 (sbX s1 k n c) vp vn >>> 1 < 2 ^ 64 := by
    refine lt_of_le_of_lt ?_ hd0lt
    rw [Nat.shiftRight_eq_div_pow]
    exact Nat.div_le_self _ _
  have hvp2sem : ∀ i < 64, (sbVP2 (sbD0 (sbX s1 k n c) vp vn)
        (sbHP (sbD0 (sbX s1 k n c) vp vn) vp vn)
        (sbHN (sbD0 (sbX s1 k n c) vp vn) vp)).testBit i = true ↔
      bandCol s1 s2 k (n + 1) (i + 2) = bandCol s1 s2 k (n + 1) (i + 1) + 1 :=
    band_vp2_sem (fun i => bandCol s1 s2 k n (i + 1))
      (fun i => bandCol s1 s2 k (n + 1) i) (sbD0 (sbX s1 k n c) vp vn)
      (sbHP (sbD0 (sbX s1 k n c) vp vn) vp vn)
      (sbHN (sbD0 (sbX s1 k n c) vp vn) vp)
      hd0lt hv2 hh hdg hd0sem hhpsem hhnsem hent
  have hvn2sem : ∀ i < 64, (sbVN2 (sbD0 (sbX s1 k n c) vp vn)
        (sbHP (sbD0 (sbX s1 k n c) vp vn) vp vn)).testBit i = true ↔
      bandCol s1 s2 k (n + 1) (i + 1) = bandCol s1 s2 k (n + 1) (i + 2) + 1 :=
    band_vn2_sem (fun i => bandCol s1 s2 k n (i + 1))
      (fun i => bandCol s1 s2 k (n + 1) i) (sbD0 (sbX s1 k n c) vp vn)
      (sbHP (sbD0 (sbX s1 k n c) vp vn) vp vn)
      hd0lt hv2 hh hdg hd0sem hhpsem hent
  exact ⟨hd0sem, hhpsem, hhnsem,
    Nat.or_lt_two_pow hhnlt
      (Nat.xor_lt_two_pow (Nat.or_lt_two_pow hd0rlt hhplt) (by norm_num)),
    Nat.and_lt_two_pow _ hhplt, hvp2sem, hvn2sem, hh, hdg⟩
/-- One diagonal-phase step preserves the window invariant: it never
aborts (the tracked score stays under the break score on the
within-cutoff domain) and the returned score is the next shadow value on
the diagonal. -/
theorem small_band_diag_step_inv (s1 s2 : List α) (k n : Nat) (c : α)
    (hk : 2 * k ≤ 63) (hlen : s1.length ≤ 64) (hc : s2.get? n = some c)
    (hph : k + n + 1 ≤ s1.length) (brk : Nat)
    (hbrkeq : s1.length + brk = 2 * k + s2.length)
    (hL : extDP s1 s2 s1.length s2.length ≤ k)
    (vp vn dist : Nat) (sp : ℤ) (hsp : sp = (k : ℤ) + 1 - 64 + n)
    (hvplt : vp < 2 ^ 64) (hvnlt : vn < 2 ^ 64)
    (hvp : ∀ i < 64, vp.testBit i = true ↔
      bandCol s1 s2 k n (i + 2) = bandCol s1 s2 k n (i + 1) + 1)
    (hvn : ∀ i < 64, vn.testBit i = true ↔
      bandCol s1 s2 k n (i + 1) = bandCol s1 s2 k n (i + 2) + 1)
    (hdist : dist = bandCol s1 s2 k n 64) :
    ∃ vp2 vn2, small_band_diag_step (blockPmGet s1) 1 brk (vp, vn, dist, sp) c
        = some (vp2, vn2, bandCol s1 s2 k (n + 1) 64, sp + 1) ∧
      vp2 < 2 ^ 64 ∧ vn2 < 2 ^ 64 ∧
      (∀ i < 64, vp2.testBit i = true ↔
        bandCol s1 s2 k (n + 1) (i + 2) = bandCol s1 s2 k (n + 1) (i + 1) + 1) ∧
      (∀ i < 64, vn2.testBit i = true ↔
        bandCol s1 s2 k (n + 1) (i + 1) = bandCol s1 s2 k (n + 1) (i + 2) + 1) := by
  subst hsp
  have hn2 : n < s2.length := by
    by_contra hcon
    rw [List.get?_eq_none.mpr (by omega)] at hc
    simp at hc
  have hnb : k + n < 127 := by omega
  obtain ⟨hd0sem, hhpsem, hhnsem, hvp2lt, hvn2lt, hvp2sem, hvn2sem,
    hcolhh, hcoldg⟩ := sb_word_sem s1 s2 k n c hlen hc hnb vp vn hvplt hvnlt hvp hvn
  have hdval : dist +
      (if sbD0 (sbX s1 k n c) vp vn &&& (1 <<< 63) = 0 then 1 else 0)
      = bandCol s1 s2 k (n + 1) 64 := by
    refine band_diag_dist_sem (fun i => bandCol s1 s2 k n (i + 1))
      (fun i => bandCol s1 s2 k (n + 1) i) (sbD0 (sbX s1 k n c) vp vn) dist
      ?_ ?_ hdist
    · exact hcoldg 63 (by omega)
    · exact hd0sem 63 (by omega)
  have hub : bandCol s1 s2 k (n + 1) 64 ≤ brk := by
    have hb1 := bandCol_le_bandDP s1 s2 k hk (n + 1) (by omega) 64 le_rfl
      (by omega) (by omega)
    have hidx : k + (n + 1) + 64 - 64 = k + (n + 1) := by omega
    rw [hidx] at hb1
    have hb2 := bandDP_tracked_le s1 s2 k hL (n + 1) (by omega)
    have hmin : min (k + (n + 1)) s1.length = k + (n + 1) := by omega
    rw [hmin] at hb2
    omega
  refine ⟨_, _, ?_, hvp2lt, hvn2lt, hvp2sem, hvn2sem⟩
  have hstep : small_band_diag_step (blockPmGet s1) 1 brk
      (vp, vn, dist, (k : ℤ) + 1 - 64 + n) c
      = if brk < dist +
          (if sbD0 (sbX s1 k n c) vp vn &&& (1 <<< 63) = 0 then 1 else 0)
        then none
        else some (sbVP2 (sbD0 (sbX s1 k n c) vp vn)
            (sbHP (sbD0 (sbX s1 k n c) vp vn) vp vn)
            (sbHN (sbD0 (sbX s1 k n c) vp vn) vp),
          sbVN2 (sbD0 (sbX s1 k n c) vp vn)
            (sbHP (sbD0 (sbX s1 k n c) vp vn) vp vn),
          dist + (if sbD0 (sbX s1 k n c) vp vn &&& (1 <<< 63) = 0
            then 1 else 0),
          (k : ℤ) + 1 - 64 + n + 1) := rfl
  rw [hstep, hdval, if_neg (by omega)]

/-- One horizontal-phase step preserves the window invariant and moves
the tracked score one window position up (same matrix row). -/
theorem small_band_horiz_step_inv (s1 s2 : List α) (k n p : Nat) (c : α)
    (hk : 2 * k ≤ 63) (hlen : s1.length ≤ 64) (hc : s2.get? n = some c)
    (hrow : k + n = s1.length + p) (hp2k : p + 1 ≤ 2 * k) (brk : Nat)
    (hbrkeq : s1.length + brk = 2 * k + s2.length)
    (hL : extDP s1 s2 s1.length s2.length ≤ k)
    (vp vn dist mask : Nat) (sp : ℤ) (hsp : sp = (k : ℤ) + 1 - 64 + n)
    (hmask : mask = (1 <<< 62) >>> p)
    (hvplt : vp < 2 ^ 64) (hvnlt : vn < 2 ^ 64)
    (hvp : ∀ i < 64, vp.testBit i = true ↔
      bandCol s1 s2 k n (i + 2) = bandCol s1 s2 k n (i + 1) + 1)
    (hvn : ∀ i < 64, vn.testBit i = true ↔
      bandCol s1 s2 k n (i + 1) = bandCol s1 s2 k n (i + 2) + 1)
    (hdist : dist = bandCol s1 s2 k n (64 - p)) :
    ∃ vp2 vn2,
      small_band_horiz_step (blockPmGet s1) 1 brk (vp, vn, dist, mask, sp) c
        = some (vp2, vn2, bandCol s1 s2 k (n + 1) (64 - (p + 1)),
            (1 <<< 62) >>> (p + 1), sp + 1) ∧
      vp2 < 2 ^ 64 ∧ vn2 < 2 ^ 64 ∧
      (∀ i < 64, vp2.testBit i = true ↔
        bandCol s1 s2 k (n + 1) (i + 2) = bandCol s1 s2 k (n + 1) (i + 1) + 1) ∧
      (∀ i < 64, vn2.testBit i = true ↔
        bandCol s1 s2 k (n + 1) (i + 1) = bandCol s1 s2 k (n + 1) (i + 2) + 1) := by
  subst hsp
  subst hmask
  have hple : p ≤ 62 := by omega
  have hn2 : n < s2.length := by
    by_contra hcon
    rw [List.get?_eq_none.mpr (by omega)] at hc
    simp at hc
  have hnb : k + n < 127 := by omega
  obtain ⟨hd0sem, hhpsem, hhnsem, hvp2lt, hvn2lt, hvp2sem, hvn2sem,
    hcolhh, hcoldg⟩ := sb_word_sem s1 s2 k n c hlen hc hnb vp vn hvplt hvnlt hvp hvn
  have hmeq : (1 <<< 62) >>> p = 1 <<< (62 - p) := by
    rw [Nat.shiftLeft_eq, Nat.one_mul, Nat.shiftRight_eq_div_pow,
      Nat.shiftLeft_eq, Nat.one_mul, Nat.pow_div hple (by norm_num)]
  have hds2 : dist +
      (if sbHP (sbD0 (sbX s1 k n c) vp vn) vp vn &&& 1 <<< (62 - p) ≠ 0
        then 1 else 0) -
      (if sbHN (sbD0 (sbX s1 k n c) vp vn) vp &&& 1 <<< (62 - p) ≠ 0
        then 1 else 0) = bandCol s1 s2 k (n + 1) (64 - (p + 1)) := by
    have hds := hyrroe_dist_sem (63 - p) (by omega)
      (fun i => bandCol s1 s2 k n (i + 1))
      (fun i => bandCol s1 s2 k (n + 1) i)
      (sbHP (sbD0 (sbX s1 k n c) vp vn) vp vn)
      (sbHN (sbD0 (sbX s1 k n c) vp vn) vp) dist
      (fun i hi => hcolhh i (by omega))
      (fun i hi => hhpsem i (by omega))
      (fun i hi => hhnsem i (by omega))
      (by show dist = bandCol s1 s2 k n (63 - p + 1)
          rw [show (63 : Nat) - p + 1 = 64 - p from by omega]
          exact hdist)
    rw [show (63 : Nat) - p - 1 = 62 - p from by omega] at hds
    rw [show (63 : Nat) - p = 64 - (p + 1) from by omega] at hds
    exact hds
  have hub : bandCol s1 s2 k (n + 1) (64 - (p + 1)) ≤ brk := by
    have hb1 := bandCol_le_bandDP s1 s2 k hk (n + 1) (by omega) (64 - (p + 1))
      (by omega) (by omega) (by omega)
    have hidx : k + (n + 1) + (64 - (p + 1)) - 64 = s1.length := by omega
    rw [hidx] at hb1
    have hb2 := bandDP_tracked_le s1 s2 k hL (n + 1) (by omega)
    have hmin : min (k + (n + 1)) s1.length = s1.length := by omega
    rw [hmin] at hb2
    omega
  refine ⟨_, _, ?_, hvp2lt, hvn2lt, hvp2sem, hvn2sem⟩
  have hstep : small_band_horiz_step (blockPmGet s1) 1 brk
      (vp, vn, dist, (1 <<< 62) >>> p, (k : ℤ) + 1 - 64 + n) c
      = if brk < dist +
          (if sbHP (sbD0 (sbX s1 k n c) vp vn) vp vn &&&
            ((1 <<< 62) >>> p) ≠ 0 then 1 else 0) -
          (if sbHN (sbD0 (sbX s1 k n c) vp vn) vp &&&
            ((1 <<< 62) >>> p) ≠ 0 then 1 else 0)
        then none
        else some (sbVP2 (sbD0 (sbX s1 k n c) vp vn)
            (sbHP (sbD0 (sbX s1 k n c) vp vn) vp vn)
            (sbHN (sbD0 (sbX s1 k n c) vp vn) vp),
          sbVN2 (sbD0 (sbX s1 k n c) vp vn)
            (sbHP (sbD0 (sbX s1 k n c) vp vn) vp vn),
          dist +
          (if sbHP (sbD0 (sbX s1 k n c) vp vn) vp vn &&&
            ((1 <<< 62) >>> p) ≠ 0 then 1 else 0) -
          (if sbHN (sbD0 (sbX s1 k n c) vp vn) vp &&&
            ((1 <<< 62) >>> p) ≠ 0 then 1 else 0),
          ((1 <<< 62) >>> p) >>> 1,
          (k : ℤ) + 1 - 64 + n + 1) := rfl
  rw [← hmeq] at hds2
  rw [hstep, hds2, if_neg (by omega), ← Nat.shiftRight_add]
/-- The diagonal phase tracks the shadow diagonal: after `t` elements of
s2 (with the band still inside s1), the state encodes shadow column `t`
and the score is its window-bottom value. -/
theorem small_band_diag_fold (s1 s2 : List α) (k : Nat)
    (hk : 2 * k ≤ 63) (hlen : s1.length ≤ 64) (brk : Nat)
    (hbrkeq : s1.length + brk = 2 * k + s2.length)
    (hL : extDP s1 s2 s1.length s2.length ≤ k) :
    ∀ t, k + t ≤ s1.length → t ≤ s2.length →
      ∃ vp vn, (s2.take t).foldl
          (fun ost c => ost.bind
            (fun st => small_band_diag_step (blockPmGet s1) 1 brk st c))
          (some (((2 ^ 64 - 1) <<< (64 - k - 1)) % 2 ^ 64, 0, k,
            (k : ℤ) + 1 - 64)) =
        some (vp, vn, bandCol s1 s2 k t 64, (k : ℤ) + 1 - 64 + t) ∧
        vp < 2 ^ 64 ∧ vn < 2 ^ 64 ∧
        (∀ i < 64, vp.testBit i = true ↔
          bandCol s1 s2 k t (i + 2) = bandCol s1 s2 k t (i + 1) + 1) ∧
        (∀ i < 64, vn.testBit i = true ↔
          bandCol s1 s2 k t (i + 1) = bandCol s1 s2 k t (i + 2) + 1) := by
  intro t
  induction t with
  | zero =>
      intro ht1 ht2
      refine ⟨((2 ^ 64 - 1) <<< (64 - k - 1)) % 2 ^ 64, 0, ?_,
        Nat.mod_lt _ (by norm_num), by norm_num, ?_, ?_⟩
      · rw [List.take_zero, List.foldl_nil]
        have h1 : bandCol s1 s2 k 0 64 = k := by
          show k + 64 - 64 = k
          omega
        have h2 : (k : ℤ) + 1 - 64 + ((0 : Nat) : ℤ) = (k : ℤ) + 1 - 64 := by
          push_cast
          ring
        rw [h1, h2]
      · intro i hi
        rw [sb_vp0_testBit k (by omega) i hi]
        show decide (64 - k - 1 ≤ i) = true ↔
          k + (i + 2) - 64 = k + (i + 1) - 64 + 1
        rw [decide_eq_true_eq]
        omega
      · intro i hi
        rw [Nat.zero_testBit]
        show false = true ↔ k + (i + 1) - 64 = k + (i + 2) - 64 + 1
        simp
        omega
  | succ t ih =>
      intro ht1 ht2
      have ht2' : t < s2.length := by omega
      obtain ⟨vp, vn, hfold, hvplt, hvnlt, hvp, hvn⟩ := ih (by omega) (by omega)
      have hc : s2.get? t = some (s2.get ⟨t, ht2'⟩) := List.get?_eq_get ht2'
      obtain ⟨vp2, vn2, hstep, hvp2lt, hvn2lt, hvp2, hvn2⟩ :=
        small_band_diag_step_inv s1 s2 k t (s2.get ⟨t, ht2'⟩) hk hlen hc
          (by omega) brk hbrkeq hL vp vn (bandCol s1 s2 k t 64)
          ((k : ℤ) + 1 - 64 + t) rfl hvplt hvnlt hvp hvn rfl
      refine ⟨vp2, vn2, ?_, hvp2lt, hvn2lt, hvp2, hvn2⟩
      rw [List.take_succ, ← List.get?_eq_getElem?, hc,
        show (some (s2.get ⟨t, ht2'⟩)).toList = [s2.get ⟨t, ht2'⟩] from rfl,
        List.foldl_append, hfold, List.foldl_cons, List.foldl_nil]
      have hspeq : (k : ℤ) + 1 - 64 + (t : ℤ) + 1
          = (k : ℤ) + 1 - 64 + (((t + 1 : Nat)) : ℤ) := by
        push_cast
        ring
      rw [← hspeq]
      exact hstep

/-- The horizontal phase walks the tracked score up the window, one
position per remaining element of s2, ending at shadow column
`len2`. -/
theorem small_band_horiz_fold (s1 s2 : List α) (k : Nat)
    (hk : 2 * k ≤ 63) (hlen : s1.length ≤ 64) (brk : Nat)
    (hbrkeq : s1.length + brk = 2 * k + s2.length)
    (hL : extDP s1 s2 s1.length s2.length ≤ k) :
    ∀ r n p, n + r = s2.length → k + n = s1.length + p → p + r ≤ 2 * k →
      ∀ vp vn dist mask, vp < 2 ^ 64 → vn < 2 ^ 64 →
      (∀ i < 64, vp.testBit i = true ↔
        bandCol s1 s2 k n (i + 2) = bandCol s1 s2 k n (i + 1) + 1) →
      (∀ i < 64, vn.testBit i = true ↔
        bandCol s1 s2 k n (i + 1) = bandCol s1 s2 k n (i + 2) + 1) →
      dist = bandCol s1 s2 k n (64 - p) → mask = (1 <<< 62) >>> p →
      ∃ vp2 vn2 mask2,
        (s2.drop n).foldl
          (fun ost c => ost.bind
            (fun st => small_band_horiz_step (blockPmGet s1) 1 brk st c))
          (some (vp, vn, dist, mask, (k : ℤ) + 1 - 64 + n))
        = some (vp2, vn2, bandCol s1 s2 k s2.length (64 - (p + r)), mask2,
            (k : ℤ) + 1 - 64 + (s2.length : ℤ)) := by
  intro r
  induction r with
  | zero =>
      intro n p hn hrow hp2k vp vn dist mask hvplt hvnlt hvp hvn hdist hmask
      have hnlen : n = s2.length := by omega
      subst hnlen
      refine ⟨vp, vn, mask, ?_⟩
      rw [List.drop_length, List.foldl_nil, hdist]
      exact rfl
  | succ r ih =>
      intro n p hn hrow hp2k vp vn dist mask hvplt hvnlt hvp hvn hdist hmask
      have hn2 : n < s2.length := by omega
      have hc : s2.get? n = some (s2.get ⟨n, hn2⟩) := List.get?_eq_get hn2
      obtain ⟨vp2, vn2, hstep, hvp2lt, hvn2lt, hvp2, hvn2⟩ :=
        small_band_horiz_step_inv s1 s2 k n p (s2.get ⟨n, hn2⟩) hk hlen hc
          hrow (by omega) brk hbrkeq hL vp vn dist mask
          ((k : ℤ) + 1 - 64 + n) rfl hmask hvplt hvnlt hvp hvn hdist
      obtain ⟨vp3, vn3, mask3, hrest⟩ := ih (n + 1) (p + 1) (by omega)
        (by omega) (by omega) vp2 vn2 (bandCol s1 s2 k (n + 1) (64 - (p + 1)))
        ((1 <<< 62) >>> (p + 1)) hvp2lt hvn2lt hvp2 hvn2 rfl rfl
      refine ⟨vp3, vn3, mask3, ?_⟩
      rw [List.drop_eq_getElem_cons hn2, List.foldl_cons]
      have hinit : ((some (vp, vn, dist, mask,
            (k : ℤ) + 1 - 64 + (n : ℤ))).bind
          (fun st => small_band_horiz_step (blockPmGet s1) 1 brk st s2[n]))
          = some (vp2, vn2, bandCol s1 s2 k (n + 1) (64 - (p + 1)),
              (1 <<< 62) >>> (p + 1), (k : ℤ) + 1 - 64 + n + 1) := hstep
      rw [hinit]
      have hspeq : (k : ℤ) + 1 - 64 + (n : ℤ) + 1
          = (k : ℤ) + 1 - 64 + (((n + 1 : Nat)) : ℤ) := by
        push_cast
        ring
      rw [hspeq]
      have hpr : (p + 1) + r = p + (r + 1) := by omega
      rw [hpr] at hrest
      exact hrest

/-- `hyrroe2003_small_band_with_pm` returns the exact uniform Levenshtein
distance whenever that distance is within the cutoff, the pattern fits
one word, the cutoff respects the engine's documented preconditions
(`score_cutoff ≤ len1`, band inside the word). -/
theorem small_band_correct (s1 s2 : List α) (k : Nat)
    (hk : 2 * k ≤ 63) (hlen : s1.length ≤ 64) (hkle : k ≤ s1.length)
    (hlev : lev s1 s2 ≤ k) :
    hyrroe2003_small_band_with_pm (blockPmGet s1) 1 s1.length s2 s2.length k
      = lev s1 s2 := by
  have hL : extDP s1 s2 s1.length s2.length ≤ k := by
    rw [extDP_full]
    exact hlev
  have h12 : s1.length ≤ s2.length + k := by
    have := length_le_lev_add_left s1 s2
    omega
  have h21 : s2.length ≤ s1.length + k := by
    have := length_le_lev_add_right s1 s2
    omega
  have hbrkval : (((k : ℤ) + (s2.length : ℤ)
      - ((s1.length : ℤ) - (k : ℤ))) % 2 ^ 64).toNat
      = 2 * k + s2.length - s1.length := by
    have h0 : (0 : ℤ) ≤ (k : ℤ) + (s2.length : ℤ)
        - ((s1.length : ℤ) - (k : ℤ)) := by
      push_cast
      omega
    have hlt : (k : ℤ) + (s2.length : ℤ) - ((s1.length : ℤ) - (k : ℤ))
        < 2 ^ 64 := by
      push_cast
      omega
    rw [Int.emod_eq_of_lt h0 hlt]
    omega
  have hp1 : (if k < s1.length then s1.length - k else 0)
      = s1.length - k := by
    split_ifs <;> omega
  have hbrkeq : s1.length + (2 * k + s2.length - s1.length)
      = 2 * k + s2.length := by omega
  obtain ⟨vpD, vnD, hfoldD, hvpltD, hvnltD, hvpD, hvnD⟩ :=
    small_band_diag_fold s1 s2 k hk hlen (2 * k + s2.length - s1.length)
      hbrkeq hL (s1.length - k) (by omega) (by omega)
  obtain ⟨vp3, vn3, mask3, hfoldH⟩ :=
    small_band_horiz_fold s1 s2 k hk hlen (2 * k + s2.length - s1.length)
      hbrkeq hL (s2.length - (s1.length - k)) (s1.length - k) 0 (by omega)
      (by omega) (by omega) vpD vnD (bandCol s1 s2 k (s1.length - k) 64)
      (1 <<< 62) hvpltD hvnltD hvpD hvnD rfl Nat.shiftRight_zero.symm
  have hval : bandCol s1 s2 k s2.length
      (64 - (0 + (s2.length - (s1.length - k)))) = lev s1 s2 := by
    have hlow := extDP_le_bandCol s1 s2 k s2.length le_rfl
      (64 - (0 + (s2.length - (s1.length - k)))) (by omega)
    have hidx : k + s2.length + (64 - (0 + (s2.length - (s1.length - k))))
        - 64 = s1.length := by omega
    rw [hidx] at hlow
    rw [extDP_full] at hlow
    have hup := bandCol_le_bandDP s1 s2 k hk s2.length le_rfl
      (64 - (0 + (s2.length - (s1.length - k)))) (by omega) (by omega)
      (by omega)
    rw [hidx] at hup
    have heq := bandDP_eq_extDP s1 s2 k (s1.length + s2.length) s1.length
      s2.length le_rfl le_rfl (by omega) (by omega) hL
    rw [heq, extDP_full] at hup
    omega
  simp only [hyrroe2003_small_band_with_pm]
  rw [hbrkval, hp1, hfoldD]
  simp only [sbPhase2]
  rw [hfoldH]
  simp only [sbScore]
  exact hval
/-! ## The Hyyrö block engine, one-word instance
(src/distance/levenshtein.rs lines 769-1019) -/

/-- `advance_block` (src/distance/levenshtein.rs lines 844-886) for the
last (here: only) word: the usual `D0`/`HP`/`HN` update with the
horizontal carries threaded through bit 0, the outgoing carries taken at
the `last` mask, and the shifted `HP`/`HN` folded into the new
`VP`/`VN`.  Returns `(vp2, vn2, hp_carry2, hn_carry2)`. -/
def block_advance_1w (pm_j last vp vn : Nat) (hpc hnc : Bool) :
    Nat × Nat × Bool × Bool :=
  let x := pm_j ||| (if hnc then 1 else 0)
  let d0 := ((((x &&& vp) + vp) % 2 ^ 64) ^^^ vp) ||| x ||| vn
  let hp := vn ||| ((d0 ||| vp) ^^^ (2 ^ 64 - 1))
  let hn := d0 &&& vp
  let hpc2 := decide (hp &&& last ≠ 0)
  let hnc2 := decide (hn &&& last ≠ 0)
  let hp2 := ((hp <<< 1) % 2 ^ 64) ||| (if hpc then 1 else 0)
  let hn2 := ((hn <<< 1) % 2 ^ 64) ||| (if hnc then 1 else 0)
  (hn2 ||| ((d0 ||| hp2) ^^^ (2 ^ 64 - 1)), hp2 &&& d0, hpc2, hnc2)

/-- The per-row cutoff tightening (src/distance/levenshtein.rs lines
897-904) with one word (`last_block = 0`, so the second `max` argument
is `len1 - ((1 + 0) * 64 - 1) - 1 = len1 - 64` in `isize`). -/
def blockSc2 (sc score2 len1 len2 row : Nat) : ℤ :=
  min (sc : ℤ) ((score2 : ℤ) +
    max ((len2 : ℤ) - row - 1) ((len1 : ℤ) - 64))

/-- One row of the block search loop (src/distance/levenshtein.rs lines
824-1006) in the one-word case, where `first_block = last_block = 0` on
entry: advance the word, update `scores[0]` from the outgoing carries,
tighten the cutoff (`as usize` of an `isize`, modelled by
`% 2^64` then `toNat`); the growth branch (lines 912-934) cannot fire
since `last_block + 1 < words` fails.  If the `last_block` band
conditions (lines 936-960) fail the Rust code decrements
`last_block = 0`, an underflow whose out-of-range block index panics:
modelled as `none`.  If the `first_block` conditions (lines 963-979)
fail, `first_block` becomes `1 > last_block` and the function returns
`usize::MAX` (lines 982-985): modelled as `Sum.inr USIZE_MAX`. -/
def block_row_1w (pmget : α → Nat) (last len1 len2 : Nat)
    (st : Nat × Nat × Nat × Nat × Nat) (c : α) :
    Option ((Nat × Nat × Nat × Nat × Nat) ⊕ Nat) :=
  let row := st.1
  let vp := st.2.1
  let vn := st.2.2.1
  let score := st.2.2.2.1
  let sc := st.2.2.2.2
  let adv := block_advance_1w (pmget c) last vp vn true false
  let score2 := score + (if adv.2.2.1 then 1 else 0)
    - (if adv.2.2.2 then 1 else 0)
  let sc2 := ((blockSc2 sc score2 len1 len2 row) % 2 ^ 64).toNat
  if score2 < sc2 + 64 ∧ ((len1 : ℤ) - 1 ≤ (sc2 : ℤ) + 2 * 64 + row
      + len1 + 1 - score2 - 2 - len2) then
    if score2 < sc2 + 64 ∧ ((len1 : ℤ) - 1 ≥ (score2 : ℤ) + len1 + row
        - sc2 - len2) then
      some (Sum.inl (row + 1, adv.1, adv.2.1, score2, sc2))
    else some (Sum.inr USIZE_MAX)
  else none

/-- Result shaping of the block search (src/distance/levenshtein.rs
lines 1012-1017): `none` = panic, an early `usize::MAX` is passed
through, otherwise `scores[words - 1]` is returned when within the
(tightened) cutoff and `usize::MAX` when not. -/
def blockScore_1w : Option ((Nat × Nat × Nat × Nat × Nat) ⊕ Nat) → Option Nat
  | none => none
  | some (Sum.inr v) => some v
  | some (Sum.inl st) =>
      some (if st.2.2.2.1 ≤ st.2.2.2.2 then st.2.2.2.1 else USIZE_MAX)

/-- `hyrroe2003_block` (src/distance/levenshtein.rs lines 769-1019) at
`RECORD_MATRIX = RECORD_BIT_ROW = 0` and one pattern word
(`pm.size() = 1`, i.e. `len1 ≤ 64`): early `usize::MAX` when the cutoff
is below the length difference (lines 786-789); otherwise
`vecs = [{vp: !0, vn: 0}]`, `scores = [len1]`,
`last = 1 << ((len1 - 1) % 64)`, the cutoff is clamped to
`max(len1, len2)` (line 812), and the initial
`last_block = min(1, ceil_div(min(sc, (sc + len1 - len2) / 2) + 1, 64)) - 1
= 0` (its second argument is at least 1), so every row runs the one-word
row step above. -/
def hyrroe2003_block_1word (pmget : α → Nat) (len1 : Nat) (s2 : List α)
    (len2 score_cutoff : Nat) : Option Nat :=
  if score_cutoff < max (len1 - len2) (len2 - len1) then some USIZE_MAX
  else
    blockScore_1w (s2.foldl
      (fun ost c => ost.bind
        (fun st => match st with
          | Sum.inr v => some (Sum.inr v)
          | Sum.inl st => block_row_1w pmget (1 <<< ((len1 - 1) % 64))
              len1 len2 st c))
      (some (Sum.inl (0, 2 ^ 64 - 1, 0, len1,
        min score_cutoff (max len1 len2)))))

theorem block_advance_1w_vp (pmj last vp vn score : Nat) :
    (block_advance_1w pmj last vp vn true false).1
      = (hyrroe2003_step last pmj (vp, vn, score)).1 := by
  simp [block_advance_1w, hyrroe2003_step]

theorem block_advance_1w_vn (pmj last vp vn score : Nat) :
    (block_advance_1w pmj last vp vn true false).2.1
      = (hyrroe2003_step last pmj (vp, vn, score)).2.1 := by
  simp [block_advance_1w, hyrroe2003_step]

theorem block_advance_1w_score (pmj last vp vn score : Nat) :
    score + (if (block_advance_1w pmj last vp vn true false).2.2.1
        then 1 else 0)
      - (if (block_advance_1w pmj last vp vn true false).2.2.2
        then 1 else 0)
      = (hyrroe2003_step last pmj (vp, vn, score)).2.2 := by
  simp [block_advance_1w, hyrroe2003_step]

/-- Truncating the second sequence by `m` elements moves the distance by
at most `m` in either direction. -/
theorem lev_take_close (as bs : List α) : ∀ t, t ≤ bs.length →
    lev as bs ≤ lev as (bs.take t) + (bs.length - t) ∧
    lev as (bs.take t) ≤ lev as bs + (bs.length - t) := by
  have key : ∀ m t, t ≤ bs.length → bs.length - t ≤ m →
      lev as bs ≤ lev as (bs.take t) + (bs.length - t) ∧
      lev as (bs.take t) ≤ lev as bs + (bs.length - t) := by
    intro m
    induction m with
    | zero =>
        intro t ht hm
        have hteq : t = bs.length := by omega
        subst hteq
        rw [List.take_length]
        omega
    | succ m ih =>
        intro t ht hm
        by_cases hend : bs.length - t = 0
        · have hteq : t = bs.length := by omega
          subst hteq
          rw [List.take_length]
          omega
        · have htlt : t < bs.length := by omega
          have hih := ih (t + 1) (by omega) (by omega)
          have htk : bs.take (t + 1) = bs.take t ++ [bs[t]] := by
            rw [List.take_succ]
            simp [List.getElem?_eq_getElem htlt]
          rw [htk] at hih
          have hc1 := (lev_concat_le (bs[t]) as (bs.take t)).1
          have hc2 := (lev_le_concat (bs[t]) as (bs.take t)).1
          omega
  intro t ht
  exact key (bs.length - t) t ht le_rfl
/-- One block row preserves the Hyyrö column invariant, never panics and
never collapses the band on the within-cutoff domain, and keeps the
tightened cutoff between the true distance and its previous value. -/
theorem block_row_1w_inv (s1 s2 : List α) (k r : Nat) (c : α)
    (h1 : 1 ≤ s1.length) (h64 : s1.length ≤ 64) (hkb : k ≤ 63)
    (hc : s2.get? r = some c)
    (hlev1 : 1 ≤ lev s1 s2) (hlevk : lev s1 s2 ≤ k)
    (vp vn score sc : Nat)
    (hinv : hyrroeInv s1 (s2.take r) (vp, vn, score))
    (hsc1 : lev s1 s2 ≤ sc) (hsck : sc ≤ k) :
    ∃ vp2 vn2,
      block_row_1w (fun c => pmVec s1 c) (1 <<< (s1.length - 1)) s1.length
          s2.length (r, vp, vn, score, sc) c
        = some (Sum.inl (r + 1, vp2, vn2, lev s1 (s2.take (r + 1)),
            (blockSc2 sc (lev s1 (s2.take (r + 1))) s1.length s2.length
              r).toNat)) ∧
      hyrroeInv s1 (s2.take (r + 1))
        (vp2, vn2, lev s1 (s2.take (r + 1))) ∧
      lev s1 s2 ≤ (blockSc2 sc (lev s1 (s2.take (r + 1))) s1.length
          s2.length r).toNat ∧
      (blockSc2 sc (lev s1 (s2.take (r + 1))) s1.length s2.length
          r).toNat ≤ k := by
  have hr : r < s2.length := by
    by_contra hcon
    rw [List.get?_eq_none.mpr (by omega)] at hc
    simp at hc
  have htc : s2.take (r + 1) = s2.take r ++ [c] := by
    rw [List.take_succ, ← List.get?_eq_getElem?, hc]
    rfl
  have hstep := hyrroeInv_step s1 (s2.take r) c (vp, vn, score) h1 h64 hinv
  rw [← htc] at hstep
  have hd : (hyrroe2003_step (1 <<< (s1.length - 1)) (pmVec s1 c)
      (vp, vn, score)).2.2 = lev s1 (s2.take (r + 1)) := hstep.1
  have hlen_take : (s2.take (r + 1)).length = r + 1 := by
    rw [List.length_take]
    omega
  have hup1 : lev s1 (s2.take (r + 1)) ≤ max s1.length (r + 1) := by
    have h := lev_le_max s1 (s2.take (r + 1))
    rw [hlen_take] at h
    exact h
  have hlow : s1.length ≤ lev s1 (s2.take (r + 1)) + (r + 1) := by
    have h := length_le_lev_add_left s1 (s2.take (r + 1))
    rw [hlen_take] at h
    exact h
  have hclose := lev_take_close s1 s2 (r + 1) (by omega)
  have hl2 : s2.length ≤ lev s1 s2 + s1.length :=
    length_le_lev_add_right s1 s2
  have h0 : (0 : ℤ) ≤ blockSc2 sc (lev s1 (s2.take (r + 1))) s1.length
      s2.length r := by
    simp only [blockSc2]
    omega
  have hlt : blockSc2 sc (lev s1 (s2.take (r + 1))) s1.length s2.length r
      < 2 ^ 64 := by
    simp only [blockSc2]
    omega
  have hemod : blockSc2 sc (lev s1 (s2.take (r + 1))) s1.length s2.length r
      % 2 ^ 64
      = blockSc2 sc (lev s1 (s2.take (r + 1))) s1.length s2.length r :=
    Int.emod_eq_of_lt h0 hlt
  have hcond1 : lev s1 (s2.take (r + 1))
      < (blockSc2 sc (lev s1 (s2.take (r + 1))) s1.length s2.length
          r).toNat + 64 := by
    simp only [blockSc2]
    omega
  have hcond2 : (s1.length : ℤ) - 1
      ≤ ((blockSc2 sc (lev s1 (s2.take (r + 1))) s1.length s2.length
          r).toNat : ℤ) + 2 * 64 + r + s1.length + 1
        - (lev s1 (s2.take (r + 1)) : ℤ) - 2 - s2.length := by
    simp only [blockSc2]
    omega
  have hcond2' : (s1.length : ℤ) - 1
      ≥ (lev s1 (s2.take (r + 1)) : ℤ) + s1.length + r
        - ((blockSc2 sc (lev s1 (s2.take (r + 1))) s1.length s2.length
          r).toNat : ℤ) - s2.length := by
    simp only [blockSc2]
    omega
  refine ⟨(hyrroe2003_step (1 <<< (s1.length - 1)) (pmVec s1 c)
      (vp, vn, score)).1,
    (hyrroe2003_step (1 <<< (s1.length - 1)) (pmVec s1 c)
      (vp, vn, score)).2.1, ?_, ⟨rfl, hstep.2⟩, ?_, ?_⟩
  · have hbv := block_advance_1w_vp (pmVec s1 c) (1 <<< (s1.length - 1))
      vp vn score
    have hbn := block_advance_1w_vn (pmVec s1 c) (1 <<< (s1.length - 1))
      vp vn score
    have hbs := block_advance_1w_score (pmVec s1 c) (1 <<< (s1.length - 1))
      vp vn score
    simp only [block_row_1w]
    rw [hbs, hd, hbv, hbn, hemod]
    rw [if_pos ⟨hcond1, hcond2⟩, if_pos ⟨hcond1, hcond2'⟩]
  · simp only [blockSc2]
    omega
  · simp only [blockSc2]
    omega

/-- The block loop invariant: after `r` rows the state is still the
single in-band block, carrying the Hyyrö column for the consumed prefix
and a cutoff still at or above the true distance. -/
theorem hyrroe2003_block_fold (s1 s2 : List α) (k : Nat)
    (h1 : 1 ≤ s1.length) (h64 : s1.length ≤ 64) (hkb : k ≤ 63)
    (hlev1 : 1 ≤ lev s1 s2) (hlevk : lev s1 s2 ≤ k) :
    ∀ r, r ≤ s2.length →
      ∃ vp vn score sc,
        (s2.take r).foldl
          (fun ost c => ost.bind
            (fun st => match st with
              | Sum.inr v => some (Sum.inr v)
              | Sum.inl st => block_row_1w (fun c => pmVec s1 c)
                  (1 <<< (s1.length - 1)) s1.length s2.length st c))
          (some (Sum.inl (0, 2 ^ 64 - 1, 0, s1.length,
            min k (max s1.length s2.length))))
        = some (Sum.inl (r, vp, vn, score, sc)) ∧
        hyrroeInv s1 (s2.take r) (vp, vn, score) ∧
        lev s1 s2 ≤ sc ∧ sc ≤ k := by
  intro r
  induction r with
  | zero =>
      intro _
      refine ⟨2 ^ 64 - 1, 0, s1.length, min k (max s1.length s2.length),
        ?_, ?_, le_min hlevk (lev_le_max s1 s2), min_le_left _ _⟩
      · rw [List.take_zero, List.foldl_nil]
      · rw [List.take_zero]
        exact hyrroeInv_init s1 h64
  | succ r ih =>
      intro ht
      have hr : r < s2.length := by omega
      obtain ⟨vp, vn, score, sc, hfold, hinv, hsc1, hsck⟩ := ih (by omega)
      have hc : s2.get? r = some (s2.get ⟨r, hr⟩) := List.get?_eq_get hr
      have hscore : score = lev s1 (s2.take r) := hinv.1
      subst hscore
      obtain ⟨vp2, vn2, hrow, hinv2, hsc1', hsck'⟩ :=
        block_row_1w_inv s1 s2 k r (s2.get ⟨r, hr⟩) h1 h64 hkb hc hlev1
          hlevk vp vn (lev s1 (s2.take r)) sc hinv hsc1 hsck
      refine ⟨vp2, vn2, lev s1 (s2.take (r + 1)),
        (blockSc2 sc (lev s1 (s2.take (r + 1))) s1.length s2.length
          r).toNat, ?_, hinv2, hsc1', hsck'⟩
      have htc : s2.take (r + 1) = s2.take r ++ [s2.get ⟨r, hr⟩] := by
        rw [List.take_succ, ← List.get?_eq_getElem?, hc]
        rfl
      rw [htc, List.foldl_append, hfold, List.foldl_cons, List.foldl_nil,
        ← htc]
      exact hrow

/-- On a one-word pattern, `hyrroe2003_block` returns exactly the
uniform Levenshtein distance whenever that distance is within the
cutoff (and positive, as it is whenever the sequences start
differently). -/
theorem hyrroe2003_block_1word_correct (s1 s2 : List α) (k : Nat)
    (h1 : 1 ≤ s1.length) (h64 : s1.length ≤ 64) (hkb : k ≤ 63)
    (hlev1 : 1 ≤ lev s1 s2) (hlevk : lev s1 s2 ≤ k) :
    hyrroe2003_block_1word (fun c => pmVec s1 c) s1.length s2 s2.length k
      = some (lev s1 s2) := by
  have hl1 : s1.length ≤ lev s1 s2 + s2.length :=
    length_le_lev_add_left s1 s2
  have hl2 : s2.length ≤ lev s1 s2 + s1.length :=
    length_le_lev_add_right s1 s2
  obtain ⟨vp, vn, score, sc, hfold, hinv, hsc1, hsck⟩ :=
    hyrroe2003_block_fold s1 s2 k h1 h64 hkb hlev1 hlevk s2.length le_rfl
  rw [List.take_length] at hfold
  have hscore : score = lev s1 s2 := by
    have h := hinv.1
    rw [List.take_length] at h
    exact h
  subst hscore
  rw [hyrroe2003_block_1word, if_neg (by omega)]
  rw [show (s1.length - 1) % 64 = s1.length - 1 from
    Nat.mod_eq_of_lt (by omega)]
  rw [hfold]
  simp only [blockScore_1w]
  rw [if_pos hsc1]

/-- **C3 (amended).** Engine agreement within the cutoff: under the
conjunction of the engines' preconditions (Mbleven: cutoff in `{1,2,3}`,
non-empty sequences with differing first and last elements, length
difference within the cutoff; Hyyrö: `1 ≤ len1 ≤ 64`; small band
additionally: `cutoff ≤ len1`, the engine's own debug assertion),
whenever the true distance is within the cutoff, all five variants —
Wagner–Fischer, Mbleven, the Hyyrö single-word engine, the Hyyrö
small-band engine and the Hyyrö block engine — return exactly the
uniform Levenshtein distance.  (Above the cutoff they return different
sentinels — see the counterexample — so the engines do not agree on
every input where their preconditions hold, as originally claimed.) -/
theorem levenshtein_engines_agree (s1 s2 : List α) (k : Nat)
    (hk : k = 1 ∨ k = 2 ∨ k = 3) (h1 : s1 ≠ []) (h2 : s2 ≠ [])
    (hhead : s1.head? ≠ s2.head?) (hlast : s1.getLast? ≠ s2.getLast?)
    (hd1 : s1.length - s2.length ≤ k) (hd2 : s2.length - s1.length ≤ k)
    (h64 : s1.length ≤ 64) (hlev : lev s1 s2 ≤ k) :
    generalized_wagner_fischer WeightTable.default s1 s2 = lev s1 s2 ∧
    mbleven2018 s1 s2 k = some (lev s1 s2) ∧
    hyrroe2003 s1 s2 k = lev s1 s2 ∧
    (k ≤ s1.length →
      hyrroe2003_small_band_with_pm (blockPmGet s1)
        (ceil_div_usize s1.length 64) s1.length s2 s2.length k
        = lev s1 s2) ∧
    hyrroe2003_block_1word (fun c => blockPmGet s1 0 c) s1.length s2
      s2.length k = some (lev s1 s2) := by
  have hm : 1 ≤ s1.length := by
    cases s1 with
    | nil => exact absurd rfl h1
    | cons x xs => simp
  have hk3 : k ≤ 3 := by
    rcases hk with h | h | h <;> omega
  refine ⟨generalized_wagner_fischer_uniform s1 s2, ?_, ?_, ?_, ?_⟩
  · rw [mbleven2018]
    by_cases hlt : s1.length < s2.length
    · rw [if_pos hlt]
      obtain ⟨r, hr, ha, _⟩ := mbleven2018_main_correct s2 s1 k hk h1
        (le_of_lt hlt) (fun h => hhead h.symm) (fun h => hlast h.symm) hd2
      rw [lev_comm s2 s1] at ha
      rw [hr, ha hlev]
    · rw [if_neg hlt]
      obtain ⟨r, hr, ha, _⟩ := mbleven2018_main_correct s1 s2 k hk h2
        (le_of_not_lt hlt) hhead hlast hd1
      rw [hr, ha hlev]
  · have h := hyrroe2003_loop_inv s1 hm h64 s2 [] _ (hyrroeInv_init s1 h64)
    rw [List.nil_append] at h
    simp only [hyrroe2003]
    rw [h.1, if_pos hlev]
  · intro hkle
    have hw : ceil_div_usize s1.length 64 = 1 := by
      simp only [ceil_div_usize]
      omega
    rw [hw]
    exact small_band_correct s1 s2 k (by omega) h64 hkle hlev
  · have hlev1 : 1 ≤ lev s1 s2 := by
      by_contra hcon
      have h0 : lev s1 s2 = 0 := by omega
      exact hhead (by rw [eq_of_lev_eq_zero s1 s2 h0])
    have hpm : (fun c => blockPmGet s1 0 c) = (fun c => pmVec s1 c) :=
      funext (fun c => by
        rw [blockPmGet, Nat.mul_zero, List.drop_zero,
          List.take_of_length_le h64])
    rw [hpm]
    exact hyrroe2003_block_1word_correct s1 s2 k hm h64 (by omega)
      hlev1 hlev

/-- Witness for `levenshtein_engines_agree` at `s1 = [0]`, `s2 = [1]`,
`k = 1` (where `k ≤ len1`, so the small-band conjunct is not
vacuous). -/
theorem levenshtein_engines_agree_witness :
    generalized_wagner_fischer WeightTable.default ([0] : List Nat) [1]
        = lev ([0] : List Nat) [1] ∧
    mbleven2018 ([0] : List Nat) [1] 1 = some (lev ([0] : List Nat) [1]) ∧
    hyrroe2003 ([0] : List Nat) [1] 1 = lev ([0] : List Nat) [1] ∧
    (1 ≤ ([0] : List Nat).length →
      hyrroe2003_small_band_with_pm (blockPmGet ([0] : List Nat))
        (ceil_div_usize ([0] : List Nat).length 64) ([0] : List Nat).length
        [1] ([1] : List Nat).length 1 = lev ([0] : List Nat) [1]) ∧
    hyrroe2003_block_1word (fun c => blockPmGet ([0] : List Nat) 0 c)
      ([0] : List Nat).length [1] ([1] : List Nat).length 1
      = some (lev ([0] : List Nat) [1]) :=
  levenshtein_engines_agree [0] [1] 1 (Or.inl rfl) (by decide) (by decide)
    (by decide) (by decide) (by decide) (by decide) (by decide)
    (by rw [← generalized_wagner_fischer_uniform]; decide)

/-- **C3 counterexample.** At `s1 = [0, 1, 2]`, `s2 = [2, 0]`,
cutoff 2 the preconditions of the Mbleven and Hyyrö single-word engines
both hold, yet Mbleven returns `3` (its row sentinel `cutoff + 1`) while
Hyyrö returns `usize::MAX`: the engines do not agree on every input
where their preconditions hold. -/
theorem levenshtein_engines_disagree :
    mbleven2018 ([0, 1, 2] : List Nat) [2, 0] 2 = some 3 ∧
    hyrroe2003 ([0, 1, 2] : List Nat) [2, 0] 2 = USIZE_MAX ∧
    generalized_wagner_fischer WeightTable.default ([0, 1, 2] : List Nat)
      [2, 0] = 3 ∧
    (3 : Nat) ≠ USIZE_MAX := by
  have hlev : lev ([0, 1, 2] : List Nat) [2, 0] = 3 := by
    rw [← generalized_wagner_fischer_uniform]
    decide
  refine ⟨?_, ?_, by decide, by norm_num [USIZE_MAX]⟩
  · have f1 : mbleven_simulate 0 ([2] : List Nat) [0] = 1 := by
      rw [mbleven_simulate_cons_cons]
      norm_num
    have f2 : mbleven_simulate 3 ([1, 2] : List Nat) [2, 0] = 2 := by
      rw [mbleven_simulate_cons_cons]
      norm_num [f1]
    have f3 : mbleven_simulate 1 ([1, 2] : List Nat) [0] = 2 := by
      rw [mbleven_simulate_cons_cons]
      norm_num [f1]
    have f4 : mbleven_simulate 13 ([0, 1, 2] : List Nat) [2, 0] = 3 := by
      rw [mbleven_simulate_cons_cons]
      norm_num [f2]
    have f5 : mbleven_simulate 7 ([0, 1, 2] : List Nat) [2, 0] = 3 := by
      rw [mbleven_simulate_cons_cons]
      norm_num [f3]
    norm_num [mbleven2018, mbleven2018_main, mbleven_loop,
      LEVENSHTEIN_MBLEVEN2018_MATRIX, f4, f5]
  · have hm := hyrroe2003_loop_inv ([0, 1, 2] : List Nat) (by decide)
      (by decide) [2, 0] [] _ (hyrroeInv_init _ (by decide))
    rw [List.nil_append] at hm
    simp only [hyrroe2003]
    rw [hm.1, hlev, if_neg (by omega)]

/-- **C7 counterexample.** For `s1 = "abc"`-like `[0, 1, 2]` and
`s2 = "ca"`-like `[2, 0]` with cutoff 2, both tabulated programs of row
`(2, 1)` — `0x0D` and `0x07` — count 3 edits, the true distance is 3, so
no program achieves a count within the cutoff; yet the engine returns
`3 = cutoff + 1`, not `usize::MAX` as the claim states. -/
theorem mbleven2018_counterexample :
    mbleven2018 ([0, 1, 2] : List Nat) [2, 0] 2 = some 3 ∧
    mbleven_simulate 0x0D ([0, 1, 2] : List Nat) [2, 0] = 3 ∧
    mbleven_simulate 0x07 ([0, 1, 2] : List Nat) [2, 0] = 3 ∧
    generalized_wagner_fischer WeightTable.default ([0, 1, 2] : List Nat)
      [2, 0] = 3 ∧
    (3 : Nat) ≠ USIZE_MAX := by
  have e1 : mbleven_simulate 0 ([2] : List Nat) [0] = 1 := by
    rw [mbleven_simulate_cons_cons]
    norm_num
  have e2 : mbleven_simulate 3 ([1, 2] : List Nat) [2, 0] = 2 := by
    rw [mbleven_simulate_cons_cons]
    norm_num [e1]
  have e3 : mbleven_simulate 1 ([1, 2] : List Nat) [0] = 2 := by
    rw [mbleven_simulate_cons_cons]
    norm_num [e1]
  have hs1 : mbleven_simulate 13 ([0, 1, 2] : List Nat) [2, 0] = 3 := by
    rw [mbleven_simulate_cons_cons]
    norm_num [e2]
  have hs2 : mbleven_simulate 7 ([0, 1, 2] : List Nat) [2, 0] = 3 := by
    rw [mbleven_simulate_cons_cons]
    norm_num [e3]
  refine ⟨?_, hs1, hs2, by decide, by norm_num [USIZE_MAX]⟩
  norm_num [mbleven2018, mbleven2018_main, mbleven_loop,
    LEVENSHTEIN_MBLEVEN2018_MATRIX, hs1, hs2]

end RapidFuzz
